import Mathlib

/-!
# The data-supply pipeline of caffe: `DataReader` and `BasePrefetchingDataLayer`

A shallow embedding of `src/caffe/data_reader.cpp`, `include/caffe/data_reader.hpp`
and `src/caffe/layers/base_data_layer.cpp`.

Threads are embedded as step functions on an explicit state; a blocking `pop`
on an empty queue is a step that is not enabled (`none`).  Heap objects
(`Datum*`, `shared_ptr<QueuePair>`, `shared_ptr<Body>`, `Batch*`) are addresses
(`Nat`) into explicit stores.
-/

namespace caffe

/-! ## Collaborators declared outside the sources -/

/-- Modelled from the spec: `db::Cursor` (`caffe/util/db.hpp` is not among the
sources).  The spec gives its shape: `value() -> bytes`, `next()`,
`valid() -> bool`, `seek_to_first()` over a sequential database.  The database
is the list of its serialized records, the cursor a position in it. -/
structure Cursor where
  records : List String
  pos : Nat
deriving DecidableEq

namespace Cursor

/-- Modelled from the spec: `valid()`, the cursor stands on a record. -/
def valid (c : Cursor) : Bool := decide (c.pos < c.records.length)

/-- Modelled from the spec: `value()`, the current value as bytes. -/
def value (c : Cursor) : String := c.records.getD c.pos ""

/-- Modelled from the spec: `Next()`, the sequential next. -/
def Next (c : Cursor) : Cursor := { c with pos := c.pos + 1 }

/-- Modelled from the spec: `SeekToFirst()`. -/
def SeekToFirst (c : Cursor) : Cursor := { c with pos := 0 }

end Cursor

/-- Modelled from the spec: `db->NewCursor()`, a cursor that starts at the
first record of the opened database. -/
def NewCursor (records : List String) : Cursor := { records := records, pos := 0 }

/-- Modelled from the spec: `BlockingQueue<T>` (`caffe/util/blocking_queue.hpp`
is not among the sources), a thread-safe FIFO: `push` appends and never
blocks, `pop` removes the front item and blocks while there is none. -/
structure BlockingQueue (α : Type) where
  queue_ : List α
deriving DecidableEq

namespace BlockingQueue

variable {α : Type}

/-- Modelled from the spec: `push(item)` appends. -/
def push (q : BlockingQueue α) (t : α) : BlockingQueue α := { queue_ := q.queue_ ++ [t] }

/-- Modelled from the spec: `pop()` returns the front item and the remaining
queue; `none` stands for a caller that is blocked on the empty queue. -/
def pop (q : BlockingQueue α) : Option (α × BlockingQueue α) :=
  match q.queue_ with
  | [] => none
  | t :: rest => some (t, { queue_ := rest })

/-- Modelled from the spec: `size()`. -/
def size (q : BlockingQueue α) : Nat := q.queue_.length

end BlockingQueue

/-! ## `DataReader::QueuePair` and `DataReader::Body::read_one` -/

/-- A `Datum` object on the heap: `id` is its identity inside its queue pair
(the `Datum*` that travels through the queues), `data` the serialized record
it was last parsed from (the empty string for a fresh `new Datum()`). -/
structure Datum where
  id : Nat
  data : String
deriving DecidableEq

/-- `datum->ParseFromString(bytes)`: the contents are replaced by the record
parsed, the object stays the same. -/
def Datum.ParseFromString (d : Datum) (bytes : String) : Datum := { d with data := bytes }

/-- `DataReader::QueuePair`. -/
structure QueuePair where
  free_ : BlockingQueue Datum
  full_ : BlockingQueue Datum
deriving DecidableEq

/-- `QueuePair::QueuePair(int size)`:
`for (int i = 0; i < size; ++i) free_.push(new Datum());`.
A `size` below 1 runs the loop zero times. -/
def QueuePair.new (size : Int) : QueuePair :=
  { free_ := (List.range size.toNat).foldl (fun q i => q.push { id := i, data := "" }) { queue_ := [] },
    full_ := { queue_ := [] } }

/-- `read_one`, line 142: `Datum* datum = qp->free_.pop();`
(`none`: blocked on an empty `free_`). -/
def read_one_pop (qp : QueuePair) : Option (Datum × QueuePair) :=
  match qp.free_.pop with
  | none => none
  | some (datum, rest) => some (datum, { qp with free_ := rest })

/-- `read_one`, lines 144-153, with the popped `datum` in hand: parse the
cursor's value into it, push it to `full_`, advance the cursor and rewind it
when that leaves it invalid.  `read_one` is `void`: what it leaves is the
cursor and the queue pair. -/
def read_one_push (cursor : Cursor) (qp : QueuePair) (datum : Datum) : Cursor × QueuePair :=
  let datum := datum.ParseFromString cursor.value
  let qp := { qp with full_ := qp.full_.push datum }
  let cursor := cursor.Next
  let cursor := if !cursor.valid then cursor.SeekToFirst else cursor
  (cursor, qp)

/-- `DataReader::Body::read_one(cursor, qp)`, run without interruption
(`none`: blocked on an empty `free_`). -/
def read_one (cursor : Cursor) (qp : QueuePair) : Option (Cursor × QueuePair) :=
  match read_one_pop qp with
  | none => none
  | some (datum, qp) => some (read_one_push cursor qp datum)

/-- `n` successive calls of `read_one` on one queue pair, its consumer being
idle (`none` when a call blocks). -/
def read_n (cursor : Cursor) (qp : QueuePair) : Nat → Option (Cursor × QueuePair)
  | 0 => some (cursor, qp)
  | n + 1 =>
    match read_one cursor qp with
    | none => none
    | some (cursor, qp) => read_n cursor qp n

/-! ## `DataReader::Body::InternalThreadEntry` with its consumers

One `Body` with the channels registered with it.  The body thread, the
readers that register and the consumers that pop and return Datums interleave
at the granularity of the queue operations. -/

/-- `Phase`, declared in `caffe.proto` (generated header, not among the
sources); the code tests `param_.phase() == TRAIN`. -/
inductive Phase where
  | TRAIN
  | TEST
deriving DecidableEq

/-- `int solver_count = param_.phase() == TRAIN ? Caffe::solver_count() : 1;`
(line 91). -/
def solver_count (phase : Phase) (caffe_solver_count : Int) : Int :=
  if phase = Phase.TRAIN then caffe_solver_count else 1

/-- A queue pair shared between the body and one reader.  `held` are the
Datums the reader's consumer popped from `full_` and has not pushed back to
`free_` yet; `size` is the argument `QueuePair` was constructed with. -/
structure Channel where
  qp : QueuePair
  held : List Datum
  size : Int
deriving DecidableEq

/-- Program counter of the body thread in `InternalThreadEntry`.  `i` is the
loop variable, `qp` the address of the local `shared_ptr<QueuePair> qp`,
`datum` the local of `read_one` between its pop and its push.  `r` counts the
passes of the main loop: the pass in progress is round `r`, the startup loop
being round 0. -/
inductive Pc where
  | startPop (i : Nat)
  | startRead (i : Nat) (qp : Nat)
  | startFill (i : Nat) (qp : Nat) (datum : Datum)
  | loopHead (r : Nat)
  | mainRead (r : Nat) (i : Nat)
  | mainFill (r : Nat) (i : Nat) (datum : Datum)
  | check (r : Nat)
  | aborted
  | stopped
deriving DecidableEq

/-- One record pushed to the `full_` queue of channel `chan` in round `round`
(a history variable, not program state). -/
structure Delivery where
  round : Nat
  chan : Nat
  record : String
deriving DecidableEq

/-- State of one body and its channels.  `chans` is the store of the queue
pairs constructed by the readers of this body, in construction order, so a
`shared_ptr<QueuePair>` is an index into it.  `stop` is the interruption
request that `must_stop()` tests.  `log` is the history of the pushes to
`full_` queues. -/
structure Sys where
  solver_count : Nat
  cursor : Cursor
  new_queue_pairs_ : BlockingQueue Nat
  qps : List Nat
  chans : List Channel
  pc : Pc
  stop : Bool
  log : List Delivery
deriving DecidableEq

/-- State when the body thread enters `InternalThreadEntry`: the database is
opened, the cursor is new, no reader has registered.  A `solver_count` below 1
runs neither loop body, as 0 does. -/
def Sys.init (solver_count : Int) (records : List String) : Sys :=
  { solver_count := solver_count.toNat
    cursor := NewCursor records
    new_queue_pairs_ := { queue_ := [] }
    qps := []
    chans := []
    pc := Pc.startPop 0
    stop := false
    log := [] }

/-- Modelled from the spec: a thread blocked in a queue's `pop`
(`internal_thread.cpp` and `blocking_queue.cpp` are not among the sources).
"A cooperative stop signal interrupts the blocking pop/read operations; the
loop exits cleanly": the wait ends with `thread_interrupted` when a stop was
requested (caught at line 134, the thread exits), otherwise the thread stays
blocked. -/
def Sys.blocked (s : Sys) : Option Sys :=
  if s.stop then some { s with pc := Pc.stopped } else none

/-- The first half of `read_one(cursor, qps-entry)` on channel `qp`:
the pop from `free_`. -/
def Sys.read_pop (s : Sys) (qp : Nat) (k : Datum → Pc) : Option Sys :=
  match s.chans[qp]? with
  | none => none
  | some ch =>
    match read_one_pop ch.qp with
    | none => s.blocked
    | some (datum, q) =>
      some { s with chans := s.chans.set qp { ch with qp := q }, pc := k datum }

/-- The second half of `read_one` on channel `qp` in round `r`: parse, push to
`full_`, advance the cursor; `log` records the round, the channel and the
record read from the cursor. -/
def Sys.read_push (s : Sys) (r : Nat) (qp : Nat) (datum : Datum) (pc : Pc) : Option Sys :=
  match s.chans[qp]? with
  | none => none
  | some ch =>
    match read_one_push s.cursor ch.qp datum with
    | (cursor, q) =>
      some { s with
        cursor := cursor
        chans := s.chans.set qp { ch with qp := q }
        pc := pc
        log := s.log ++ [{ round := r, chan := qp, record := s.cursor.value }] }

/-- One step of the body thread (lines 111-132); `none` when the thread is
blocked or has ended. -/
def Sys.body (s : Sys) : Option Sys :=
  match s.pc with
  | Pc.startPop i =>
    -- for (int i = 0; i < solver_count; ++i)
    if i < s.solver_count then
      -- shared_ptr<QueuePair> qp(new_queue_pairs_.pop());
      match s.new_queue_pairs_.pop with
      | none => s.blocked
      | some (qp, rest) => some { s with new_queue_pairs_ := rest, pc := Pc.startRead i qp }
    else some { s with pc := Pc.loopHead 1 }
  | Pc.startRead i qp =>
    -- read_one(cursor.get(), qp.get());
    s.read_pop qp (Pc.startFill i qp)
  | Pc.startFill i qp datum =>
    -- ... read_one returns; qps.push_back(qp); ++i
    match s.read_push 0 qp datum (Pc.startPop (i + 1)) with
    | none => none
    | some t => some { t with qps := t.qps ++ [qp] }
  | Pc.loopHead r =>
    -- while (!must_stop())
    if s.stop then some { s with pc := Pc.stopped } else some { s with pc := Pc.mainRead r 0 }
  | Pc.mainRead r i =>
    -- for (int i = 0; i < solver_count; ++i) read_one(cursor.get(), qps[i].get());
    if i < s.solver_count then
      match s.qps[i]? with
      | none => none
      | some qp => s.read_pop qp (Pc.mainFill r i)
    else some { s with pc := Pc.check r }
  | Pc.mainFill r i datum =>
    match s.qps[i]? with
    | none => none
    | some qp => s.read_push r qp datum (Pc.mainRead r (i + 1))
  | Pc.check r =>
    -- CHECK_EQ(new_queue_pairs_.size(), 0);
    if s.new_queue_pairs_.size = 0 then some { s with pc := Pc.loopHead (r + 1) }
    else some { s with pc := Pc.aborted }
  | Pc.aborted => none
  | Pc.stopped => none

/-- What a reader's constructor does to the body (lines 27 and 41): a new
`QueuePair(size)` is constructed and pushed on `new_queue_pairs_`.  The two
are one step, so the address of a queue pair is its position in the order of
the pushes: channel `i` is the channel registered `i`-th. -/
def Sys.register (s : Sys) (size : Int) : Sys :=
  { s with
    chans := s.chans ++ [{ qp := QueuePair.new size, held := [], size := size }]
    new_queue_pairs_ := s.new_queue_pairs_.push s.chans.length }

/-- The consumer of channel `c` pops a Datum from `full_`
(`none`: blocked on the empty queue, or no such channel). -/
def Sys.consumer_pop (s : Sys) (c : Nat) : Option Sys :=
  match s.chans[c]? with
  | none => none
  | some ch =>
    match ch.qp.full_.pop with
    | none => none
    | some (datum, rest) =>
      some { s with
        chans := s.chans.set c { ch with qp := { ch.qp with full_ := rest }, held := ch.held ++ [datum] } }

/-- The consumer of channel `c` pushes the `k`-th Datum it holds back to
`free_` (`none`: it holds no such Datum). -/
def Sys.consumer_push (s : Sys) (c : Nat) (k : Nat) : Option Sys :=
  match s.chans[c]? with
  | none => none
  | some ch =>
    match ch.held[k]? with
    | none => none
    | some datum =>
      some { s with
        chans := s.chans.set c
          { ch with qp := { ch.qp with free_ := ch.qp.free_.push datum }, held := ch.held.eraseIdx k } }

/-- The steps of the threads around one body. -/
inductive Action where
  | register (size : Int)
  | body
  | requestStop
  | consumerPop (c : Nat)
  | consumerPush (c : Nat) (k : Nat)
deriving DecidableEq

/-- One step of the system; `none` when the step is not enabled. -/
def Sys.step (s : Sys) : Action → Option Sys
  | Action.register size => some (s.register size)
  | Action.body => s.body
  | Action.requestStop => some { s with stop := true }
  | Action.consumerPop c => s.consumer_pop c
  | Action.consumerPush c k => s.consumer_push c k

/-- A run: the steps of an interleaving, one after the other. -/
def Sys.run (s : Sys) : List Action → Option Sys
  | [] => some s
  | a :: rest =>
    match s.step a with
    | none => none
    | some t => t.run rest

/-- The records delivered to channel `c` so far, in delivery order. -/
def Sys.delivered (s : Sys) (c : Nat) : List String :=
  (s.log.filter (fun d => d.chan = c)).map Delivery.record

/-- Number of channels the body has taken from `new_queue_pairs_`. -/
def Sys.taken (s : Sys) : Nat :=
  match s.pc with
  | Pc.startRead _ _ => s.qps.length + 1
  | Pc.startFill _ _ _ => s.qps.length + 1
  | _ => s.qps.length

/-- Number of Datums of channel `c` the body thread has checked out: 1 between
the pop and the push of a `read_one` on `c`. -/
def Sys.in_flight (s : Sys) (c : Nat) : Nat :=
  match s.pc with
  | Pc.startFill _ qp _ => if qp = c then 1 else 0
  | Pc.mainFill _ i _ => if s.qps[i]? = some c then 1 else 0
  | _ => 0

/-! ## Invariants of the body and its channels -/

/-- The cursor part of `read_one` (lines 149-153): `Next`, then `SeekToFirst`
when the cursor is no longer valid. -/
def Cursor.advance (c : Cursor) : Cursor :=
  if !c.Next.valid then c.Next.SeekToFirst else c.Next

/-- The round-robin schedule: the `j`-th delivery of a body with `N` consumers
is made in round `j / N` to the channel registered `j % N`-th. -/
def schedule (N : Nat) (n : Nat) : List (Nat × Nat) :=
  (List.range n).map (fun j => (j / N, j % N))

/-- The cyclic sequence of the cursor over the database `db`: its `j`-th
value is the record at position `j % db.length`. -/
def cyclic (db : List String) (n : Nat) : List String :=
  (List.range n).map (fun j => db.getD (j % db.length) "")

/-- The local `shared_ptr<QueuePair> qp` of the startup loop, when it is
set. -/
def Sys.hand (s : Sys) : List Nat :=
  match s.pc with
  | Pc.startRead _ qp => [qp]
  | Pc.startFill _ qp _ => [qp]
  | _ => []

/-- Invariant on the cursor and the records delivered: the cursor reads the
database `db`, it stands at position `n % K` after `n` deliveries, and the
records delivered are the cyclic sequence of the database. -/
structure InvDb (db : List String) (s : Sys) : Prop where
  recs : s.cursor.records = db
  pos : s.cursor.pos = s.log.length % db.length
  log : s.log.map Delivery.record = cyclic db s.log.length

/-- What the program counter says about the loop variables, for a body with
`N` expected consumers. -/
def PcInv (N : Nat) (s : Sys) : Prop :=
  match s.pc with
  | Pc.startPop i => s.qps.length = i ∧ i ≤ N ∧ s.log.length = i
  | Pc.startRead i _ => s.qps.length = i ∧ i < N ∧ s.log.length = i
  | Pc.startFill i _ _ => s.qps.length = i ∧ i < N ∧ s.log.length = i
  | Pc.loopHead r => s.qps.length = N ∧ 1 ≤ r ∧ s.log.length = r * N
  | Pc.mainRead r i => s.qps.length = N ∧ 1 ≤ r ∧ i ≤ N ∧ s.log.length = r * N + i
  | Pc.mainFill r i _ => s.qps.length = N ∧ 1 ≤ r ∧ i < N ∧ s.log.length = r * N + i
  | Pc.check r => s.qps.length = N ∧ 1 ≤ r ∧ s.log.length = (r + 1) * N
  | Pc.aborted => s.qps.length = N ∧ s.new_queue_pairs_.queue_ ≠ []
  | Pc.stopped =>
    s.stop = true ∧ ((s.qps.length ≤ N ∧ s.log.length = s.qps.length) ∨ s.qps.length = N)

/-- Invariant on the round-robin order: the channels are taken from
`new_queue_pairs_` in registration order, and the deliveries follow the
schedule. -/
structure InvRR (N : Nat) (s : Sys) : Prop where
  count : s.solver_count = N
  taken : s.qps = List.range s.qps.length
  reg : s.pc ≠ Pc.stopped →
    s.qps ++ s.hand ++ s.new_queue_pairs_.queue_ = List.range s.chans.length
  log : s.log.map (fun d => (d.round, d.chan)) = schedule N s.log.length
  pc : PcInv N s

/-- Conservation in one channel: the Datums in `free_`, in `full_`, held by
the consumer and checked out by the body are as many as the constructor
made. -/
def Conserved (s : Sys) (c : Nat) (ch : Channel) : Prop :=
  ch.qp.free_.size + ch.qp.full_.size + ch.held.length + s.in_flight c = ch.size.toNat

/-- Invariant on the Datums: conservation in every channel, and the body has
no Datum of a channel that is not constructed yet. -/
def InvCons (s : Sys) : Prop :=
  (∀ c ch, s.chans[c]? = some ch → Conserved s c ch)
  ∧ (∀ c, s.chans.length ≤ c → s.in_flight c = 0)

/-- The `j`-th delivery of a body with `N` consumers over the database `db`:
round `j / N`, channel `j % N`, the record at cursor position `j % K`. -/
def delivery (N : Nat) (db : List String) (j : Nat) : Delivery :=
  { round := j / N, chan := j % N, record := db.getD (j % db.length) "" }

/-- The first `n` deliveries. -/
def deliveries (N : Nat) (db : List String) (n : Nat) : List Delivery :=
  (List.range n).map (delivery N db)

/-- Successive calls of `read_one` on one channel whose consumer works on it
between the calls: `qps` are the states in which the calls find the queue
pair.  Returns the cursor after the last call and the state in which each
call leaves the queue pair, in order; `none` when a call blocks. -/
def reads (cursor : Cursor) : List QueuePair → Option (Cursor × List QueuePair)
  | [] => some (cursor, [])
  | qp :: rest =>
    match read_one cursor qp with
    | none => none
    | some (cursor, q) =>
      match reads cursor rest with
      | none => none
      | some (c, left) => some (c, q :: left)

/-- The `full_` queue of channel `c`, front first (empty while no such
channel is constructed). -/
def Sys.full (s : Sys) (c : Nat) : List Datum :=
  match s.chans[c]? with
  | none => []
  | some ch => ch.qp.full_.queue_

/-- The pass the body thread is in: 0 in the startup loop, `r` in the `r`-th
pass of the main loop. -/
def Sys.pass (s : Sys) : Nat :=
  match s.pc with
  | Pc.loopHead r => r
  | Pc.mainRead r _ => r
  | Pc.mainFill r _ _ => r
  | Pc.check r => r
  | _ => 0

/-- The Datums that one queue operation pushed, seen on the queue before
(`q`) and after (`q1`): those of `q1` beyond `q` when `q1` extends `q`; a pop
shortens the queue and pushes nothing. -/
def pushed_on (q q1 : List Datum) : List Datum :=
  if q <+: q1 then q1.drop q.length else []

/-- The pushes to the `full_` queues made by a step from `s` to `t`, read off
the queues of the two states: the channel whose `full_` grew, the record in
the Datum added, and the pass the body was in. -/
def Sys.pushes (s t : Sys) : List Delivery :=
  (List.range t.chans.length).flatMap (fun c =>
    (pushed_on (s.full c) (t.full c)).map
      (fun d => { round := s.pass, chan := c, record := d.data }))

/-- The pushes to the `full_` queues along the run of `acts` from `s`, in
order, read off the states the run goes through. -/
def Sys.history (s : Sys) : List Action → List Delivery
  | [] => []
  | a :: rest =>
    match s.step a with
    | none => []
    | some t => s.pushes t ++ t.history rest

/-- The records pushed to the `full_` queue of channel `c` along the run of
`acts` from `s`, in order. -/
def Sys.received (s : Sys) (acts : List Action) (c : Nat) : List String :=
  ((s.history acts).filter (fun d => d.chan = c)).map Delivery.record

/-- The pushes of pass `r` along the run of `acts` from `s`, in order. -/
def Sys.pushes_of_round (s : Sys) (acts : List Action) (r : Nat) : List Delivery :=
  (s.history acts).filter (fun d => d.round = r)

/-- The number of pops the consumer of channel `c` makes in the schedule
`acts`. -/
def pops (c : Nat) : List Action → Nat
  | [] => 0
  | a :: rest => (if a = Action.consumerPop c then 1 else 0) + pops c rest

/-- A second schedule of the scenario's body: channels of depth 1, the
second reader registers late, the consumers return each Datum before the body
needs it again, and a stop is requested during the first pass. -/
def scenario_depth1 : List Action :=
  [Action.register 1, Action.body, Action.body, Action.body, Action.register 1,
   Action.body, Action.body, Action.body, Action.body, Action.body,
   Action.consumerPop 0, Action.consumerPush 0 0, Action.body, Action.requestStop, Action.body,
   Action.consumerPop 1, Action.consumerPush 1 0, Action.body, Action.body, Action.body,
   Action.body, Action.body]

/-- A schedule in which the body and a consumer both hold a Datum of channel
0 of depth 6: two registrations, the startup pass, the consumer's pop, the
body's next pop. -/
def scenario_in_flight : List Action :=
  [Action.register 6, Action.register 6] ++ List.replicate 8 Action.body
    ++ [Action.consumerPop 0, Action.body]

/-- The startup pass of the scenario: two registrations, then the body runs
until it first enters the main loop. -/
def scenario_startup : List Action :=
  [Action.register 6, Action.register 6] ++ List.replicate 7 Action.body

/-- The environment lets the body run: no stop is requested, no more than
`N` readers have registered, and every queue pair was made with at least one
Datum. -/
def Sys.Served (N : Nat) (s : Sys) : Prop :=
  s.stop = false ∧ s.chans.length ≤ N ∧ ∀ x ∈ s.chans.map Channel.size, 1 ≤ x

/-- The invariants together with a cooperating environment. -/
structure Good (N : Nat) (s : Sys) : Prop where
  rr : InvRR N s
  cons : InvCons s
  served : s.Served N

/-- Some continuation of the interleaving makes the next delivery, and leaves
an environment that still lets the body run. -/
def Sys.Progress (N : Nat) (s : Sys) : Prop :=
  ∃ acts t, s.run acts = some t ∧ t.log.length = s.log.length + 1 ∧ t.Served N

/-- The scenario of the spec: 2 consumers of depth 6 over the records
A, B, C, D; the body runs alone through the startup pass and two passes of the
main loop. -/
def scenario : List Action :=
  [Action.register 6, Action.register 6] ++ List.replicate 22 Action.body

/-! ## `DataReader`: the registry `bodies_`, constructor and destructor -/

/-- The fields of `DataParameter` that `DataReader` reads (declared in
`caffe.proto`, generated header not among the sources). -/
structure DataParameter where
  source : String
  batch_size : Nat
  prefetch : Nat
deriving DecidableEq

/-- The fields of `LayerParameter` that `DataReader` reads (declared in
`caffe.proto`, generated header not among the sources). -/
structure LayerParameter where
  name : String
  phase : Phase
  data_param : DataParameter
deriving DecidableEq

/-- `DataReader::source_key`:
`return param.name() + ":" + param.data_param().source();`. -/
def source_key (param : LayerParameter) : String :=
  param.name ++ ":" ++ param.data_param.source

/-- The value an `unsigned int` has once it is passed for an `int`
parameter: 32 bits, two's complement. -/
def to_int (x : Nat) : Int :=
  if x % 2 ^ 32 < 2 ^ 31 then ((x % 2 ^ 32 : Nat) : Int) else ((x % 2 ^ 32 : Nat) : Int) - 2 ^ 32

/-- The argument of `new QueuePair(...)` at line 27:
`param.data_param().prefetch() * param.data_param().batch_size()`.
Both accessors return a `uint32` (the fields are declared in `caffe.proto`,
whose generated header is not among the sources), so the product is taken
modulo `2 ^ 32`; `QueuePair(int size)` receives it converted to `int`. -/
def queue_size (param : LayerParameter) : Int :=
  to_int ((param.data_param.prefetch % 2 ^ 32) * (param.data_param.batch_size % 2 ^ 32))

/-- `DataReader::Body` as the reader sees it: `param_` and
`new_queue_pairs_` (the elements are addresses of queue pairs). -/
structure Body where
  param_ : LayerParameter
  new_queue_pairs_ : BlockingQueue Nat
deriving DecidableEq

/-- The heap cell behind a `shared_ptr<Body>`: the number of `shared_ptr`s
that own the Body, and the Body.  At `use_count = 0` the Body is destroyed
(`~Body` has stopped its thread) and `weak_ptr`s to it are expired. -/
structure BodyCell where
  use_count : Nat
  body : Body
deriving DecidableEq

/-- A constructed `DataReader`: the addresses in `queue_pair_` and `body_`. -/
structure DataReader where
  queue_pair_ : Nat
  body_ : Nat
deriving DecidableEq

/-- `map<const string, weak_ptr<Body>>`: `none` is a key without entry,
`some weak` an entry; a `weak_ptr` is `none` when empty, else the address of
the Body it refers to. -/
abbrev BodyMap := String → Option (Option Nat)

/-- `bodies_[key]` as a map operation: `operator[]` inserts an empty
`weak_ptr` when the key has no entry. -/
def BodyMap.index (m : BodyMap) (key : String) : BodyMap :=
  fun k => if k = key then (match m key with
    | none => some none
    | some weak => some weak) else m k

/-- The `weak_ptr` that `bodies_[key]` refers to. -/
def BodyMap.weak (m : BodyMap) (key : String) : Option Nat :=
  match m key with
  | none => none
  | some weak => weak

/-- `bodies_[key] = weak`. -/
def BodyMap.assign (m : BodyMap) (key : String) (weak : Option Nat) : BodyMap :=
  fun k => if k = key then some weak else m k

/-- `bodies_.erase(key)`. -/
def BodyMap.erase (m : BodyMap) (key : String) : BodyMap :=
  fun k => if k = key then none else m k

/-- `weak.lock()`: the address and the cell of the Body when it is still
owned, `none` (a null `shared_ptr`) otherwise.  The caller's new `shared_ptr`
is counted by the caller. -/
def lock (heap : List BodyCell) (weak : Option Nat) : Option (Nat × BodyCell) :=
  match weak with
  | none => none
  | some a =>
    match heap[a]? with
    | none => none
    | some cell => if 0 < cell.use_count then some (a, cell) else none

/-- `weak.expired()`: `use_count() == 0`. -/
def expired (heap : List BodyCell) (weak : Option Nat) : Bool :=
  (lock heap weak).isNone

/-- The process as `DataReader` sees it: the static `bodies_`, the Bodies
ever constructed (by address), the queue pairs ever constructed (by address)
and the readers that are open. -/
structure World where
  bodies_ : BodyMap
  heap : List BodyCell
  queue_pairs : List QueuePair
  readers : List DataReader

/-- The process before any reader is constructed. -/
def World.empty : World :=
  { bodies_ := fun _ => none, heap := [], queue_pairs := [], readers := [] }

/-- `DataReader::DataReader(param)` (lines 26-42); the new reader is added at
the end of `readers`.  Constructing a Body starts its thread (line 76). -/
def World.construct (w : World) (param : LayerParameter) : World :=
  -- queue_pair_(new QueuePair(prefetch * batch_size))
  let queue_pair_ := w.queue_pairs.length
  let queue_pairs := w.queue_pairs ++ [QueuePair.new (queue_size param)]
  -- string key = source_key(param);
  let key := source_key param
  -- weak_ptr<Body>& weak = bodies_[key];
  let bodies := w.bodies_.index key
  -- body_ = weak.lock();
  match lock w.heap (bodies.weak key) with
  | some (body_, cell) =>
    -- body_->new_queue_pairs_.push(queue_pair_);
    { bodies_ := bodies
      heap := w.heap.set body_
        { use_count := cell.use_count + 1
          body := { cell.body with new_queue_pairs_ := cell.body.new_queue_pairs_.push queue_pair_ } }
      queue_pairs := queue_pairs
      readers := w.readers ++ [{ queue_pair_ := queue_pair_, body_ := body_ }] }
  | none =>
    -- body_.reset(new Body(param)); bodies_[key] = weak_ptr<Body>(body_);
    -- body_->new_queue_pairs_.push(queue_pair_);
    let body_ := w.heap.length
    { bodies_ := bodies.assign key (some body_)
      heap := w.heap ++
        [{ use_count := 1
           body := { param_ := param
                     new_queue_pairs_ := (BlockingQueue.mk []).push queue_pair_ } }]
      queue_pairs := queue_pairs
      readers := w.readers ++ [{ queue_pair_ := queue_pair_, body_ := body_ }] }

/-- `DataReader::~DataReader()` (lines 44-52) of the `k`-th open reader;
`none` when there is no such reader. -/
def World.destruct (w : World) (k : Nat) : Option World :=
  match w.readers[k]? with
  | none => none
  | some r =>
    match w.heap[r.body_]? with
    | none => none
    | some cell =>
      -- string key = source_key(body_->param_);
      let key := source_key cell.body.param_
      -- body_.reset();
      let heap := w.heap.set r.body_ { cell with use_count := cell.use_count - 1 }
      -- if (bodies_[key].expired()) bodies_.erase(key);
      let bodies := w.bodies_.index key
      let bodies := if expired heap (bodies.weak key) then bodies.erase key else bodies
      some { w with bodies_ := bodies, heap := heap, readers := w.readers.eraseIdx k }

/-- Constructions and destructions of readers, run one at a time. -/
inductive Op where
  | construct (param : LayerParameter)
  | destruct (k : Nat)
deriving DecidableEq

/-- One operation on the process. -/
def World.step (w : World) : Op → Option World
  | Op.construct param => some (w.construct param)
  | Op.destruct k => w.destruct k

/-- A sequence of operations. -/
def World.run (w : World) : List Op → Option World
  | [] => some w
  | op :: rest =>
    match w.step op with
    | none => none
    | some v => v.run rest

/-- The source key of an open reader: `source_key(body_->param_)`. -/
def World.key_of (w : World) (r : DataReader) : Option String :=
  match w.heap[r.body_]? with
  | none => none
  | some cell => some (source_key cell.body.param_)

/-- The Body at address `a` is live: constructed and not destroyed. -/
def World.live (w : World) (a : Nat) : Prop :=
  ∃ cell, w.heap[a]? = some cell ∧ 0 < cell.use_count

/-- Invariant of the registry. -/
structure InvReg (w : World) : Prop where
  entry : ∀ key weak, w.bodies_ key = some weak →
    ∃ a cell, weak = some a ∧ w.heap[a]? = some cell ∧ 0 < cell.use_count
      ∧ source_key cell.body.param_ = key
  reg : ∀ a cell, w.heap[a]? = some cell → 0 < cell.use_count →
    w.bodies_ (source_key cell.body.param_) = some (some a)
  count : ∀ a cell, w.heap[a]? = some cell →
    cell.use_count = w.readers.countP (fun r => decide (r.body_ = a))
  bound : ∀ r ∈ w.readers, r.body_ < w.heap.length
  fresh : ∀ (a : Nat) (cell : BodyCell), w.heap[a]? = some cell →
    ∀ q ∈ cell.body.new_queue_pairs_.queue_, q < w.queue_pairs.length

/-- Two layer parameters with the same name and source, and a third with
another name. -/
def param_data : LayerParameter :=
  { name := "data", phase := Phase.TRAIN,
    data_param := { source := "train_lmdb", batch_size := 2, prefetch := 3 } }

/-- Layer "data:C" reading the source "/db". -/
def param_colon_name : LayerParameter :=
  { name := "data:C", phase := Phase.TRAIN,
    data_param := { source := "/db", batch_size := 2, prefetch := 3 } }

/-- Layer "data" reading the source "C:/db". -/
def param_colon_path : LayerParameter :=
  { name := "data", phase := Phase.TRAIN,
    data_param := { source := "C:/db", batch_size := 2, prefetch := 3 } }

/-- A layer whose `prefetch * batch_size` is `2 ^ 31`, one more than the
largest `int`. -/
def param_negative : LayerParameter :=
  { name := "data", phase := Phase.TRAIN,
    data_param := { source := "train_lmdb", batch_size := 1073741824, prefetch := 2 } }

/-- A layer whose `prefetch * batch_size` is `2 ^ 32 + 6`. -/
def param_wrapped : LayerParameter :=
  { name := "data", phase := Phase.TRAIN,
    data_param := { source := "train_lmdb", batch_size := 2147483651, prefetch := 2 } }

/-! ## `BasePrefetchingDataLayer` -/

/-- `PREFETCH_COUNT` (`base_data_layer.hpp`, line 104). -/
def PREFETCH_COUNT : Nat := 3

/-- Modelled from the spec: `Blob<Dtype>` (`caffe/blob.hpp` is not among the
sources), a shape and the host-resident payload. -/
structure Blob where
  shape : List Nat
  data : List Int
deriving DecidableEq

/-- Modelled from the spec: `ReshapeLike(other)`, the blob takes the shape of
`other`. -/
def Blob.ReshapeLike (b : Blob) (other : Blob) : Blob := { b with shape := other.shape }

/-- Modelled from the spec: `count()`, the number of elements of the shape. -/
def Blob.count (b : Blob) : Nat := b.shape.prod

/-- Modelled from the spec: `caffe_copy(n, src.cpu_data(), dst.mutable_cpu_data())`,
the first `n` elements of `dst` are overwritten with those of `src`. -/
def caffe_copy (n : Nat) (src : Blob) (dst : Blob) : Blob :=
  { dst with data := src.data.take n ++ dst.data.drop n }

/-- `Batch<Dtype>`. -/
structure Batch where
  data_ : Blob
  label_ : Blob
deriving DecidableEq

/-- State of a `BasePrefetchingDataLayer` with its two threads.  A `Batch*` is
the index of the slot in `prefetch_`.  `loader` is the local `batch` of
`InternalThreadEntry` between its pop and its push, `forward` the local
`batch` of `Forward_cpu` between its pop and its push; `top` are the top blobs
the net passes to `Forward_cpu`. -/
structure Layer where
  output_labels_ : Bool
  prefetch_ : List Batch
  prefetch_free_ : BlockingQueue Nat
  prefetch_full_ : BlockingQueue Nat
  loader : Option Nat
  forward : Option Nat
  top : List Blob
deriving DecidableEq

/-- `BasePrefetchingDataLayer(param)` (lines 36-43):
`for (int i = 0; i < PREFETCH_COUNT; ++i) prefetch_free_.push(&prefetch_[i]);`. -/
def Layer.new : Layer :=
  { output_labels_ := false
    prefetch_ := List.replicate PREFETCH_COUNT { data_ := ⟨[], []⟩, label_ := ⟨[], []⟩ }
    prefetch_free_ := (List.range PREFETCH_COUNT).foldl (fun q i => q.push i) { queue_ := [] }
    prefetch_full_ := { queue_ := [] }
    loader := none
    forward := none
    top := [] }

/-- `BaseDataLayer::LayerSetUp(bottom, top)` (lines 21-34): `output_labels_`
is false exactly when there is one top blob.  The prefetch thread is started
after it (line 77). -/
def Layer.LayerSetUp (l : Layer) (top : List Blob) : Layer :=
  { l with top := top, output_labels_ := if top.length = 1 then false else true }

/-- `InternalThreadEntry`, line 94: `Batch<Dtype>* batch = prefetch_free_.pop();`. -/
def Layer.loader_pop (l : Layer) : Option Layer :=
  match l.loader with
  | some _ => none
  | none =>
    match l.prefetch_free_.pop with
    | none => none
    | some (batch, rest) => some { l with prefetch_free_ := rest, loader := some batch }

/-- `InternalThreadEntry`, lines 95-102: `load_batch(batch)` (pure virtual:
`loaded` is what the subclass writes into the slot), then
`prefetch_full_.push(batch);`. -/
def Layer.loader_push (l : Layer) (loaded : Batch) : Option Layer :=
  match l.loader with
  | none => none
  | some batch =>
    some { l with
      prefetch_ := l.prefetch_.set batch loaded
      prefetch_full_ := l.prefetch_full_.push batch
      loader := none }

/-- `Forward_cpu`, line 117: `Batch<Dtype>* batch = prefetch_full_.pop(...)`. -/
def Layer.Forward_cpu_pop (l : Layer) : Option Layer :=
  match l.forward with
  | some _ => none
  | none =>
    match l.prefetch_full_.pop with
    | none => none
    | some (batch, rest) => some { l with prefetch_full_ := rest, forward := some batch }

/-- The number of top blobs that `Forward_cpu` dereferences: `top[0]` at
lines 119-121 and, when `output_labels_` is set, `top[1]` at lines 126-128. -/
def Layer.tops_used (l : Layer) : Nat := if l.output_labels_ then 2 else 1

/-- `Forward_cpu`, lines 119-129: reshape and copy into the top blobs, for a
`top` that holds the blobs dereferenced (`Forward_cpu_push` does not get here
otherwise). -/
def Layer.Forward_cpu_copy (l : Layer) (batch : Batch) : List Blob :=
  -- top[0]->ReshapeLike(batch->data_); caffe_copy(batch->data_.count(), ...)
  let top := l.top.modify (fun t => caffe_copy batch.data_.count batch.data_ (t.ReshapeLike batch.data_)) 0
  if l.output_labels_ then
    -- top[1]->ReshapeLike(batch->label_); caffe_copy(batch->label_.count(), ...)
    top.modify (fun t => caffe_copy batch.label_.count batch.label_ (t.ReshapeLike batch.label_)) 1
  else top

/-- `Forward_cpu`, lines 119-131 with the popped `batch` in hand: the copy,
then `prefetch_free_.push(batch);`.  `top[0]` and `top[1]` are unchecked
accesses to the vector `top`: where `top` is too short for them the call does
not get to line 131 (`none`), and the slot stays in hand. -/
def Layer.Forward_cpu_push (l : Layer) : Option Layer :=
  match l.forward with
  | none => none
  | some batch =>
    match l.prefetch_[batch]? with
    | none => none
    | some b =>
      if l.top.length < l.tops_used then none
      else
        some { l with
          top := l.Forward_cpu_copy b
          prefetch_free_ := l.prefetch_free_.push batch
          forward := none }

/-- `BasePrefetchingDataLayer::Forward_cpu`, run without interruption
(`none`: blocked on an empty `prefetch_full_`, or stopped at an access to a
top blob that is not there). -/
def Layer.Forward_cpu (l : Layer) : Option Layer :=
  match l.Forward_cpu_pop with
  | none => none
  | some l1 => l1.Forward_cpu_push

/-- The steps of the loader thread and of the thread that calls
`Forward_cpu`. -/
inductive LayerAction where
  | loaderPop
  | loaderPush (loaded : Batch)
  | forwardPop
  | forwardPush
deriving DecidableEq

/-- One step of the layer; `none` when the step is not enabled. -/
def Layer.step (l : Layer) : LayerAction → Option Layer
  | LayerAction.loaderPop => l.loader_pop
  | LayerAction.loaderPush loaded => l.loader_push loaded
  | LayerAction.forwardPop => l.Forward_cpu_pop
  | LayerAction.forwardPush => l.Forward_cpu_push

/-- An interleaving of the two threads. -/
def Layer.run (l : Layer) : List LayerAction → Option Layer
  | [] => some l
  | a :: rest =>
    match l.step a with
    | none => none
    | some l1 => l1.run rest

/-- Where the batch slots are: the free queue, the full queue, the loader's
hand, the consumer's hand. -/
def Layer.slots (l : Layer) : List Nat :=
  l.prefetch_free_.queue_ ++ l.prefetch_full_.queue_ ++ l.loader.toList ++ l.forward.toList

/-- A batch with the data `[7]` of shape `[1]` and the label `[1]`. -/
def batch7 : Batch :=
  { data_ := { shape := [1], data := [7] }, label_ := { shape := [1], data := [1] } }

/-- A schedule of the layer in which the loader holds slot 1 while
`Forward_cpu` returns slot 0. -/
def scenario_layer : List LayerAction :=
  [LayerAction.loaderPop, LayerAction.loaderPush batch7, LayerAction.forwardPop,
   LayerAction.loaderPop, LayerAction.forwardPush]

/-! ## `BasePrefetchingDataLayer::Forward_cpu` with its history -/

/-- One completed call of `Forward_cpu` (a history record): the contents of
the batch it copied from, the top blobs it was given and the top blobs it
left. -/
structure ForwardCall where
  batch : Batch
  top_before : List Blob
  top_after : List Blob
deriving DecidableEq

/-- The layer with its history (history variables, not program state):
`pushed` are the batches the loader pushed to `prefetch_full_`, in order, each
with the contents its slot had at the push; `calls` are the completed calls of
`Forward_cpu`, in order. -/
structure LayerHistory where
  layer : Layer
  pushed : List Batch
  calls : List ForwardCall
deriving DecidableEq

/-- The layer after construction and `LayerSetUp(bottom, top)`, with no
history. -/
def LayerHistory.init (top : List Blob) : LayerHistory :=
  { layer := Layer.new.LayerSetUp top, pushed := [], calls := [] }

/-- One step of the layer, recorded: the loader's push adds the contents of
the slot it pushes to `pushed`; the second half of `Forward_cpu` adds the call
to `calls`. -/
def LayerHistory.step (h : LayerHistory) (a : LayerAction) : Option LayerHistory :=
  match h.layer.step a with
  | none => none
  | some l1 =>
    match a with
    | LayerAction.loaderPush _ =>
      match h.layer.loader.bind (fun slot => l1.prefetch_[slot]?) with
      | none => none
      | some b => some { layer := l1, pushed := h.pushed ++ [b], calls := h.calls }
    | LayerAction.forwardPush =>
      match h.layer.forward.bind (fun slot => h.layer.prefetch_[slot]?) with
      | none => none
      | some b =>
        some { layer := l1
               pushed := h.pushed
               calls := h.calls ++ [{ batch := b, top_before := h.layer.top, top_after := l1.top }] }
    | _ => some { h with layer := l1 }

/-- An interleaving of the two threads, recorded. -/
def LayerHistory.run (h : LayerHistory) : List LayerAction → Option LayerHistory
  | [] => some h
  | a :: rest =>
    match h.step a with
    | none => none
    | some h1 => h1.run rest

/-- The batches that are pushed and not yet copied out, first in first: the
one in the hand of `Forward_cpu`, then those in `prefetch_full_`; each with
the contents of its slot. -/
def Layer.pending (l : Layer) : List (Option Batch) :=
  (l.forward.toList ++ l.prefetch_full_.queue_).map (fun slot => l.prefetch_[slot]?)

/-- Invariant of the recorded layer: the three slots are all there, the
batches pushed are those copied out followed by those pending, and
`output_labels_` is as `LayerSetUp` set it for the top blobs `top`. -/
structure InvFifo (top : List Blob) (h : LayerHistory) : Prop where
  perm : h.layer.slots.Perm [0, 1, 2]
  len : h.layer.prefetch_.length = 3
  fifo : h.pushed.map some = h.calls.map (fun c => some c.batch) ++ h.layer.pending
  labels : h.layer.output_labels_ = (if top.length = 1 then false else true)
  tops : h.layer.top.length = top.length
  calls : ∀ c ∈ h.calls, c.top_before.length = top.length
    ∧ c.top_after = ({ Layer.new.LayerSetUp top with top := c.top_before }).Forward_cpu_copy c.batch

/-- A batch with the data `[8, 9]` of shape `[2]` and the label `[0]`. -/
def batch8 : Batch :=
  { data_ := { shape := [2], data := [8, 9] }, label_ := { shape := [1], data := [0] } }

/-- Two top blobs, both empty. -/
def two_tops : List Blob := [{ shape := [], data := [] }, { shape := [], data := [] }]

/-- The loader loads `batch7` then `batch8`; `Forward_cpu` is called twice,
the first call overlapping the second load. -/
def scenario_forward : List LayerAction :=
  [LayerAction.loaderPop, LayerAction.loaderPush batch7, LayerAction.forwardPop,
   LayerAction.loaderPop, LayerAction.loaderPush batch8, LayerAction.forwardPush,
   LayerAction.forwardPop, LayerAction.forwardPush]

/-! ## `SyncedMemory` -/

/-- `enum SyncedHead` (`syncedmem.hpp`, line 64). -/
inductive SyncedHead where
  | UNINITIALIZED
  | HEAD_AT_CPU
  | HEAD_AT_GPU
  | SYNCED
deriving DecidableEq

/-- The members of `SyncedMemory` (`syncedmem.hpp`, lines 74-84).  A pointer
is `none` when `NULL`, else the bytes of the buffer it points to.  `copies`
counts the synchronization copies made so far (a history variable). -/
structure SyncedMemory where
  cpu_ptr_ : Option (List Nat)
  gpu_ptr_ : Option (List Nat)
  size_ : Nat
  head_ : SyncedHead
  own_cpu_data_ : Bool
  cpu_malloc_use_cuda_ : Bool
  own_gpu_data_ : Bool
  gpu_device_ : Int
  copies : Nat
deriving DecidableEq

/-- `explicit SyncedMemory(size_t size)` (`syncedmem.hpp`, lines 53-56). -/
def SyncedMemory.new (size : Nat) : SyncedMemory :=
  { cpu_ptr_ := none
    gpu_ptr_ := none
    size_ := size
    head_ := SyncedHead.UNINITIALIZED
    own_cpu_data_ := false
    cpu_malloc_use_cuda_ := false
    own_gpu_data_ := false
    gpu_device_ := -1
    copies := 0 }

/-- Modelled from the spec: `to_cpu()` (`syncedmem.cpp` is not among the
sources).  "Reading the host view when state = device-authoritative: copy
device→host, transition to synchronized.  Reading the host view when state =
uninitialized: allocate the host-side storage lazily, transition to
host-authoritative (no data to copy)."  `alloc n` is what a fresh allocation
of `n` bytes holds; a side the buffer allocates is owned by it. -/
def SyncedMemory.to_cpu (alloc : Nat → List Nat) (m : SyncedMemory) : SyncedMemory :=
  match m.head_ with
  | SyncedHead.UNINITIALIZED =>
    { m with cpu_ptr_ := some (alloc m.size_), head_ := SyncedHead.HEAD_AT_CPU,
             own_cpu_data_ := true }
  | SyncedHead.HEAD_AT_GPU =>
    { m with cpu_ptr_ := m.gpu_ptr_, head_ := SyncedHead.SYNCED, copies := m.copies + 1,
             own_cpu_data_ := m.own_cpu_data_ || m.cpu_ptr_.isNone }
  | SyncedHead.HEAD_AT_CPU => m
  | SyncedHead.SYNCED => m

/-- Modelled from the spec: `to_gpu()`, "symmetric with host and device
swapped": uninitialized allocates the device side and becomes
device-authoritative, host-authoritative copies host→device and becomes
synchronized. -/
def SyncedMemory.to_gpu (alloc : Nat → List Nat) (m : SyncedMemory) : SyncedMemory :=
  match m.head_ with
  | SyncedHead.UNINITIALIZED =>
    { m with gpu_ptr_ := some (alloc m.size_), head_ := SyncedHead.HEAD_AT_GPU,
             own_gpu_data_ := true }
  | SyncedHead.HEAD_AT_CPU =>
    { m with gpu_ptr_ := m.cpu_ptr_, head_ := SyncedHead.SYNCED, copies := m.copies + 1,
             own_gpu_data_ := m.own_gpu_data_ || m.gpu_ptr_.isNone }
  | SyncedHead.HEAD_AT_GPU => m
  | SyncedHead.SYNCED => m

/-- Modelled from the spec: `cpu_data()`, the read-only host view: the
synchronization step, then the host pointer (`cpu_ptr_` of the result). -/
def SyncedMemory.cpu_data (alloc : Nat → List Nat) (m : SyncedMemory) : SyncedMemory :=
  m.to_cpu alloc

/-- Modelled from the spec: `gpu_data()`, the read-only device view: the
synchronization step, then the device pointer (`gpu_ptr_` of the result). -/
def SyncedMemory.gpu_data (alloc : Nat → List Nat) (m : SyncedMemory) : SyncedMemory :=
  m.to_gpu alloc

/-- Modelled from the spec: `mutable_cpu_data()`.  "Obtaining the mutable host
view always first performs the read-synchronization above, then marks state =
host-authoritative, regardless of whether the caller actually writes." -/
def SyncedMemory.mutable_cpu_data (alloc : Nat → List Nat) (m : SyncedMemory) : SyncedMemory :=
  { m.to_cpu alloc with head_ := SyncedHead.HEAD_AT_CPU }

/-- Modelled from the spec: `mutable_gpu_data()`, symmetric. -/
def SyncedMemory.mutable_gpu_data (alloc : Nat → List Nat) (m : SyncedMemory) : SyncedMemory :=
  { m.to_gpu alloc with head_ := SyncedHead.HEAD_AT_GPU }

/-- The caller writes `bytes` through the pointer `mutable_cpu_data()`
returned. -/
def SyncedMemory.write_cpu (m : SyncedMemory) (bytes : List Nat) : SyncedMemory :=
  { m with cpu_ptr_ := some bytes }

/-- The state is coherent: the authoritative side is allocated, and in state
SYNCED both sides are allocated and hold the same bytes. -/
def SyncedMemory.WF (m : SyncedMemory) : Bool :=
  match m.head_ with
  | SyncedHead.UNINITIALIZED => true
  | SyncedHead.HEAD_AT_CPU => m.cpu_ptr_.isSome
  | SyncedHead.HEAD_AT_GPU => m.gpu_ptr_.isSome
  | SyncedHead.SYNCED => m.cpu_ptr_.isSome && decide (m.gpu_ptr_ = m.cpu_ptr_)

/-- The contents of a fresh allocation, taken as zeros where one is needed. -/
def zeros (n : Nat) : List Nat := List.replicate n 0

/-! # Theorems -/

/-! ## The queues and `read_one` -/

theorem QueuePair.new_free_go (n : Nat) (q : BlockingQueue Datum) :
    ((List.range n).foldl (fun q i => q.push { id := i, data := "" }) q).queue_
      = q.queue_ ++ (List.range n).map (fun i => { id := i, data := "" }) := by
  induction n with
  | zero => simp
  | succ n ih =>
    rw [List.range_succ, List.foldl_append, List.map_append, ← List.append_assoc, ← ih]
    rfl

theorem QueuePair.new_free (size : Int) :
    (QueuePair.new size).free_.queue_
      = (List.range size.toNat).map (fun i => { id := i, data := "" }) := by
  simp [QueuePair.new, QueuePair.new_free_go]

theorem QueuePair.new_free_size (size : Int) : (QueuePair.new size).free_.size = size.toNat := by
  simp [BlockingQueue.size, QueuePair.new_free]

theorem QueuePair.new_full (size : Int) : (QueuePair.new size).full_.queue_ = [] := rfl

theorem Sys.blocked_some {s t : Sys} (h : s.blocked = some t) :
    s.stop = true ∧ t = { s with pc := Pc.stopped } := by
  unfold Sys.blocked at h
  split at h
  · rename_i hst
    simp only [Option.some.injEq] at h
    exact ⟨hst, h.symm⟩
  · simp at h

theorem Sys.read_pop_some {s t : Sys} {qp : Nat} {k : Datum → Pc}
    (h : s.read_pop qp k = some t) :
    ∃ ch, s.chans[qp]? = some ch ∧
      ((s.stop = true ∧ t = { s with pc := Pc.stopped }) ∨
        ∃ datum rest, ch.qp.free_.queue_ = datum :: rest ∧
          t = { s with
            chans := s.chans.set qp { ch with qp := { ch.qp with free_ := { queue_ := rest } } }
            pc := k datum }) := by
  unfold Sys.read_pop at h
  cases hc : s.chans[qp]? with
  | none => simp [hc] at h
  | some ch =>
    refine ⟨ch, rfl, ?_⟩
    simp only [hc] at h
    unfold read_one_pop BlockingQueue.pop at h
    cases hq : ch.qp.free_.queue_ with
    | nil =>
      simp only [hq] at h
      exact Or.inl (Sys.blocked_some h)
    | cons datum rest =>
      simp only [hq, Option.some.injEq] at h
      exact Or.inr ⟨datum, rest, rfl, h.symm⟩

theorem Sys.read_push_some {s t : Sys} {r qp : Nat} {datum : Datum} {pc : Pc}
    (h : s.read_push r qp datum pc = some t) :
    ∃ ch, s.chans[qp]? = some ch ∧
      t = { s with
        cursor := s.cursor.advance
        chans := s.chans.set qp
          { ch with qp := { ch.qp with full_ := ch.qp.full_.push (datum.ParseFromString s.cursor.value) } }
        pc := pc
        log := s.log ++ [{ round := r, chan := qp, record := s.cursor.value }] } := by
  unfold Sys.read_push at h
  cases hc : s.chans[qp]? with
  | none => simp [hc] at h
  | some ch =>
    refine ⟨ch, rfl, ?_⟩
    simp only [hc, read_one_push, Option.some.injEq] at h
    rw [← h]
    rfl

/-! ## The cursor and the records delivered -/

theorem Sys.consumer_pop_some {s t : Sys} {c : Nat} (h : s.consumer_pop c = some t) :
    ∃ ch datum rest, s.chans[c]? = some ch ∧ ch.qp.full_.queue_ = datum :: rest ∧
      t = { s with
        chans := s.chans.set c
          { ch with qp := { ch.qp with full_ := { queue_ := rest } }, held := ch.held ++ [datum] } } := by
  unfold Sys.consumer_pop at h
  cases hc : s.chans[c]? with
  | none => simp [hc] at h
  | some ch =>
    simp only [hc] at h
    unfold BlockingQueue.pop at h
    cases hq : ch.qp.full_.queue_ with
    | nil => simp [hq] at h
    | cons datum rest =>
      simp only [hq, Option.some.injEq] at h
      exact ⟨ch, datum, rest, rfl, hq, h.symm⟩

theorem Sys.consumer_push_some {s t : Sys} {c k : Nat} (h : s.consumer_push c k = some t) :
    ∃ ch datum, s.chans[c]? = some ch ∧ ch.held[k]? = some datum ∧
      t = { s with
        chans := s.chans.set c
          { ch with qp := { ch.qp with free_ := ch.qp.free_.push datum }, held := ch.held.eraseIdx k } } := by
  unfold Sys.consumer_push at h
  cases hc : s.chans[c]? with
  | none => simp [hc] at h
  | some ch =>
    simp only [hc] at h
    cases hk : ch.held[k]? with
    | none => simp [hk] at h
    | some datum =>
      simp only [hk, Option.some.injEq] at h
      exact ⟨ch, datum, rfl, hk, h.symm⟩

/-- Every step either leaves the cursor and the log alone, or is the push of a
`read_one`: the cursor's value is logged and the cursor advances. -/
theorem Sys.step_cursor_log {s t : Sys} {a : Action} (h : s.step a = some t) :
    (t.cursor = s.cursor ∧ t.log = s.log) ∨
      (t.cursor = s.cursor.advance ∧
        ∃ r qp, t.log = s.log ++ [{ round := r, chan := qp, record := s.cursor.value }]) := by
  cases a with
  | register size =>
    simp only [Sys.step, Option.some.injEq] at h
    subst h
    exact Or.inl ⟨rfl, rfl⟩
  | requestStop =>
    simp only [Sys.step, Option.some.injEq] at h
    subst h
    exact Or.inl ⟨rfl, rfl⟩
  | consumerPop c =>
    obtain ⟨ch, d, rest, -, -, rfl⟩ := Sys.consumer_pop_some h
    exact Or.inl ⟨rfl, rfl⟩
  | consumerPush c k =>
    obtain ⟨ch, d, -, -, rfl⟩ := Sys.consumer_push_some h
    exact Or.inl ⟨rfl, rfl⟩
  | body =>
    simp only [Sys.step] at h
    unfold Sys.body at h
    split at h
    · split at h
      · split at h
        · rw [(Sys.blocked_some h).2]; exact Or.inl ⟨rfl, rfl⟩
        · simp only [Option.some.injEq] at h
          subst h; exact Or.inl ⟨rfl, rfl⟩
      · simp only [Option.some.injEq] at h
        subst h; exact Or.inl ⟨rfl, rfl⟩
    · obtain ⟨ch, -, ⟨hst, h⟩ | ⟨d, rest, -, h⟩⟩ := Sys.read_pop_some h <;>
        (subst h; exact Or.inl ⟨rfl, rfl⟩)
    · split at h
      · simp at h
      · rename_i u hu
        obtain ⟨ch, -, rfl⟩ := Sys.read_push_some hu
        simp only [Option.some.injEq] at h
        subst h
        exact Or.inr ⟨rfl, _, _, rfl⟩
    · split at h <;>
        (simp only [Option.some.injEq] at h; subst h; exact Or.inl ⟨rfl, rfl⟩)
    · split at h
      · split at h
        · simp at h
        · obtain ⟨ch, -, ⟨hst, h⟩ | ⟨d, rest, -, h⟩⟩ := Sys.read_pop_some h <;>
            (subst h; exact Or.inl ⟨rfl, rfl⟩)
      · simp only [Option.some.injEq] at h
        subst h; exact Or.inl ⟨rfl, rfl⟩
    · split at h
      · simp at h
      · obtain ⟨ch, -, rfl⟩ := Sys.read_push_some h
        exact Or.inr ⟨rfl, _, _, rfl⟩
    · split at h <;>
        (simp only [Option.some.injEq] at h; subst h; exact Or.inl ⟨rfl, rfl⟩)
    · simp at h
    · simp at h

/-! ## The pushes to `full_`, read off the queues -/

theorem Sys.full_set {s t : Sys} {c0 : Nat} {ch ch1 : Channel} (hch : s.chans[c0]? = some ch)
    (ht : t.chans = s.chans.set c0 ch1) :
    t.full c0 = ch1.qp.full_.queue_ ∧ s.full c0 = ch.qp.full_.queue_
      ∧ ∀ c, c ≠ c0 → t.full c = s.full c := by
  have hlt : c0 < s.chans.length := (List.getElem?_eq_some.mp hch).1
  refine ⟨?_, ?_, ?_⟩
  · simp [Sys.full, ht, List.getElem?_set, hlt]
  · simp [Sys.full, hch]
  · intro c hc
    simp [Sys.full, ht, List.getElem?_set_ne (Ne.symm hc)]

theorem Sys.full_congr {s t : Sys} (ht : t.chans = s.chans) (c : Nat) : t.full c = s.full c := by
  simp [Sys.full, ht]

/-- What a step does to the `full_` queues and to the log: nothing; or a pop
from one `full_` queue, the log unchanged; or a push to one `full_` queue,
logged with the pass, the channel and the record in the Datum pushed. -/
theorem Sys.step_full {s t : Sys} {a : Action} (h : s.step a = some t) :
    ((∀ c, t.full c = s.full c) ∧ t.log = s.log ∧ ∀ c, a ≠ Action.consumerPop c)
    ∨ (∃ c0 d rest, a = Action.consumerPop c0 ∧ s.full c0 = d :: rest ∧ t.full c0 = rest
        ∧ (∀ c, c ≠ c0 → t.full c = s.full c) ∧ t.log = s.log)
    ∨ (∃ c0 d, a = Action.body ∧ c0 < t.chans.length ∧ t.full c0 = s.full c0 ++ [d]
        ∧ (∀ c, c ≠ c0 → t.full c = s.full c)
        ∧ t.log = s.log ++ [{ round := s.pass, chan := c0, record := d.data }]) := by
  have hpop : ∀ {qp : Nat} {k : Datum → Pc} {u : Sys}, s.read_pop qp k = some u →
      (∀ c, u.full c = s.full c) ∧ u.log = s.log := by
    intro qp k u hu
    obtain ⟨ch, hch, ⟨-, hu⟩ | ⟨d, rest, -, hu⟩⟩ := Sys.read_pop_some hu
    · subst hu
      exact ⟨fun c => rfl, rfl⟩
    · subst hu
      obtain ⟨h1, h2, h3⟩ := Sys.full_set (t := { s with
        chans := s.chans.set qp { ch with qp := { ch.qp with free_ := { queue_ := rest } } }
        pc := k d }) hch rfl
      refine ⟨fun c => ?_, rfl⟩
      by_cases hc : c = qp
      · subst hc; rw [h1, h2]
      · exact h3 c hc
  have hpush : ∀ {r qp : Nat} {datum : Datum} {pc : Pc} {u : Sys},
      s.read_push r qp datum pc = some u →
      qp < u.chans.length ∧ u.full qp = s.full qp ++ [datum.ParseFromString s.cursor.value]
        ∧ (∀ c, c ≠ qp → u.full c = s.full c)
        ∧ u.log = s.log ++ [{ round := r, chan := qp, record := s.cursor.value }] := by
    intro r qp datum pc u hu
    obtain ⟨ch, hch, hu⟩ := Sys.read_push_some hu
    subst hu
    have hlt : qp < s.chans.length := (List.getElem?_eq_some.mp hch).1
    obtain ⟨h1, h2, h3⟩ := Sys.full_set (t := { s with
      cursor := s.cursor.advance
      chans := s.chans.set qp
        { ch with qp := { ch.qp with full_ := ch.qp.full_.push (datum.ParseFromString s.cursor.value) } }
      pc := pc
      log := s.log ++ [{ round := r, chan := qp, record := s.cursor.value }] }) hch rfl
    refine ⟨by simpa using hlt, ?_, h3, rfl⟩
    rw [h1, h2]
    rfl
  cases a with
  | register size =>
    simp only [Sys.step, Option.some.injEq] at h
    subst h
    refine Or.inl ⟨fun c => ?_, rfl, fun c hc => by cases hc⟩
    simp only [Sys.full, Sys.register]
    rcases Nat.lt_trichotomy c s.chans.length with hlt | heq | hgt
    · rw [List.getElem?_append_left hlt]
    · subst heq
      simp [QueuePair.new]
    · rw [List.getElem?_eq_none (by simp; omega), List.getElem?_eq_none (by omega)]
  | requestStop =>
    simp only [Sys.step, Option.some.injEq] at h
    subst h
    exact Or.inl ⟨fun c => rfl, rfl, fun c hc => by cases hc⟩
  | consumerPop c0 =>
    obtain ⟨ch, d, rest, hch, hq, rfl⟩ := Sys.consumer_pop_some h
    obtain ⟨h1, h2, h3⟩ := Sys.full_set (t := { s with
      chans := s.chans.set c0
        { ch with qp := { ch.qp with full_ := { queue_ := rest } }, held := ch.held ++ [d] } })
      hch rfl
    exact Or.inr (Or.inl ⟨c0, d, rest, rfl, by rw [h2, hq], h1, h3, rfl⟩)
  | consumerPush c0 k =>
    obtain ⟨ch, d, hch, -, rfl⟩ := Sys.consumer_push_some h
    obtain ⟨h1, h2, h3⟩ := Sys.full_set (t := { s with
      chans := s.chans.set c0
        { ch with qp := { ch.qp with free_ := ch.qp.free_.push d }, held := ch.held.eraseIdx k } })
      hch rfl
    refine Or.inl ⟨fun c => ?_, rfl, fun c hc => by cases hc⟩
    by_cases hc : c = c0
    · subst hc; rw [h1, h2]
    · exact h3 c hc
  | body =>
    simp only [Sys.step] at h
    unfold Sys.body at h
    split at h
    · split at h
      · split at h
        · rw [(Sys.blocked_some h).2]; exact Or.inl ⟨fun c => rfl, rfl, fun c hc => by cases hc⟩
        · simp only [Option.some.injEq] at h
          subst h; exact Or.inl ⟨fun c => rfl, rfl, fun c hc => by cases hc⟩
      · simp only [Option.some.injEq] at h
        subst h; exact Or.inl ⟨fun c => rfl, rfl, fun c hc => by cases hc⟩
    · exact Or.inl ⟨(hpop h).1, (hpop h).2, fun c hc => by cases hc⟩
    · rename_i i qp datum hpc
      split at h
      · simp at h
      · rename_i u hu
        obtain ⟨g1, g2, g3, g4⟩ := hpush hu
        simp only [Option.some.injEq] at h
        subst h
        refine Or.inr (Or.inr ⟨qp, datum.ParseFromString s.cursor.value, rfl, g1, g2, g3, ?_⟩)
        have hp : s.pass = 0 := by simp [Sys.pass, hpc]
        rw [hp]
        exact g4
    · split at h <;>
        (simp only [Option.some.injEq] at h; subst h; exact Or.inl ⟨fun c => rfl, rfl, fun c hc => by cases hc⟩)
    · split at h
      · split at h
        · simp at h
        · exact Or.inl ⟨(hpop h).1, (hpop h).2, fun c hc => by cases hc⟩
      · simp only [Option.some.injEq] at h
        subst h; exact Or.inl ⟨fun c => rfl, rfl, fun c hc => by cases hc⟩
    · rename_i r i datum hpc
      split at h
      · simp at h
      · rename_i qp hqp
        obtain ⟨g1, g2, g3, g4⟩ := hpush h
        refine Or.inr (Or.inr ⟨qp, datum.ParseFromString s.cursor.value, rfl, g1, g2, g3, ?_⟩)
        have hp : s.pass = r := by simp [Sys.pass, hpc]
        rw [hp]
        exact g4
    · split at h <;>
        (simp only [Option.some.injEq] at h; subst h; exact Or.inl ⟨fun c => rfl, rfl, fun c hc => by cases hc⟩)
    · simp at h
    · simp at h

theorem pushed_on_self (q : List Datum) : pushed_on q q = [] := by
  simp [pushed_on]

theorem pushed_on_pop (d : Datum) (rest : List Datum) : pushed_on (d :: rest) rest = [] := by
  unfold pushed_on
  rw [if_neg]
  intro hpre
  have := hpre.length_le
  simp at this

theorem pushed_on_push (q : List Datum) (d : Datum) : pushed_on q (q ++ [d]) = [d] := by
  simp [pushed_on]

theorem flatMap_range_single {β : Type} (f : Nat → List β) (c0 : Nat) (n : Nat)
    (h : ∀ c, c < n → c ≠ c0 → f c = []) :
    (List.range n).flatMap f = if c0 < n then f c0 else [] := by
  induction n with
  | zero => simp
  | succ n ih =>
    rw [List.range_succ, List.flatMap_append, ih (fun c hc hne => h c (by omega) hne)]
    simp only [List.flatMap_singleton]
    rcases Nat.lt_trichotomy c0 n with hlt | heq | hgt
    · rw [if_pos hlt, if_pos (by omega), h n (by omega) (by omega), List.append_nil]
    · subst heq
      simp
    · rw [if_neg (by omega), if_neg (by omega), h n (by omega) (by omega)]
      rfl

/-- The log is the history of the pushes to the `full_` queues: a step adds
to the log just what it is seen to push. -/
theorem Sys.step_pushes {s t : Sys} {a : Action} (h : s.step a = some t) :
    t.log = s.log ++ s.pushes t := by
  rcases Sys.step_full h with ⟨hfull, hlog, -⟩ | ⟨c0, d, rest, -, h1, h2, h3, hlog⟩
    | ⟨c0, d, -, hlt, h2, h3, hlog⟩
  · have hp : s.pushes t = [] := by
      simp only [Sys.pushes, List.flatMap_eq_nil_iff]
      intro c _
      rw [hfull c, pushed_on_self]
      rfl
    rw [hlog, hp, List.append_nil]
  · have hp : s.pushes t = [] := by
      simp only [Sys.pushes, List.flatMap_eq_nil_iff]
      intro c _
      by_cases hc : c = c0
      · subst hc
        rw [h1, h2, pushed_on_pop]
        rfl
      · rw [h3 c hc, pushed_on_self]
        rfl
    rw [hlog, hp, List.append_nil]
  · have hp : s.pushes t = [{ round := s.pass, chan := c0, record := d.data }] := by
      unfold Sys.pushes
      rw [flatMap_range_single _ c0, if_pos hlt, h2, pushed_on_push]
      · rfl
      · intro c _ hc
        rw [h3 c hc, pushed_on_self]
        rfl
    rw [hlog, hp]

theorem Sys.history_log (acts : List Action) :
    ∀ {s t : Sys}, s.run acts = some t → t.log = s.log ++ s.history acts := by
  induction acts with
  | nil =>
    intro s t h
    simp only [Sys.run, Option.some.injEq] at h
    subst h
    simp [Sys.history]
  | cons a rest ih =>
    intro s t h
    simp only [Sys.run] at h
    cases ha : s.step a with
    | none => simp [ha] at h
    | some u =>
      simp only [ha] at h
      rw [ih h, Sys.step_pushes ha]
      simp only [Sys.history, ha, List.append_assoc]

/-- From the initial state, the pushes to the `full_` queues seen along a run
are what the log holds at its end. -/
theorem Sys.history_init {n : Int} {db : List String} {acts : List Action} {s : Sys}
    (h : (Sys.init n db).run acts = some s) : (Sys.init n db).history acts = s.log := by
  have := Sys.history_log acts h
  simpa [Sys.init] using this.symm

theorem cyclic_succ (db : List String) (n : Nat) :
    cyclic db (n + 1) = cyclic db n ++ [db.getD (n % db.length) ""] := by
  simp [cyclic, List.range_succ]

theorem cyclic_length (db : List String) (n : Nat) : (cyclic db n).length = n := by
  simp [cyclic]

theorem Cursor.advance_pos (c : Cursor)
    (hp : c.pos < c.records.length) :
    c.advance.records = c.records ∧ c.advance.pos = (c.pos + 1) % c.records.length := by
  unfold Cursor.advance Cursor.valid Cursor.Next Cursor.SeekToFirst
  by_cases hlt : c.pos + 1 < c.records.length
  · simp [hlt, Nat.mod_eq_of_lt hlt]
  · have : c.pos + 1 = c.records.length := by omega
    simp [this]

theorem InvDb.db_init (n : Int) (db : List String) : InvDb db (Sys.init n db) := by
  constructor <;> simp [Sys.init, NewCursor, cyclic]

theorem InvDb.db_step {db : List String} (hK : 0 < db.length) {s t : Sys} {a : Action}
    (hs : InvDb db s) (h : s.step a = some t) : InvDb db t := by
  obtain ⟨hrec, hpos, hlog⟩ := hs
  rcases Sys.step_cursor_log h with ⟨hc, hl⟩ | ⟨hc, r, qp, hl⟩
  · exact ⟨by rw [hc, hrec], by rw [hc, hl, hpos], by rw [hl, hlog]⟩
  · have hlt : s.cursor.pos < s.cursor.records.length := by
      rw [hpos, hrec]; exact Nat.mod_lt _ hK
    obtain ⟨h1, h2⟩ := Cursor.advance_pos s.cursor hlt
    refine ⟨by rw [hc, h1, hrec], ?_, ?_⟩
    · rw [hc, h2, hl, hrec, hpos]
      simp [Nat.add_mod]
    · rw [hl]
      simp only [List.map_append, List.length_append, List.length_singleton, List.map_cons,
        List.map_nil, cyclic_succ, hlog]
      simp [Cursor.value, hrec, hpos]

theorem InvDb.db_run {db : List String} (hK : 0 < db.length) (acts : List Action) :
    ∀ {s t : Sys}, InvDb db s → s.run acts = some t → InvDb db t := by
  induction acts with
  | nil =>
    intro s t hs h
    simp only [Sys.run, Option.some.injEq] at h
    exact h ▸ hs
  | cons a rest ih =>
    intro s t hs h
    simp only [Sys.run] at h
    cases ha : s.step a with
    | none => simp [ha] at h
    | some u =>
      simp only [ha] at h
      exact ih (InvDb.db_step hK hs ha) h

/-! ## The round-robin order -/

theorem schedule_succ (N n : Nat) : schedule N (n + 1) = schedule N n ++ [(n / N, n % N)] := by
  simp [schedule, List.range_succ]

theorem range_split_head {l rest : List Nat} {x n : Nat}
    (h : l ++ [x] ++ rest = List.range n) : x = l.length ∧ l ++ [x] = List.range (l.length + 1) := by
  have hlen : l.length + 1 + rest.length = n := by
    have := congrArg List.length h
    simp at this
    omega
  have hx : x = l.length := by
    have h1 := congrArg (fun m => m[l.length]?) h
    simp only [List.append_assoc, List.singleton_append] at h1
    rw [List.getElem?_append_right (le_refl _), List.getElem?_range (by omega)] at h1
    simpa using h1
  refine ⟨hx, ?_⟩
  have h2 := congrArg (List.take (l.length + 1)) h
  rw [List.take_range, List.take_append_of_le_length (by simp)] at h2
  rw [List.take_of_length_le (by simp)] at h2
  rw [h2]
  congr 1
  omega

theorem range_getElem?_of_eq {l : List Nat} (h : l = List.range l.length) {i qp : Nat}
    (hq : l[i]? = some qp) : qp = i := by
  rw [h] at hq
  have hi : i < l.length := by
    by_contra hn
    rw [List.getElem?_eq_none (by simpa using hn)] at hq
    exact absurd hq (by simp)
  rw [List.getElem?_range hi] at hq
  exact (Option.some.inj hq).symm

theorem InvRR.rr_init (N : Nat) (db : List String) : InvRR N (Sys.init (N : Int) db) := by
  constructor <;> simp [Sys.init, Sys.hand, schedule, PcInv]

theorem InvRR.frame {N : Nat} {s t : Sys} (hs : InvRR N s)
    (h1 : t.solver_count = s.solver_count) (h2 : t.qps = s.qps) (h3 : t.pc = s.pc)
    (h4 : t.log = s.log) (h5 : t.chans.length = s.chans.length)
    (h6 : t.new_queue_pairs_ = s.new_queue_pairs_) (h7 : t.stop = s.stop) : InvRR N t := by
  obtain ⟨hc, ht, hr, hl, hp⟩ := hs
  refine ⟨by rw [h1, hc], by rw [h2]; exact ht, ?_, by rw [h4]; exact hl, ?_⟩
  · intro hne
    rw [h3] at hne
    have := hr hne
    simpa only [Sys.hand, h2, h3, h5, h6] using this
  · simpa only [PcInv, h2, h3, h4, h6, h7] using hp

theorem InvRR.to_stopped {N : Nat} {s : Sys} (hs : InvRR N s) (hst : s.stop = true)
    (hle : (s.qps.length ≤ N ∧ s.log.length = s.qps.length) ∨ s.qps.length = N) :
    InvRR N { s with pc := Pc.stopped } := by
  obtain ⟨hc, ht, hr, hl, hp⟩ := hs
  exact ⟨hc, ht, fun hne => absurd rfl hne, hl, hst, hle⟩

theorem InvRR.rr_body {N : Nat} {s t : Sys} (hs : InvRR N s) (h : s.body = some t) :
    InvRR N t := by
  have hs0 := hs
  obtain ⟨hc, ht, hr, hl, hp⟩ := hs
  unfold Sys.body at h
  split at h
  · -- startPop
    rename_i i hpc
    simp only [PcInv, hpc] at hp
    have hr1 := hr (by rw [hpc]; simp)
    simp only [Sys.hand, hpc, List.append_nil] at hr1
    split at h
    · unfold BlockingQueue.pop at h
      split at h
      · rename_i hq
        split at hq
        · rw [(Sys.blocked_some h).2]
          exact hs0.to_stopped (Sys.blocked_some h).1 (by omega)
        · simp at hq
      · rename_i qp rest hq
        split at hq
        · simp at hq
        · rename_i qp1 rest1 hq1
          simp only [Option.some.injEq, Prod.mk.injEq] at hq
          obtain ⟨rfl, rfl⟩ := hq
          simp only [Option.some.injEq] at h
          subst h
          refine ⟨hc, ht, fun _ => ?_, hl, ?_⟩
          · simpa [Sys.hand, hq1] using hr1
          · simp only [PcInv]
            rename_i hlt
            exact ⟨hp.1, by omega, hp.2.2⟩
    · rename_i hge
      simp only [Option.some.injEq] at h
      subst h
      refine ⟨hc, ht, fun _ => ?_, hl, ?_⟩
      · simpa [Sys.hand] using hr1
      · simp only [PcInv]
        refine ⟨by omega, le_refl _, ?_⟩
        rw [hp.2.2]; omega
  · -- startRead
    rename_i i qp hpc
    simp only [PcInv, hpc] at hp
    have hr1 := hr (by rw [hpc]; simp)
    simp only [Sys.hand, hpc] at hr1
    obtain ⟨ch, -, ⟨hst, h⟩ | ⟨d, rest, -, h⟩⟩ := Sys.read_pop_some h
    · subst h
      exact hs0.to_stopped hst (by omega)
    · subst h
      refine ⟨hc, ht, fun _ => ?_, hl, ?_⟩
      · simpa [Sys.hand] using hr1
      · simpa only [PcInv] using hp
  · -- startFill
    rename_i i qp d hpc
    simp only [PcInv, hpc] at hp
    have hr1 := hr (by rw [hpc]; simp)
    simp only [Sys.hand, hpc] at hr1
    split at h
    · simp at h
    · rename_i u hu
      obtain ⟨ch, -, rfl⟩ := Sys.read_push_some hu
      simp only [Option.some.injEq] at h
      subst h
      obtain ⟨hqp, hpre⟩ := range_split_head hr1
      refine ⟨hc, ?_, fun _ => ?_, ?_, ?_⟩
      · simpa using hpre
      · simpa [Sys.hand] using hr1
      · simp only [List.map_append, List.length_append, List.length_singleton, List.map_cons,
          List.map_nil, schedule_succ, hl]
        rw [hp.2.2, hqp, hp.1, Nat.div_eq_of_lt hp.2.1, Nat.mod_eq_of_lt hp.2.1]
      · simp only [PcInv, List.length_append, List.length_singleton]
        omega
  · -- loopHead
    rename_i r hpc
    simp only [PcInv, hpc] at hp
    have hr1 := hr (by rw [hpc]; simp)
    simp only [Sys.hand, hpc] at hr1
    split at h
    · rename_i hst
      simp only [Option.some.injEq] at h
      subst h
      exact hs0.to_stopped hst (by omega)
    · simp only [Option.some.injEq] at h
      subst h
      refine ⟨hc, ht, fun _ => ?_, hl, ?_⟩
      · simpa [Sys.hand] using hr1
      · simp only [PcInv]
        exact ⟨hp.1, hp.2.1, Nat.zero_le _, by simpa using hp.2.2⟩
  · -- mainRead
    rename_i r i hpc
    simp only [PcInv, hpc] at hp
    have hr1 := hr (by rw [hpc]; simp)
    simp only [Sys.hand, hpc] at hr1
    split at h
    · rename_i hlt
      split at h
      · simp at h
      · obtain ⟨ch, -, ⟨hst, h⟩ | ⟨d, rest, -, h⟩⟩ := Sys.read_pop_some h
        · subst h
          exact hs0.to_stopped hst (by omega)
        · subst h
          refine ⟨hc, ht, fun _ => ?_, hl, ?_⟩
          · simpa [Sys.hand] using hr1
          · simp only [PcInv]
            exact ⟨hp.1, hp.2.1, by omega, hp.2.2.2⟩
    · rename_i hge
      simp only [Option.some.injEq] at h
      subst h
      refine ⟨hc, ht, fun _ => ?_, hl, ?_⟩
      · simpa [Sys.hand] using hr1
      · simp only [PcInv]
        refine ⟨hp.1, hp.2.1, ?_⟩
        have : i = N := by omega
        rw [hp.2.2.2, this, Nat.succ_mul]
  · -- mainFill
    rename_i r i d hpc
    simp only [PcInv, hpc] at hp
    have hr1 := hr (by rw [hpc]; simp)
    simp only [Sys.hand, hpc] at hr1
    split at h
    · simp at h
    · rename_i qp hq
      obtain ⟨ch, -, rfl⟩ := Sys.read_push_some h
      have hqp : qp = i := range_getElem?_of_eq ht hq
      refine ⟨hc, ht, fun _ => ?_, ?_, ?_⟩
      · simpa [Sys.hand] using hr1
      · simp only [List.map_append, List.length_append, List.length_singleton, List.map_cons,
          List.map_nil, schedule_succ, hl]
        have hN : 0 < N := by omega
        rw [hp.2.2.2, hqp, Nat.mul_comm r N, Nat.mul_add_div hN, Nat.mul_add_mod,
          Nat.div_eq_of_lt hp.2.2.1, Nat.mod_eq_of_lt hp.2.2.1]
        simp
      · simp only [PcInv, List.length_append, List.length_singleton]
        omega
  · -- check
    rename_i r hpc
    simp only [PcInv, hpc] at hp
    have hr1 := hr (by rw [hpc]; simp)
    simp only [Sys.hand, hpc] at hr1
    split at h
    · simp only [Option.some.injEq] at h
      subst h
      refine ⟨hc, ht, fun _ => ?_, hl, ?_⟩
      · simpa [Sys.hand] using hr1
      · simp only [PcInv]
        exact ⟨hp.1, by omega, hp.2.2⟩
    · rename_i hne
      simp only [Option.some.injEq] at h
      subst h
      refine ⟨hc, ht, fun _ => ?_, hl, ?_⟩
      · simpa [Sys.hand] using hr1
      · simp only [PcInv]
        refine ⟨hp.1, ?_⟩
        intro hnil
        exact hne (by simp [BlockingQueue.size, hnil])
  · simp at h
  · simp at h

theorem InvRR.rr_step {N : Nat} {s t : Sys} {a : Action} (hs : InvRR N s)
    (h : s.step a = some t) : InvRR N t := by
  cases a with
  | body => exact hs.rr_body h
  | requestStop =>
    simp only [Sys.step, Option.some.injEq] at h
    subst h
    obtain ⟨hc, ht, hr, hl, hp⟩ := hs
    refine ⟨hc, ht, hr, hl, ?_⟩
    revert hp
    simp only [PcInv]
    split <;> intro hp <;> first | exact hp | exact ⟨trivial, hp.2⟩
  | consumerPop c =>
    obtain ⟨ch, d, rest, -, -, rfl⟩ := Sys.consumer_pop_some h
    exact hs.frame rfl rfl rfl rfl (by simp) rfl rfl
  | consumerPush c k =>
    obtain ⟨ch, d, -, -, rfl⟩ := Sys.consumer_push_some h
    exact hs.frame rfl rfl rfl rfl (by simp) rfl rfl
  | register size =>
    simp only [Sys.step, Option.some.injEq] at h
    subst h
    obtain ⟨hc, ht, hr, hl, hp⟩ := hs
    refine ⟨hc, ht, fun hne => ?_, hl, ?_⟩
    · have := hr hne
      simp only [Sys.register, BlockingQueue.push, List.length_append, List.length_singleton,
        List.range_succ, ← this]
      simp [Sys.hand]
    · revert hp
      simp only [PcInv, Sys.register, BlockingQueue.push]
      split <;> intro hp <;> first | exact hp | exact ⟨hp.1, by simp⟩

theorem InvRR.rr_run {N : Nat} (acts : List Action) :
    ∀ {s t : Sys}, InvRR N s → s.run acts = some t → InvRR N t := by
  induction acts with
  | nil =>
    intro s t hs h
    simp only [Sys.run, Option.some.injEq] at h
    exact h ▸ hs
  | cons a rest ih =>
    intro s t hs h
    simp only [Sys.run] at h
    cases ha : s.step a with
    | none => simp [ha] at h
    | some u =>
      simp only [ha] at h
      exact ih (hs.rr_step ha) h

theorem deliveries_succ (N : Nat) (db : List String) (n : Nat) :
    deliveries N db (n + 1) = deliveries N db n ++ [delivery N db n] := by
  simp [deliveries, List.range_succ]

theorem log_eq_deliveries {N : Nat} {db : List String} {s : Sys}
    (h1 : InvDb db s) (h2 : InvRR N s) : s.log = deliveries N db s.log.length := by
  have hl1 := h1.log
  have hl2 := h2.log
  apply List.ext_getElem?
  intro i
  have e1 := congrArg (fun l => l[i]?) hl1
  have e2 := congrArg (fun l => l[i]?) hl2
  simp only [cyclic, schedule, deliveries, List.getElem?_map] at e1 e2 ⊢
  cases hi : s.log[i]? with
  | none =>
    rw [hi] at e1
    cases hr : (List.range s.log.length)[i]? with
    | none => rfl
    | some j => rw [hr] at e1; simp at e1
  | some d =>
    rw [hi] at e1 e2
    cases hr : (List.range s.log.length)[i]? with
    | none => rw [hr] at e1; simp at e1
    | some j =>
      rw [hr] at e1 e2
      simp only [Option.map_some', Option.some.injEq, Prod.mk.injEq] at e1 e2 ⊢
      cases d
      simp only [delivery] at e1 e2 ⊢
      simp [e1, e2.1, e2.2]

/-- The positions below `n` that fall in round `r`. -/
theorem filter_round (N : Nat) (hN : 0 < N) (r n : Nat) :
    ∃ m, (List.range n).filter (fun j => decide (j / N = r)) = (List.range m).map (fun i => r * N + i)
      ∧ m ≤ N ∧ (r * N + m ≤ n ∨ m = 0) ∧ (m < N → n ≤ r * N + m) := by
  induction n with
  | zero => exact ⟨0, by simp, Nat.zero_le _, Or.inr rfl, fun _ => Nat.zero_le _⟩
  | succ n ih =>
    obtain ⟨m, hm, hle, hlo, hhi⟩ := ih
    have hdm : N * (n / N) + n % N = n := Nat.div_add_mod n N
    have hmod : n % N < N := Nat.mod_lt _ hN
    by_cases hr : n / N = r
    · have hrn : r * N + n % N = n := by rw [← hr, Nat.mul_comm]; exact hdm
      have hmlt : m < N := by
        by_contra hge
        have : m = N := by omega
        rcases hlo with h | h <;> omega
      have hmn : m = n % N := by
        have := hhi hmlt
        rcases hlo with h | h <;> omega
      refine ⟨m + 1, ?_, by omega, Or.inl (by omega), fun _ => by omega⟩
      rw [List.range_succ, List.filter_append, hm, List.range_succ, List.map_append]
      simp [hr, hmn, hrn]
    · refine ⟨m, ?_, hle, ?_, ?_⟩
      · rw [List.range_succ, List.filter_append, hm]
        simp [hr]
      · rcases hlo with h | h
        · exact Or.inl (by omega)
        · exact Or.inr h
      · intro hmlt
        have h1 := hhi hmlt
        rcases Nat.lt_or_gt_of_ne hr with hlt | hgt
        · have : (n / N + 1) * N ≤ r * N := Nat.mul_le_mul_right N hlt
          rw [Nat.succ_mul, Nat.mul_comm] at this
          omega
        · have : (r + 1) * N ≤ (n / N) * N := Nat.mul_le_mul_right N hgt
          rw [Nat.succ_mul, Nat.mul_comm (n / N)] at this
          rcases hlo with h | h <;> omega

theorem range_pre {m n : Nat} (h : m ≤ n) : List.range m <+: List.range n := by
  have : List.range m = (List.range n).take m := by
    rw [List.take_range, Nat.min_eq_left h]
  rw [this]
  exact List.take_prefix _ _

theorem deliveries_pre (N : Nat) (db : List String) {m n : Nat} (h : m ≤ n) :
    deliveries N db m <+: deliveries N db n :=
  (range_pre h).map _

theorem delivery_round (N : Nat) (db : List String) (hN : 0 < N) (r i : Nat) (hi : i < N) :
    delivery N db (r * N + i)
      = { round := r, chan := i, record := db.getD ((r * N + i) % db.length) "" } := by
  simp only [delivery, Nat.mul_comm r N, Nat.mul_add_div hN, Nat.mul_add_mod,
    Nat.div_eq_of_lt hi, Nat.mod_eq_of_lt hi, Nat.add_zero]

/-- The deliveries of round `r` among the first `n` deliveries. -/
theorem deliveries_round (N : Nat) (db : List String) (hN : 0 < N) (r n : Nat) :
    ∃ m, (deliveries N db n).filter (fun d => decide (d.round = r))
        = (List.range m).map
            (fun i => { round := r, chan := i, record := db.getD ((r * N + i) % db.length) "" })
      ∧ m ≤ N ∧ ((r + 1) * N ≤ n → m = N) := by
  obtain ⟨m, hm, hle, hlo, hhi⟩ := filter_round N hN r n
  refine ⟨m, ?_, hle, ?_⟩
  · have hcomp : ((fun d : Delivery => decide (d.round = r)) ∘ delivery N db)
        = fun j => decide (j / N = r) := by
      funext j; simp [delivery]
    rw [deliveries, List.filter_map, hcomp, hm, List.map_map]
    apply List.map_congr_left
    intro i hi
    have hi' : i < N := lt_of_lt_of_le (List.mem_range.mp hi) hle
    exact delivery_round N db hN r i hi'
  · intro hfull
    by_contra hne
    have hlt : m < N := lt_of_le_of_ne hle hne
    have := hhi hlt
    rw [Nat.succ_mul] at hfull
    omega

theorem Sys.run_inv {N : Nat} {db : List String} (hK : 1 ≤ db.length) {acts : List Action}
    {s : Sys} (h : (Sys.init (N : Int) db).run acts = some s) : InvDb db s ∧ InvRR N s :=
  ⟨InvDb.db_run hK acts (InvDb.db_init _ db) h, InvRR.rr_run acts (InvRR.rr_init N db) h⟩

/-! ## Determinism under scheduling -/

/-- The positions below `n` that go to channel `c`. -/
theorem filter_chan (N : Nat) (c : Nat) (hc : c < N) (n : Nat) :
    ∃ m, (List.range n).filter (fun j => decide (j % N = c)) = (List.range m).map (fun k => k * N + c)
      ∧ n ≤ m * N + c ∧ (m = 0 ∨ ∃ k, m = k + 1 ∧ k * N + c < n) := by
  induction n with
  | zero => exact ⟨0, by simp, Nat.zero_le _, Or.inl rfl⟩
  | succ n ih =>
    obtain ⟨m, hm, hhi, hlo⟩ := ih
    have hdm : N * (n / N) + n % N = n := Nat.div_add_mod n N
    by_cases hr : n % N = c
    · have hmn : m * N + c = n := by
        rcases Nat.lt_trichotomy (n / N) m with hlt | heq | hgt
        · exfalso
          have h1 : (n / N + 1) * N ≤ m * N := Nat.mul_le_mul_right N hlt
          rw [Nat.succ_mul, Nat.mul_comm (n / N)] at h1
          rcases hlo with h | ⟨k, hk, hkn⟩
          · subst h; simp at hlt
          · subst hk
            rw [Nat.succ_mul] at h1
            omega
        · rw [← heq, Nat.mul_comm]; omega
        · exfalso
          have h1 : (m + 1) * N ≤ (n / N) * N := Nat.mul_le_mul_right N hgt
          rw [Nat.succ_mul, Nat.mul_comm (n / N)] at h1
          omega
      refine ⟨m + 1, ?_, ?_, Or.inr ⟨m, rfl, by omega⟩⟩
      · rw [List.range_succ, List.filter_append, hm, List.range_succ, List.map_append]
        simp [hr, hmn]
      · rw [Nat.succ_mul]; omega
    · refine ⟨m, ?_, ?_, ?_⟩
      · rw [List.range_succ, List.filter_append, hm]
        simp [hr]
      · have hne : m * N + c ≠ n := by
          intro h
          apply hr
          rw [← h, Nat.mul_comm, Nat.mul_add_mod, Nat.mod_eq_of_lt hc]
        omega
      · rcases hlo with h | ⟨k, hk, hkn⟩
        · exact Or.inl h
        · exact Or.inr ⟨k, hk, by omega⟩

/-- The records of the first `n` deliveries that go to channel `c < N`: the
cursor's values at the positions `c`, `N + c`, `2 N + c`, ... -/
theorem deliveries_chan (N : Nat) (db : List String) (c : Nat) (hc : c < N) (n : Nat) :
    ∃ m, ((deliveries N db n).filter (fun d => decide (d.chan = c))).map Delivery.record
        = (List.range m).map (fun k => db.getD ((k * N + c) % db.length) "") := by
  obtain ⟨m, hm, -, -⟩ := filter_chan N c hc n
  refine ⟨m, ?_⟩
  have hcomp : ((fun d : Delivery => decide (d.chan = c)) ∘ delivery N db)
      = fun j => decide (j % N = c) := by
    funext j; simp [delivery]
  rw [deliveries, List.filter_map, hcomp, hm, List.map_map, List.map_map]
  rfl

/-! ## Cyclic restart -/

/-- A call of `read_one` that finds a free Datum: the Datum leaves `free_`,
is parsed from the cursor's value and pushed to `full_`; the cursor
advances. -/
theorem read_one_some (c : Cursor) {qp : QueuePair} {datum : Datum} {rest : List Datum}
    (hq : qp.free_.queue_ = datum :: rest) :
    read_one c qp = some (c.advance,
      { free_ := { queue_ := rest }, full_ := qp.full_.push (datum.ParseFromString c.value) }) := by
  simp only [read_one, read_one_pop, BlockingQueue.pop, hq, read_one_push, Cursor.advance]

/-- A call of `read_one` that finds no free Datum blocks. -/
theorem read_one_none (c : Cursor) {qp : QueuePair} (hq : qp.free_.queue_ = []) :
    read_one c qp = none := by
  simp only [read_one, read_one_pop, BlockingQueue.pop, hq]

theorem Cursor.advance_valid {c : Cursor} (hv : c.valid = true) :
    c.advance.valid = true ∧ c.advance.records = c.records
      ∧ c.advance.pos = (c.pos + 1) % c.records.length := by
  have hp : c.pos < c.records.length := by simpa [Cursor.valid] using hv
  obtain ⟨h1, h2⟩ := Cursor.advance_pos c hp
  refine ⟨?_, h1, h2⟩
  simp only [Cursor.valid, h1, h2, decide_eq_true_eq]
  exact Nat.mod_lt _ (by omega)

theorem Cursor.advance_iterate {c : Cursor} (hv : c.valid = true) (n : Nat) :
    (Cursor.advance^[n] c).valid = true ∧ (Cursor.advance^[n] c).records = c.records
      ∧ (Cursor.advance^[n] c).pos = (c.pos + n) % c.records.length := by
  induction n with
  | zero =>
    have hp : c.pos < c.records.length := by simpa [Cursor.valid] using hv
    exact ⟨hv, rfl, by simp [Nat.mod_eq_of_lt hp]⟩
  | succ n ih =>
    obtain ⟨h1, h2, h3⟩ := ih
    rw [Function.iterate_succ_apply']
    obtain ⟨g1, g2, g3⟩ := Cursor.advance_valid h1
    refine ⟨g1, by rw [g2, h2], ?_⟩
    rw [g3, h2, h3, ← Nat.add_assoc]
    simp [Nat.add_mod]

/-- The value the cursor stands on after `j` calls of `read_one`. -/
theorem Cursor.advance_value {c : Cursor} (hv : c.valid = true) (j : Nat) :
    (Cursor.advance^[j] c).value = c.records.getD ((c.pos + j) % c.records.length) "" := by
  obtain ⟨-, h2, h3⟩ := Cursor.advance_iterate hv j
  simp only [Cursor.value, h2, h3]

/-- After as many calls as there are records the cursor is back where it
started. -/
theorem Cursor.advance_cycle {c : Cursor} (hv : c.valid = true) :
    Cursor.advance^[c.records.length] c = c := by
  obtain ⟨-, h2, h3⟩ := Cursor.advance_iterate hv c.records.length
  have hp : c.pos < c.records.length := by simpa [Cursor.valid] using hv
  have hpos : (Cursor.advance^[c.records.length] c).pos = c.pos := by
    rw [h3, Nat.add_mod_right, Nat.mod_eq_of_lt hp]
  cases hc : Cursor.advance^[c.records.length] c with
  | mk r p =>
    rw [hc] at h2 hpos
    cases c with
    | mk r0 p0 =>
      simp only at h2 hpos
      rw [h2, hpos]

/-- Calls of `read_one` with the consumer at work in between: each call that
finds a free Datum returns, and leaves the queue pair it found with that
Datum moved to `full_`, parsed from the value the cursor then stands on. -/
theorem reads_some (qs : List QueuePair) :
    ∀ (c : Cursor), (∀ qp ∈ qs, qp.free_.queue_ ≠ []) →
      ∃ results, reads c qs = some (Cursor.advance^[qs.length] c, results)
        ∧ results.length = qs.length
        ∧ ∀ (j : Nat) (qp : QueuePair), qs[j]? = some qp → ∃ datum rest, qp.free_.queue_ = datum :: rest
            ∧ results[j]? = some
                { free_ := { queue_ := rest }
                  full_ := qp.full_.push (datum.ParseFromString (Cursor.advance^[j] c).value) } := by
  induction qs with
  | nil =>
    intro c _
    exact ⟨[], rfl, rfl, fun j qp hj => by simp at hj⟩
  | cons qp rest ih =>
    intro c hfree
    have hne := hfree qp (List.mem_cons_self _ _)
    cases hq : qp.free_.queue_ with
    | nil => exact absurd hq hne
    | cons datum left =>
      obtain ⟨results, hr, hlen, hall⟩ :=
        ih c.advance (fun x hx => hfree x (List.mem_cons_of_mem _ hx))
      refine ⟨({ free_ := { queue_ := left }
                 full_ := qp.full_.push (datum.ParseFromString c.value) } : QueuePair) :: results,
        ?_, by simp [hlen], ?_⟩
      · simp only [reads, read_one_some c hq, hr, List.length_cons, Function.iterate_succ_apply]
      · intro j qp1 hj
        cases j with
        | zero =>
          simp only [List.getElem?_cons_zero, Option.some.injEq] at hj
          subst hj
          exact ⟨datum, left, hq, by simp⟩
        | succ j =>
          simp only [List.getElem?_cons_succ] at hj
          obtain ⟨d1, r1, hq1, hres⟩ := hall j qp1 hj
          refine ⟨d1, r1, hq1, ?_⟩
          simp only [List.getElem?_cons_succ, hres, Function.iterate_succ_apply]

/-- Calls of `read_one` on one queue pair whose consumer is idle: `n` calls
return when `free_` holds `n` Datums; they move the first `n` Datums of
`free_` to the back of `full_`, in order, each parsed from the value the
cursor stood on. -/
theorem read_n_some (n : Nat) :
    ∀ (c : Cursor) (qp : QueuePair), n ≤ qp.free_.size →
      ∃ q pushed, read_n c qp n = some (Cursor.advance^[n] c, q)
        ∧ q.full_.queue_ = qp.full_.queue_ ++ pushed
        ∧ q.free_.queue_ = qp.free_.queue_.drop n
        ∧ pushed.map Datum.id = (qp.free_.queue_.take n).map Datum.id
        ∧ pushed.map Datum.data = (List.range n).map (fun j => (Cursor.advance^[j] c).value) := by
  induction n with
  | zero =>
    intro c qp _
    exact ⟨qp, [], rfl, by simp, rfl, rfl, rfl⟩
  | succ n ih =>
    intro c qp hn
    cases hq : qp.free_.queue_ with
    | nil => simp [BlockingQueue.size, hq] at hn
    | cons datum rest =>
      have hn1 : n ≤ ({ free_ := { queue_ := rest }
                        full_ := qp.full_.push (datum.ParseFromString c.value) } : QueuePair).free_.size := by
        simp only [BlockingQueue.size, hq, List.length_cons] at hn ⊢
        omega
      obtain ⟨q, pushed, hr, hfull, hfree, hid, hdata⟩ := ih c.advance _ hn1
      refine ⟨q, datum.ParseFromString c.value :: pushed, ?_, ?_, ?_, ?_, ?_⟩
      · simp only [read_n, read_one_some c hq, hr, Function.iterate_succ_apply]
      · rw [hfull]
        simp [BlockingQueue.push]
      · rw [hfree]
        simp
      · simp only [List.map_cons, hid, List.take_succ_cons]
        rfl
      · simp only [List.map_cons, hdata, List.range_succ_eq_map, List.map_map]
        rfl

/-- C3, cyclic restart.  Over a database of `K ≥ 1` records, from a valid
cursor `c` (such as the new cursor, at the first record): (1) a call of
`read_one` on a valid cursor blocks when `free_` is empty; otherwise it
returns, having moved the front Datum of `free_` to the back of `full_` with
the cursor's value parsed into it, and it leaves the cursor valid: at the next
position, or at the first record when the next position is not valid;
(2) `K + 1` successive calls on one queue pair that holds `K + 1` free Datums
all return; they move the first `K + 1` Datums of `free_` to the back of
`full_`, the `j`-th carrying the record at position `(pos + j) mod K`, so the
Datum pushed by the `(K+1)`-th call carries the same record as the Datum
pushed by the 1st, the cursor's value at the start; after the `K`-th call the
cursor is back where it started; (3) the same holds when the consumer works
on the queue pair between the calls: whatever states `qps` the calls find it
in, each with a free Datum, the `j`-th call leaves it with the front Datum of
`free_` pushed to `full_` carrying the record at position `(pos + j) mod K`,
and the 1st and the `(K+1)`-th both push the cursor's value at the start. -/
theorem cyclic_restart (db : List String) (hK : 1 ≤ db.length) (c : Cursor)
    (hdb : c.records = db) (hv : c.valid = true) :
    (∀ (c1 : Cursor) (qp : QueuePair), c1.valid = true →
        (qp.free_.queue_ = [] → read_one c1 qp = none)
        ∧ (∀ datum rest, qp.free_.queue_ = datum :: rest →
            ∃ c2, read_one c1 qp = some (c2,
                { free_ := { queue_ := rest }
                  full_ := qp.full_.push (datum.ParseFromString c1.value) })
              ∧ c2.valid = true
              ∧ (c1.Next.valid = true → c2 = c1.Next)
              ∧ (c1.Next.valid = false → c2 = c1.Next.SeekToFirst ∧ c2.pos = 0)))
    ∧ (∀ qp : QueuePair, db.length + 1 ≤ qp.free_.size →
        ∃ c' q pushed, read_n c qp (db.length + 1) = some (c', q)
          ∧ q.full_.queue_ = qp.full_.queue_ ++ pushed
          ∧ q.free_.queue_ = qp.free_.queue_.drop (db.length + 1)
          ∧ pushed.map Datum.id = (qp.free_.queue_.take (db.length + 1)).map Datum.id
          ∧ pushed.map Datum.data
              = (List.range (db.length + 1)).map (fun j => db.getD ((c.pos + j) % db.length) "")
          ∧ pushed[0]?.map Datum.data = some c.value
          ∧ pushed[db.length]?.map Datum.data = pushed[0]?.map Datum.data
          ∧ ∃ qK, read_n c qp db.length = some (c, qK))
    ∧ (∀ qps : List QueuePair, qps.length = db.length + 1 →
        (∀ qp ∈ qps, qp.free_.queue_ ≠ []) →
        ∃ c' results, reads c qps = some (c', results) ∧ results.length = db.length + 1
          ∧ (∀ (j : Nat) (qp : QueuePair), qps[j]? = some qp → ∃ datum rest, qp.free_.queue_ = datum :: rest
              ∧ results[j]? = some
                  { free_ := { queue_ := rest }
                    full_ := qp.full_.push
                      (datum.ParseFromString (db.getD ((c.pos + j) % db.length) "")) })
          ∧ (∀ qp, qps[0]? = some qp → ∃ datum rest, qp.free_.queue_ = datum :: rest
              ∧ results[0]? = some
                  { free_ := { queue_ := rest }
                    full_ := qp.full_.push (datum.ParseFromString c.value) })
          ∧ (∀ qp, qps[db.length]? = some qp → ∃ datum rest, qp.free_.queue_ = datum :: rest
              ∧ results[db.length]? = some
                  { free_ := { queue_ := rest }
                    full_ := qp.full_.push (datum.ParseFromString c.value) })) := by
  have hval : ∀ j, (Cursor.advance^[j] c).value = db.getD ((c.pos + j) % db.length) "" := by
    intro j
    rw [Cursor.advance_value hv j, hdb]
  have hcK : Cursor.advance^[db.length] c = c := by
    have := Cursor.advance_cycle hv
    rwa [hdb] at this
  have hvK : (Cursor.advance^[db.length] c).value = c.value := by rw [hcK]
  refine ⟨?_, ?_, ?_⟩
  · intro c1 qp hv1
    refine ⟨fun hq => read_one_none c1 hq, ?_⟩
    intro datum rest hq
    refine ⟨c1.advance, read_one_some c1 hq, (Cursor.advance_valid hv1).1, ?_, ?_⟩
    · intro hn; simp [Cursor.advance, hn]
    · intro hn; simp [Cursor.advance, hn, Cursor.SeekToFirst]
  · intro qp hsize
    obtain ⟨q, pushed, hr, hfull, hfree, hid, hdata⟩ := read_n_some (db.length + 1) c qp hsize
    obtain ⟨qK, pushedK, hrK, -⟩ := read_n_some db.length c qp (by omega)
    rw [hcK] at hrK
    have h0 := congrArg (fun l => l[0]?) hdata
    have hKth := congrArg (fun l => l[db.length]?) hdata
    simp only [List.getElem?_map] at h0 hKth
    rw [List.getElem?_range (by omega)] at h0 hKth
    simp only [Option.map_some', Function.iterate_zero, id_eq, hvK] at h0 hKth
    refine ⟨_, q, pushed, hr, hfull, hfree, hid, ?_, h0, by rw [hKth, h0], qK, hrK⟩
    rw [hdata]
    exact List.map_congr_left (fun j _ => hval j)
  · intro qps hlen hfree
    obtain ⟨results, hr, hrlen, hall⟩ := reads_some qps c hfree
    refine ⟨_, results, hr, by rw [hrlen, hlen], ?_, ?_, ?_⟩
    · intro j qp hj
      obtain ⟨datum, rest, hq, hres⟩ := hall j qp hj
      exact ⟨datum, rest, hq, by rw [hres, hval j]⟩
    · intro qp hj
      obtain ⟨datum, rest, hq, hres⟩ := hall 0 qp hj
      exact ⟨datum, rest, hq, hres⟩
    · intro qp hj
      obtain ⟨datum, rest, hq, hres⟩ := hall db.length qp hj
      exact ⟨datum, rest, hq, by rw [hres, hvK]⟩

/-- Five reads over four records on one queue pair of depth 6. -/
theorem scenario_read_n :
    (read_n (NewCursor ["A", "B", "C", "D"]) (QueuePair.new 6) 5).map
        (fun r => (r.1.pos, r.2.free_.queue_, r.2.full_.queue_))
      = some (1, [⟨5, ""⟩], [⟨0, "A"⟩, ⟨1, "B"⟩, ⟨2, "C"⟩, ⟨3, "D"⟩, ⟨4, "A"⟩]) := by
  decide

/-- C3, witness: four records, five reads on a queue pair of depth 6; the
fifth read pushes A again, and `full_` then holds A, B, C, D, A. -/
theorem cyclic_restart_witness :
    ∃ c' q pushed, read_n (NewCursor ["A", "B", "C", "D"]) (QueuePair.new 6) 5 = some (c', q)
      ∧ q.full_.queue_ = [⟨0, "A"⟩, ⟨1, "B"⟩, ⟨2, "C"⟩, ⟨3, "D"⟩, ⟨4, "A"⟩]
      ∧ q.full_.queue_ = (QueuePair.new 6).full_.queue_ ++ pushed
      ∧ pushed[0]?.map Datum.data = some "A" ∧ pushed[4]?.map Datum.data = some "A" := by
  obtain ⟨-, h2, -⟩ :=
    cyclic_restart ["A", "B", "C", "D"] (by decide) (NewCursor ["A", "B", "C", "D"]) rfl
      (by decide)
  obtain ⟨c', q, pushed, hr, hfull, -, -, -, h0, hK, -⟩ := h2 (QueuePair.new 6) (by decide)
  have hrun := scenario_read_n
  have hr5 : read_n (NewCursor ["A", "B", "C", "D"]) (QueuePair.new 6) 5 = some (c', q) := hr
  rw [hr5] at hrun
  simp only [Option.map_some', Option.some.injEq, Prod.mk.injEq] at hrun
  exact ⟨c', q, pushed, hr5, hrun.2.2, hfull, h0, hK.trans h0⟩

/-! ## Conservation of the Datums of a queue pair -/

theorem Sys.in_flight_congr {s t : Sys} (h1 : t.pc = s.pc) (h2 : t.qps = s.qps) (c : Nat) :
    t.in_flight c = s.in_flight c := by
  simp only [Sys.in_flight, h1, h2]

theorem InvCons.of_same {s t : Sys} (hs : InvCons s) (ht : t.chans = s.chans)
    (hfl : ∀ c, t.in_flight c = s.in_flight c) : InvCons t := by
  refine ⟨fun c ch hc => ?_, fun c hc => ?_⟩
  · rw [ht] at hc
    have := hs.1 c ch hc
    simpa only [Conserved, hfl] using this
  · rw [ht] at hc
    rw [hfl]; exact hs.2 c hc

theorem InvCons.of_set {s t : Sys} {c0 : Nat} {ch0 ch1 : Channel} (hs : InvCons s)
    (h0 : s.chans[c0]? = some ch0) (ht : t.chans = s.chans.set c0 ch1)
    (hc : Conserved t c0 ch1) (hfl : ∀ c, c ≠ c0 → t.in_flight c = s.in_flight c) :
    InvCons t := by
  have hlt : c0 < s.chans.length := by
    obtain ⟨h, -⟩ := List.getElem?_eq_some.mp h0
    exact h
  refine ⟨fun c ch hch => ?_, fun c hge => ?_⟩
  · rw [ht, List.getElem?_set] at hch
    by_cases hcc : c0 = c
    · subst hcc
      simp only [if_true, hlt, Option.some.injEq] at hch
      subst hch
      exact hc
    · simp only [hcc, if_false] at hch
      have := hs.1 c ch hch
      simpa only [Conserved, hfl c (Ne.symm hcc)] using this
  · rw [ht, List.length_set] at hge
    rw [hfl c (by omega)]
    exact hs.2 c hge

theorem InvCons.cons_init (n : Int) (db : List String) : InvCons (Sys.init n db) := by
  refine ⟨fun c ch hc => ?_, fun c _ => rfl⟩
  simp [Sys.init] at hc

theorem InvCons.cons_body {s t : Sys} (hs : InvCons s) (h : s.body = some t) : InvCons t := by
  unfold Sys.body at h
  split at h
  · -- startPop
    rename_i i hpc
    have hz : ∀ c, s.in_flight c = 0 := fun c => by simp [Sys.in_flight, hpc]
    split at h
    · split at h
      · rw [(Sys.blocked_some h).2]
        exact hs.of_same rfl (fun c => by rw [hz]; rfl)
      · simp only [Option.some.injEq] at h
        subst h
        exact hs.of_same rfl (fun c => by rw [hz]; rfl)
    · simp only [Option.some.injEq] at h
      subst h
      exact hs.of_same rfl (fun c => by rw [hz]; rfl)
  · -- startRead
    rename_i i qp hpc
    have hz : ∀ c, s.in_flight c = 0 := fun c => by simp [Sys.in_flight, hpc]
    obtain ⟨ch, hch, ⟨hst, h⟩ | ⟨d, rest, hq, h⟩⟩ := Sys.read_pop_some h
    · subst h
      exact hs.of_same rfl (fun c => by rw [hz]; rfl)
    · subst h
      refine hs.of_set hch rfl ?_ (fun c hne => ?_)
      · have := hs.1 qp ch hch
        simp only [Conserved, hz, BlockingQueue.size, hq, List.length_cons] at this
        simp only [Conserved, Sys.in_flight, BlockingQueue.size, if_true]
        omega
      · rw [hz]
        simp [Sys.in_flight, Ne.symm hne]
  · -- startFill
    rename_i i qp d hpc
    split at h
    · simp at h
    · rename_i u hu
      obtain ⟨ch, hch, rfl⟩ := Sys.read_push_some hu
      simp only [Option.some.injEq] at h
      subst h
      refine hs.of_set hch rfl ?_ (fun c hne => ?_)
      · have := hs.1 qp ch hch
        simp only [Conserved, Sys.in_flight, hpc, if_true, BlockingQueue.size] at this
        simp only [Conserved, Sys.in_flight, BlockingQueue.size, BlockingQueue.push,
          List.length_append, List.length_singleton]
        omega
      · simp [Sys.in_flight, hpc, Ne.symm hne]
  · -- loopHead
    rename_i r hpc
    have hz : ∀ c, s.in_flight c = 0 := fun c => by simp [Sys.in_flight, hpc]
    split at h <;>
      (simp only [Option.some.injEq] at h
       subst h
       exact hs.of_same rfl (fun c => by rw [hz]; rfl))
  · -- mainRead
    rename_i r i hpc
    have hz : ∀ c, s.in_flight c = 0 := fun c => by simp [Sys.in_flight, hpc]
    split at h
    · split at h
      · simp at h
      · rename_i qp hqp
        obtain ⟨ch, hch, ⟨hst, h⟩ | ⟨d, rest, hq, h⟩⟩ := Sys.read_pop_some h
        · subst h
          exact hs.of_same rfl (fun c => by rw [hz]; rfl)
        · subst h
          refine hs.of_set hch rfl ?_ (fun c hne => ?_)
          · have := hs.1 qp ch hch
            simp only [Conserved, hz, BlockingQueue.size, hq, List.length_cons] at this
            simp only [Conserved, Sys.in_flight, BlockingQueue.size, hqp, if_true]
            omega
          · rw [hz]
            simp [Sys.in_flight, hqp, Ne.symm hne]
    · simp only [Option.some.injEq] at h
      subst h
      exact hs.of_same rfl (fun c => by rw [hz]; rfl)
  · -- mainFill
    rename_i r i d hpc
    split at h
    · simp at h
    · rename_i qp hqp
      obtain ⟨ch, hch, rfl⟩ := Sys.read_push_some h
      refine hs.of_set hch rfl ?_ (fun c hne => ?_)
      · have := hs.1 qp ch hch
        simp only [Conserved, Sys.in_flight, hpc, hqp, if_true, BlockingQueue.size] at this
        simp only [Conserved, Sys.in_flight, BlockingQueue.size, BlockingQueue.push,
          List.length_append, List.length_singleton]
        omega
      · simp [Sys.in_flight, hpc, hqp, Ne.symm hne]
  · -- check
    rename_i r hpc
    have hz : ∀ c, s.in_flight c = 0 := fun c => by simp [Sys.in_flight, hpc]
    split at h <;>
      (simp only [Option.some.injEq] at h
       subst h
       exact hs.of_same rfl (fun c => by rw [hz]; rfl))
  · simp at h
  · simp at h

theorem InvCons.cons_step {s t : Sys} {a : Action} (hs : InvCons s) (h : s.step a = some t) :
    InvCons t := by
  cases a with
  | body => exact hs.cons_body h
  | requestStop =>
    simp only [Sys.step, Option.some.injEq] at h
    subst h
    exact hs.of_same rfl (fun c => rfl)
  | consumerPop c0 =>
    obtain ⟨ch, d, rest, hch, hq, ht⟩ := Sys.consumer_pop_some h
    have hfl : t.in_flight c0 = s.in_flight c0 :=
      Sys.in_flight_congr (by rw [ht]) (by rw [ht]) c0
    refine hs.of_set hch (by rw [ht]) ?_
      (fun c _ => Sys.in_flight_congr (by rw [ht]) (by rw [ht]) c)
    have := hs.1 c0 ch hch
    simp only [Conserved, BlockingQueue.size, hq, List.length_cons] at this
    simp only [Conserved, BlockingQueue.size, List.length_append, List.length_singleton, hfl]
    omega
  | consumerPush c0 k =>
    obtain ⟨ch, d, hch, hk, ht⟩ := Sys.consumer_push_some h
    have hfl : t.in_flight c0 = s.in_flight c0 :=
      Sys.in_flight_congr (by rw [ht]) (by rw [ht]) c0
    refine hs.of_set hch (by rw [ht]) ?_
      (fun c _ => Sys.in_flight_congr (by rw [ht]) (by rw [ht]) c)
    have := hs.1 c0 ch hch
    have hklt : k < ch.held.length := by
      obtain ⟨hlt, -⟩ := List.getElem?_eq_some.mp hk
      exact hlt
    simp only [Conserved, BlockingQueue.size] at this
    simp only [Conserved, BlockingQueue.size, BlockingQueue.push, List.length_append,
      List.length_singleton, List.length_eraseIdx, hklt, if_true, hfl]
    omega
  | register size =>
    simp only [Sys.step, Option.some.injEq] at h
    subst h
    refine ⟨fun c ch hch => ?_, fun c hge => ?_⟩
    · have hfl : (s.register size).in_flight c = s.in_flight c := rfl
      simp only [Sys.register] at hch
      by_cases hlt : c < s.chans.length
      · rw [List.getElem?_append_left hlt] at hch
        have := hs.1 c ch hch
        simpa only [Conserved, hfl] using this
      · rw [List.getElem?_append_right (by omega)] at hch
        have hc0 : c - s.chans.length = 0 := by
          by_contra hne
          rw [List.getElem?_eq_none (by simp; omega)] at hch
          simp at hch
        rw [hc0] at hch
        simp only [List.getElem?_cons_zero, Option.some.injEq] at hch
        subst hch
        show (QueuePair.new size).free_.size + (QueuePair.new size).full_.size
          + ([] : List Datum).length + (s.register size).in_flight c = size.toNat
        rw [hfl, hs.2 c (by omega), QueuePair.new_free_size]
        simp [BlockingQueue.size, QueuePair.new_full]
    · have hfl : (s.register size).in_flight c = s.in_flight c := rfl
      simp only [Sys.register, List.length_append, List.length_singleton] at hge
      rw [hfl]
      exact hs.2 c (by omega)

theorem InvCons.cons_run (acts : List Action) :
    ∀ {s t : Sys}, InvCons s → s.run acts = some t → InvCons t := by
  induction acts with
  | nil =>
    intro s t hs h
    simp only [Sys.run, Option.some.injEq] at h
    exact h ▸ hs
  | cons a rest ih =>
    intro s t hs h
    simp only [Sys.run] at h
    cases ha : s.step a with
    | none => simp [ha] at h
    | some u =>
      simp only [ha] at h
      exact ih (hs.cons_step ha) h

/-- Below `2 ^ 31` the product reaches `QueuePair(int size)` unchanged. -/
theorem queue_size_small (param : LayerParameter)
    (h : param.data_param.prefetch * param.data_param.batch_size < 2 ^ 31) :
    queue_size param
      = ((param.data_param.prefetch * param.data_param.batch_size : Nat) : Int) := by
  have hmod : (param.data_param.prefetch % 2 ^ 32) * (param.data_param.batch_size % 2 ^ 32)
      = param.data_param.prefetch * param.data_param.batch_size := by
    rcases Nat.eq_zero_or_pos param.data_param.prefetch with h0 | hp
    · simp [h0]
    rcases Nat.eq_zero_or_pos param.data_param.batch_size with h1 | hb
    · simp [h1]
    have h2 : param.data_param.prefetch ≤ param.data_param.prefetch * param.data_param.batch_size :=
      Nat.le_mul_of_pos_right _ hb
    have h3 : param.data_param.batch_size ≤ param.data_param.prefetch * param.data_param.batch_size :=
      Nat.le_mul_of_pos_left _ hp
    rw [Nat.mod_eq_of_lt (by omega), Nat.mod_eq_of_lt (by omega)]
  unfold queue_size to_int
  rw [hmod]
  have h4 : param.data_param.prefetch * param.data_param.batch_size % 2 ^ 32
      = param.data_param.prefetch * param.data_param.batch_size := Nat.mod_eq_of_lt (by omega)
  rw [h4, if_pos h]

/-- C4, conservation, as amended.  `QueuePair(int size)` starts with `size`
Datums in `free_` (none for a negative `size`) and none in `full_`.  The
queue pair a reader constructs starts with as many Datums as the `int` that
the `uint32` product `prefetch * batch_size` converts to: exactly
`prefetch * batch_size` when that product is below `2 ^ 31`.  In every state
reached by an interleaving of registrations, body steps (the pop and the push
of `read_one` are separate steps), stop requests and consumer steps, for every
channel `|free_| + |full_| + (Datums held by the consumer) + (the Datum the
body has popped and not pushed yet)` equals the number of Datums it was
constructed with. -/
theorem conservation (n : Int) (db : List String) (acts : List Action) (s : Sys)
    (h : (Sys.init n db).run acts = some s) :
    (∀ size : Int, (QueuePair.new size).free_.size = size.toNat
        ∧ (QueuePair.new size).full_.size = 0)
    ∧ (∀ param : LayerParameter,
        (QueuePair.new (queue_size param)).free_.size = (queue_size param).toNat
        ∧ (QueuePair.new (queue_size param)).full_.size = 0
        ∧ (param.data_param.prefetch * param.data_param.batch_size < 2 ^ 31 →
            (QueuePair.new (queue_size param)).free_.size
              = param.data_param.prefetch * param.data_param.batch_size))
    ∧ (∀ c ch, s.chans[c]? = some ch →
        ch.qp.free_.size + ch.qp.full_.size + ch.held.length + s.in_flight c = ch.size.toNat) := by
  refine ⟨fun size => ⟨QueuePair.new_free_size size, rfl⟩,
    fun param => ⟨QueuePair.new_free_size _, rfl, fun hlt => ?_⟩, ?_⟩
  · rw [QueuePair.new_free_size, queue_size_small param hlt, Int.toNat_ofNat]
  · exact (InvCons.cons_run acts (InvCons.cons_init n db) h).1

/-- C4, counterexample to the claim as stated: with `prefetch = 2` and
`batch_size = 2 ^ 30` the product is `2 ^ 31`, `QueuePair` receives a negative
`int` and starts with no Datum; with `prefetch = 2` and
`batch_size = 2147483651` the product is `2 ^ 32 + 6` and the queue pair
starts with 6 Datums. -/
theorem conservation_counterexample :
    (QueuePair.new (queue_size param_negative)).free_.size = 0
    ∧ param_negative.data_param.prefetch * param_negative.data_param.batch_size = 2147483648
    ∧ (QueuePair.new (queue_size param_negative)).free_.size
        ≠ param_negative.data_param.prefetch * param_negative.data_param.batch_size
    ∧ (QueuePair.new (queue_size param_wrapped)).free_.size = 6
    ∧ (QueuePair.new (queue_size param_wrapped)).free_.size
        ≠ param_wrapped.data_param.prefetch * param_wrapped.data_param.batch_size := by
  have h1 : queue_size param_negative = -2147483648 := by
    simp [queue_size, to_int, param_negative]
  have h2 : queue_size param_wrapped = 6 := by
    simp [queue_size, to_int, param_wrapped]
  have e1 : (QueuePair.new (queue_size param_negative)).free_.size = 0 := by
    rw [QueuePair.new_free_size, h1]; rfl
  have e2 : (QueuePair.new (queue_size param_wrapped)).free_.size = 6 := by
    rw [QueuePair.new_free_size, h2]; rfl
  refine ⟨e1, rfl, ?_, e2, ?_⟩
  · rw [e1]; simp [param_negative]
  · rw [e2]; simp [param_wrapped]

theorem scenario_in_flight_run :
    ((Sys.init 2 ["A", "B", "C", "D"]).run scenario_in_flight).map
        (fun s => (s.chans.map (fun ch => (ch.qp.free_.size, ch.qp.full_.size, ch.held.length)),
          s.in_flight 0, s.in_flight 1))
      = some ([(4, 0, 1), (5, 1, 0)], 1, 0) := by
  decide

/-- C4, witness: in the state after `scenario_in_flight` channel 0 has 4
Datums free, none full, 1 held by the consumer and 1 in the body's hand; a
reader with `prefetch = 3` and `batch_size = 2` constructs a queue pair of 6
Datums. -/
theorem conservation_witness :
    ∃ s ch, (Sys.init 2 ["A", "B", "C", "D"]).run scenario_in_flight = some s
      ∧ s.chans[0]? = some ch ∧ s.in_flight 0 = 1 ∧ ch.held.length = 1
      ∧ ch.qp.free_.size + ch.qp.full_.size + ch.held.length + s.in_flight 0 = 6
      ∧ (QueuePair.new (queue_size param_data)).free_.size = 6 := by
  have hsome : ((Sys.init 2 ["A", "B", "C", "D"]).run scenario_in_flight).isSome = true := by
    decide
  obtain ⟨s, hs⟩ := Option.isSome_iff_exists.mp hsome
  have hrun := scenario_in_flight_run
  rw [hs] at hrun
  simp only [Option.map_some', Option.some.injEq, Prod.mk.injEq] at hrun
  obtain ⟨hch, hfl, -⟩ := hrun
  cases hc : s.chans with
  | nil => rw [hc] at hch; simp at hch
  | cons ch rest =>
    rw [hc] at hch
    simp only [List.map_cons, List.cons.injEq, Prod.mk.injEq] at hch
    obtain ⟨⟨-, -, hheld⟩, -⟩ := hch
    have hget : s.chans[0]? = some ch := by rw [hc]; simp
    have hsize : ch.size = 6 := by
      have hsz : ((Sys.init 2 ["A", "B", "C", "D"]).run scenario_in_flight).map
          (fun s => s.chans.map Channel.size) = some [6, 6] := by decide
      rw [hs] at hsz
      simp only [Option.map_some', Option.some.injEq, hc, List.map_cons, List.cons.injEq] at hsz
      exact hsz.1
    obtain ⟨-, h2, h3⟩ := conservation 2 ["A", "B", "C", "D"] scenario_in_flight s hs
    have := h3 0 ch hget
    rw [hsize] at this
    have h6 := (h2 param_data).2.2 (by simp [param_data])
    exact ⟨s, ch, hs, hget, hfl, hheld, this, by rw [h6]; rfl⟩

/-! ## The startup barrier and the check for extra registrations -/

theorem Sys.init_toNat (n : Int) (db : List String) :
    Sys.init n db = Sys.init ((n.toNat : Nat) : Int) db := by
  simp only [Sys.init, Int.toNat_ofNat]

theorem Sys.run_invRR {n : Int} {db : List String} {acts : List Action} {s : Sys}
    (h : (Sys.init n db).run acts = some s) : InvRR n.toNat s := by
  rw [Sys.init_toNat] at h
  exact InvRR.rr_run acts (InvRR.rr_init n.toNat db) h

theorem schedule_getElem? (N n j : Nat) (hj : j < n) :
    (schedule N n)[j]? = some (j / N, j % N) := by
  simp [schedule, List.getElem?_map, List.getElem?_range hj]

theorem InvRR.log_getElem? {N : Nat} {s : Sys} (hs : InvRR N s) {j : Nat} {d : Delivery}
    (hd : s.log[j]? = some d) : d.round = j / N ∧ d.chan = j % N := by
  have hj : j < s.log.length := by
    obtain ⟨h, -⟩ := List.getElem?_eq_some.mp hd
    exact h
  have e := congrArg (fun l => l[j]?) hs.log
  simp only [List.getElem?_map, hd, Option.map_some', schedule_getElem? N _ j hj,
    Option.some.injEq, Prod.mk.injEq] at e
  exact e

theorem InvRR.delivered_length {N : Nat} {s : Sys} (hs : InvRR N s) (c : Nat) :
    (s.delivered c).length
      = ((List.range s.log.length).filter (fun j => decide (j % N = c))).length := by
  have hcomp : (fun d : Delivery => decide (d.chan = c))
      = (fun p : Nat × Nat => decide (p.2 = c)) ∘ (fun d : Delivery => (d.round, d.chan)) := by
    funext d; rfl
  have hcomp2 : ((fun p : Nat × Nat => decide (p.2 = c)) ∘ fun j => (j / N, j % N))
      = fun j => decide (j % N = c) := by
    funext j; rfl
  have h1 : (s.log.filter (fun d => decide (d.chan = c))).length
      = ((s.log.map (fun d => (d.round, d.chan))).filter (fun p => decide (p.2 = c))).length := by
    rw [List.filter_map, List.length_map, hcomp]
  rw [Sys.delivered, List.length_map, h1, hs.log, schedule, List.filter_map, List.length_map,
    hcomp2]

theorem InvRR.delivered_ge_two {N : Nat} {s : Sys} (hs : InvRR N s) (hN : 1 ≤ N) (c : Nat)
    (h2 : 2 ≤ (s.delivered c).length) : N < s.log.length := by
  rw [hs.delivered_length] at h2
  by_cases hc : c < N
  · obtain ⟨m, hm, -, hlo⟩ := filter_chan N c hc s.log.length
    rw [hm, List.length_map, List.length_range] at h2
    rcases hlo with h | ⟨k, hk, hkn⟩
    · omega
    · have hk1 : 1 ≤ k := by omega
      have : 1 * N ≤ k * N := Nat.mul_le_mul_right N hk1
      omega
  · have hnil : (List.range s.log.length).filter (fun j => decide (j % N = c)) = [] := by
      rw [List.filter_eq_nil_iff]
      intro j _
      have := Nat.mod_lt j hN
      simp only [decide_eq_true_eq]
      omega
    rw [hnil] at h2
    simp at h2

theorem InvRR.delivered_one {N : Nat} {s : Sys} (hs : InvRR N s) (hlen : s.log.length = N)
    (c : Nat) (hc : c < N) : (s.delivered c).length = 1 := by
  rw [hs.delivered_length]
  obtain ⟨m, hm, hhi, hlo⟩ := filter_chan N c hc s.log.length
  rw [hm, List.length_map, List.length_range]
  rw [hlen] at hhi hlo
  rcases hlo with h | ⟨k, hk, hkn⟩
  · subst h; omega
  · have hk0 : k = 0 := by
      by_contra hne
      have hk1 : 1 ≤ k := by omega
      have : 1 * N ≤ k * N := Nat.mul_le_mul_right N hk1
      omega
    omega

theorem InvRR.pending {N : Nat} {s : Sys} (hs : InvRR N s) (hne : s.pc ≠ Pc.stopped) :
    s.qps.length + s.hand.length + s.new_queue_pairs_.size = s.chans.length := by
  have := congrArg List.length (hs.reg hne)
  simp only [List.length_append, List.length_range] at this
  simpa only [BlockingQueue.size] using this

theorem lock_some {heap : List BodyCell} {weak : Option Nat} {a : Nat} {cell : BodyCell}
    (h : lock heap weak = some (a, cell)) :
    weak = some a ∧ heap[a]? = some cell ∧ 0 < cell.use_count := by
  unfold lock at h
  split at h
  · simp at h
  · rename_i b
    split at h
    · simp at h
    · rename_i c hc
      split at h
      · rename_i hpos
        simp only [Option.some.injEq, Prod.mk.injEq] at h
        obtain ⟨rfl, rfl⟩ := h
        exact ⟨rfl, hc, hpos⟩
      · simp at h

theorem lock_of_live {heap : List BodyCell} {a : Nat} {cell : BodyCell}
    (h1 : heap[a]? = some cell) (h2 : 0 < cell.use_count) :
    lock heap (some a) = some (a, cell) := by
  simp [lock, h1, h2]

theorem lock_of_dead {heap : List BodyCell} {a : Nat} {cell : BodyCell}
    (h1 : heap[a]? = some cell) (h2 : cell.use_count = 0) :
    lock heap (some a) = none := by
  simp [lock, h1, h2]

theorem BodyMap.weak_index (m : BodyMap) (key : String) :
    (m.index key).weak key = m.weak key := by
  unfold BodyMap.weak BodyMap.index
  cases h : m key <;> simp

theorem BodyMap.index_ne (m : BodyMap) {key k : String} (h : k ≠ key) :
    (m.index key) k = m k := by
  simp [BodyMap.index, h]

theorem BodyMap.index_of_some (m : BodyMap) {key : String} {weak : Option Nat}
    (h : m key = some weak) (k : String) : (m.index key) k = m k := by
  by_cases hk : k = key
  · subst hk; simp [BodyMap.index, h]
  · exact m.index_ne hk

theorem BodyMap.weak_some {m : BodyMap} {key : String} {a : Nat}
    (h : m.weak key = some a) : m key = some (some a) := by
  unfold BodyMap.weak at h
  split at h
  · simp at h
  · rename_i w hw
    rw [hw, h]

theorem countP_eraseIdx {α : Type} (l : List α) (p : α → Bool) (k : Nat) (x : α)
    (h : l[k]? = some x) :
    (l.eraseIdx k).countP p + (if p x = true then 1 else 0) = l.countP p := by
  have hk : k < l.length := (List.getElem?_eq_some.mp h).1
  have hx : l[k] = x := (List.getElem?_eq_some.mp h).2
  rw [List.eraseIdx_eq_take_drop_succ]
  conv_rhs => rw [← List.take_append_drop k l, List.drop_eq_getElem_cons hk]
  simp only [List.countP_append, List.countP_cons, hx]
  omega

theorem InvReg.empty : InvReg World.empty := by
  constructor
  · intro key weak h; simp [World.empty] at h
  · intro a cell h; simp [World.empty] at h
  · intro a cell h; simp [World.empty] at h
  · intro r h; simp [World.empty] at h
  · intro a cell h; simp [World.empty] at h

/-- What `construct` does when the key has a live entry: the Body is adopted. -/
theorem World.construct_adopt {w : World} {param : LayerParameter} {a : Nat} {cell : BodyCell}
    (h : lock w.heap (w.bodies_.weak (source_key param)) = some (a, cell)) :
    w.construct param =
      { bodies_ := w.bodies_.index (source_key param)
        heap := w.heap.set a
          { use_count := cell.use_count + 1
            body := { cell.body with
              new_queue_pairs_ := cell.body.new_queue_pairs_.push w.queue_pairs.length } }
        queue_pairs := w.queue_pairs ++ [QueuePair.new (queue_size param)]
        readers := w.readers ++ [{ queue_pair_ := w.queue_pairs.length, body_ := a }] } := by
  simp only [World.construct, BodyMap.weak_index, h]

/-- What `construct` does when the key has no live entry: a Body is made. -/
theorem World.construct_fresh {w : World} {param : LayerParameter}
    (h : lock w.heap (w.bodies_.weak (source_key param)) = none) :
    w.construct param =
      { bodies_ := (w.bodies_.index (source_key param)).assign (source_key param)
          (some w.heap.length)
        heap := w.heap ++
          [{ use_count := 1
             body := { param_ := param
                       new_queue_pairs_ := (BlockingQueue.mk []).push w.queue_pairs.length } }]
        queue_pairs := w.queue_pairs ++ [QueuePair.new (queue_size param)]
        readers := w.readers ++ [{ queue_pair_ := w.queue_pairs.length, body_ := w.heap.length }] } := by
  simp only [World.construct, BodyMap.weak_index, h]

theorem InvReg.construct {w : World} (hw : InvReg w) (param : LayerParameter) :
    InvReg (w.construct param) := by
  obtain ⟨hentry, hreg, hcount, hbound, hfresh⟩ := hw
  cases hl : lock w.heap (w.bodies_.weak (source_key param)) with
  | some p =>
    obtain ⟨a, cell⟩ := p
    rw [World.construct_adopt hl]
    obtain ⟨hweak, hcell, hpos⟩ := lock_some hl
    have hkey := BodyMap.weak_some hweak
    have ha : a < w.heap.length := (List.getElem?_eq_some.mp hcell).1
    constructor
    · intro key weak hk
      simp only [BodyMap.index_of_some _ hkey] at hk
      obtain ⟨b, c, hb, hc, hp, hs⟩ := hentry key weak hk
      by_cases hab : a = b
      · subst hab
        rw [hcell] at hc
        simp only [Option.some.injEq] at hc
        subst hc
        exact ⟨a, { use_count := cell.use_count + 1
                    body := { cell.body with
                      new_queue_pairs_ := cell.body.new_queue_pairs_.push w.queue_pairs.length } },
          hb, by simp [List.getElem?_set, ha], by simp, hs⟩
      · exact ⟨b, c, hb, by simp [List.getElem?_set, hab, hc], hp, hs⟩
    · intro b c hc hp
      simp only [BodyMap.index_of_some _ hkey]
      simp only [List.getElem?_set] at hc
      by_cases hab : a = b
      · subst hab
        simp only [if_true, ha, Option.some.injEq] at hc
        subst hc
        exact hreg a cell hcell hpos
      · simp only [hab, if_false] at hc
        exact hreg b c hc hp
    · intro b c hc
      simp only [List.getElem?_set] at hc
      simp only [List.countP_append, List.countP_cons, List.countP_nil]
      by_cases hab : a = b
      · subst hab
        simp only [if_true, ha, Option.some.injEq] at hc
        subst hc
        simp [hcount a cell hcell]
      · simp only [hab, if_false] at hc
        simp [hcount b c hc, hab]
    · intro r hr
      simp only [List.mem_append, List.mem_singleton] at hr
      simp only [List.length_set]
      rcases hr with hr | rfl
      · exact hbound r hr
      · exact ha
    · intro b c hc q hq
      simp only [List.getElem?_set] at hc
      simp only [List.length_append, List.length_singleton]
      by_cases hab : a = b
      · subst hab
        simp only [if_true, ha, Option.some.injEq] at hc
        subst hc
        simp only [BlockingQueue.push, List.mem_append, List.mem_singleton] at hq
        rcases hq with hq | rfl
        · have := hfresh a cell hcell q hq; omega
        · omega
      · simp only [hab, if_false] at hc
        have := hfresh b c hc q hq; omega
  | none =>
    rw [World.construct_fresh hl]
    have hnolive : ∀ (b : Nat) (c : BodyCell), w.heap[b]? = some c → 0 < c.use_count →
        source_key c.body.param_ ≠ source_key param := by
      intro b c hc hp hs
      have := hreg b c hc hp
      rw [hs] at this
      have hwk : w.bodies_.weak (source_key param) = some b := by
        simp [BodyMap.weak, this]
      rw [hwk, lock_of_live hc hp] at hl
      simp at hl
    constructor
    · intro key weak hk
      by_cases hkk : key = source_key param
      · subst hkk
        simp only [BodyMap.assign, if_true, Option.some.injEq] at hk
        subst hk
        exact ⟨w.heap.length,
          { use_count := 1
            body := { param_ := param
                      new_queue_pairs_ := (BlockingQueue.mk []).push w.queue_pairs.length } },
          rfl, by simp, by simp, rfl⟩
      · simp only [BodyMap.assign, hkk, if_false, BodyMap.index_ne _ hkk] at hk
        obtain ⟨b, c, hb, hc, hp, hs⟩ := hentry key weak hk
        have hblt : b < w.heap.length := (List.getElem?_eq_some.mp hc).1
        exact ⟨b, c, hb, by rw [List.getElem?_append_left hblt]; exact hc, hp, hs⟩
    · intro b c hc hp
      by_cases hblt : b < w.heap.length
      · rw [List.getElem?_append_left hblt] at hc
        have hne := hnolive b c hc hp
        simp only [BodyMap.assign, hne, if_false, BodyMap.index_ne _ hne]
        exact hreg b c hc hp
      · rw [List.getElem?_append_right (by omega)] at hc
        have hb0 : b - w.heap.length = 0 := by
          by_contra hne
          rw [List.getElem?_eq_none (by simp; omega)] at hc
          simp at hc
        rw [hb0] at hc
        simp only [List.getElem?_cons_zero, Option.some.injEq] at hc
        subst hc
        have : b = w.heap.length := by omega
        subst this
        simp [BodyMap.assign]
    · intro b c hc
      simp only [List.countP_append, List.countP_cons, List.countP_nil]
      by_cases hblt : b < w.heap.length
      · rw [List.getElem?_append_left hblt] at hc
        have : ¬ (w.heap.length = b) := by omega
        simp [hcount b c hc, this]
      · rw [List.getElem?_append_right (by omega)] at hc
        have hb0 : b - w.heap.length = 0 := by
          by_contra hne
          rw [List.getElem?_eq_none (by simp; omega)] at hc
          simp at hc
        rw [hb0] at hc
        simp only [List.getElem?_cons_zero, Option.some.injEq] at hc
        subst hc
        have hb : b = w.heap.length := by omega
        subst hb
        have hzero : w.readers.countP (fun r => decide (r.body_ = w.heap.length)) = 0 := by
          rw [List.countP_eq_zero]
          intro r hr
          have := hbound r hr
          simp only [decide_eq_true_eq]
          omega
        simp [hzero]
    · intro r hr
      simp only [List.mem_append, List.mem_singleton] at hr
      simp only [List.length_append, List.length_singleton]
      rcases hr with hr | rfl
      · have := hbound r hr; omega
      · simp
    · intro b c hc q hq
      simp only [List.length_append, List.length_singleton]
      by_cases hblt : b < w.heap.length
      · rw [List.getElem?_append_left hblt] at hc
        have := hfresh b c hc q hq; omega
      · rw [List.getElem?_append_right (by omega)] at hc
        have hb0 : b - w.heap.length = 0 := by
          by_contra hne
          rw [List.getElem?_eq_none (by simp; omega)] at hc
          simp at hc
        rw [hb0] at hc
        simp only [List.getElem?_cons_zero, Option.some.injEq] at hc
        subst hc
        simp only [BlockingQueue.push, List.nil_append, List.mem_singleton] at hq
        omega

theorem World.destruct_some {w v : World} {k : Nat} (h : w.destruct k = some v) :
    ∃ r cell, w.readers[k]? = some r ∧ w.heap[r.body_]? = some cell ∧
      v = { w with
        bodies_ :=
          if expired (w.heap.set r.body_ { cell with use_count := cell.use_count - 1 })
              (w.bodies_.weak (source_key cell.body.param_))
          then (w.bodies_.index (source_key cell.body.param_)).erase (source_key cell.body.param_)
          else w.bodies_.index (source_key cell.body.param_)
        heap := w.heap.set r.body_ { cell with use_count := cell.use_count - 1 }
        readers := w.readers.eraseIdx k } := by
  unfold World.destruct at h
  cases hr : w.readers[k]? with
  | none => simp [hr] at h
  | some r =>
    simp only [hr] at h
    cases hc : w.heap[r.body_]? with
    | none => simp [hc] at h
    | some cell =>
      simp only [hc, Option.some.injEq, BodyMap.weak_index] at h
      exact ⟨r, cell, rfl, hc, h.symm⟩

/-- The facts about the reader that `destruct k` closes, in a world that
satisfies the invariant. -/
theorem InvReg.reader {w : World} (hw : InvReg w) {k : Nat} {r : DataReader} {cell : BodyCell}
    (hr : w.readers[k]? = some r) (hc : w.heap[r.body_]? = some cell) :
    1 ≤ cell.use_count
      ∧ w.bodies_ (source_key cell.body.param_) = some (some r.body_)
      ∧ (w.readers.eraseIdx k).countP (fun x => decide (x.body_ = r.body_)) + 1
          = cell.use_count := by
  have hcnt := countP_eraseIdx w.readers (fun x => decide (x.body_ = r.body_)) k r hr
  simp only [decide_True, if_true] at hcnt
  have huse := hw.count r.body_ cell hc
  have hpos : 1 ≤ cell.use_count := by omega
  exact ⟨hpos, hw.reg r.body_ cell hc hpos, by omega⟩

theorem InvReg.destruct {w v : World} {k : Nat} (hw : InvReg w) (h : w.destruct k = some v) :
    InvReg v := by
  obtain ⟨r, cell, hr, hc, rfl⟩ := World.destruct_some h
  obtain ⟨hpos, hkey, hcnt⟩ := hw.reader hr hc
  obtain ⟨hentry, hreg, hcount, hbound, hfresh⟩ := hw
  have ha : r.body_ < w.heap.length := (List.getElem?_eq_some.mp hc).1
  have hweak : w.bodies_.weak (source_key cell.body.param_) = some r.body_ := by
    simp [BodyMap.weak, hkey]
  have hget : (w.heap.set r.body_ { cell with use_count := cell.use_count - 1 })[r.body_]?
      = some { cell with use_count := cell.use_count - 1 } := by
    simp [List.getElem?_set, ha]
  have hcount' : ∀ (b : Nat) (c : BodyCell),
      (w.heap.set r.body_ { cell with use_count := cell.use_count - 1 })[b]? = some c →
      c.use_count = (w.readers.eraseIdx k).countP (fun x => decide (x.body_ = b)) := by
    intro b c hb
    by_cases hab : r.body_ = b
    · subst hab
      rw [hget] at hb
      simp only [Option.some.injEq] at hb
      subst hb
      show cell.use_count - 1 = _
      omega
    · rw [List.getElem?_set_ne hab] at hb
      have h1 := hcount b c hb
      have h2 := countP_eraseIdx w.readers (fun x => decide (x.body_ = b)) k r hr
      simp only [decide_eq_true_eq, hab, if_false] at h2
      omega
  have hbound' : ∀ x ∈ w.readers.eraseIdx k,
      x.body_ < (w.heap.set r.body_ { cell with use_count := cell.use_count - 1 }).length := by
    intro x hx
    rw [List.length_set]
    exact hbound x (List.mem_of_mem_eraseIdx hx)
  have hfresh' : ∀ (b : Nat) (c : BodyCell),
      (w.heap.set r.body_ { cell with use_count := cell.use_count - 1 })[b]? = some c →
      ∀ q ∈ c.body.new_queue_pairs_.queue_, q < w.queue_pairs.length := by
    intro b c hb q hq
    by_cases hab : r.body_ = b
    · subst hab
      rw [hget] at hb
      simp only [Option.some.injEq] at hb
      subst hb
      exact hfresh r.body_ cell hc q hq
    · rw [List.getElem?_set_ne hab] at hb
      exact hfresh b c hb q hq
  by_cases hlast : cell.use_count = 1
  · -- the last reader of the body: the entry is erased
    have hexp : expired (w.heap.set r.body_ { cell with use_count := cell.use_count - 1 })
        (w.bodies_.weak (source_key cell.body.param_)) = true := by
      rw [hweak, expired, lock_of_dead hget (by simp [hlast])]
      rfl
    simp only [hexp, if_true]
    refine ⟨?_, ?_, hcount', hbound', hfresh'⟩
    · intro key weak hk
      by_cases hkk : key = source_key cell.body.param_
      · simp [BodyMap.erase, hkk] at hk
      · simp only [BodyMap.erase, hkk, if_false, BodyMap.index_ne _ hkk] at hk
        obtain ⟨b, c, hb, hcb, hp, hs⟩ := hentry key weak hk
        have hab : r.body_ ≠ b := by
          intro hab
          subst hab
          rw [hc] at hcb
          simp only [Option.some.injEq] at hcb
          subst hcb
          exact hkk hs.symm
        exact ⟨b, c, hb, by rw [List.getElem?_set_ne hab]; exact hcb, hp, hs⟩
    · intro b c hb hp
      by_cases hab : r.body_ = b
      · subst hab
        rw [hget] at hb
        simp only [Option.some.injEq] at hb
        subst hb
        simp only [hlast] at hp
        omega
      · rw [List.getElem?_set_ne hab] at hb
        have h1 := hreg b c hb hp
        have hkk : source_key c.body.param_ ≠ source_key cell.body.param_ := by
          intro he
          rw [he, hkey] at h1
          simp only [Option.some.injEq] at h1
          exact hab h1
        simp only [BodyMap.erase, hkk, if_false, BodyMap.index_ne _ hkk]
        exact h1
  · -- another reader still owns the body: the entry stays
    have hexp : expired (w.heap.set r.body_ { cell with use_count := cell.use_count - 1 })
        (w.bodies_.weak (source_key cell.body.param_)) = false := by
      rw [hweak, expired, lock_of_live hget (by show 0 < cell.use_count - 1; omega)]
      rfl
    simp only [hexp, Bool.false_eq_true, if_false]
    refine ⟨?_, ?_, hcount', hbound', hfresh'⟩
    · intro key weak hk
      simp only [BodyMap.index_of_some _ hkey] at hk
      obtain ⟨b, c, hb, hcb, hp, hs⟩ := hentry key weak hk
      by_cases hab : r.body_ = b
      · subst hab
        rw [hc] at hcb
        simp only [Option.some.injEq] at hcb
        subst hcb
        exact ⟨r.body_, { cell with use_count := cell.use_count - 1 }, hb, hget,
          by show 0 < cell.use_count - 1; omega, hs⟩
      · exact ⟨b, c, hb, by rw [List.getElem?_set_ne hab]; exact hcb, hp, hs⟩
    · intro b c hb hp
      simp only [BodyMap.index_of_some _ hkey]
      by_cases hab : r.body_ = b
      · subst hab
        rw [hget] at hb
        simp only [Option.some.injEq] at hb
        subst hb
        exact hkey
      · rw [List.getElem?_set_ne hab] at hb
        exact hreg b c hb hp

theorem InvReg.reg_step {w v : World} {op : Op} (hw : InvReg w) (h : w.step op = some v) :
    InvReg v := by
  cases op with
  | construct param =>
    simp only [World.step, Option.some.injEq] at h
    exact h ▸ hw.construct param
  | destruct k => exact hw.destruct h

theorem InvReg.reg_run (ops : List Op) :
    ∀ {w v : World}, InvReg w → w.run ops = some v → InvReg v := by
  induction ops with
  | nil =>
    intro w v hw h
    simp only [World.run, Option.some.injEq] at h
    exact h ▸ hw
  | cons op rest ih =>
    intro w v hw h
    simp only [World.run] at h
    cases hop : w.step op with
    | none => simp [hop] at h
    | some u =>
      simp only [hop] at h
      exact ih (hw.reg_step hop) h

theorem World.key_of_some {w : World} {r : DataReader} {key : String}
    (h : w.key_of r = some key) :
    ∃ cell, w.heap[r.body_]? = some cell ∧ source_key cell.body.param_ = key := by
  unfold World.key_of at h
  split at h
  · simp at h
  · rename_i cell hc
    simp only [Option.some.injEq] at h
    exact ⟨cell, hc, h⟩

/-- An open reader's body is live and registered under the reader's key. -/
theorem InvReg.of_reader {w : World} (hw : InvReg w) {r : DataReader} (hr : r ∈ w.readers)
    {key : String} (hk : w.key_of r = some key) :
    ∃ cell, w.heap[r.body_]? = some cell ∧ 0 < cell.use_count
      ∧ source_key cell.body.param_ = key ∧ w.bodies_ key = some (some r.body_) := by
  obtain ⟨cell, hc, hs⟩ := World.key_of_some hk
  have hcnt := hw.count r.body_ cell hc
  have hpos : 0 < w.readers.countP (fun x => decide (x.body_ = r.body_)) :=
    List.countP_pos_iff.mpr ⟨r, hr, by simp⟩
  have hlive : 0 < cell.use_count := by omega
  exact ⟨cell, hc, hlive, hs, hs ▸ hw.reg r.body_ cell hc hlive⟩

theorem World.run_invReg {ops : List Op} {w : World} (h : World.empty.run ops = some w) :
    InvReg w :=
  InvReg.reg_run ops InvReg.empty h

/-- C5, registry dedup.  In a process reached by constructions and
destructions of readers, constructing a reader from `param`:
(1) if a reader with the same source key is open, no Body is constructed and
the new reader's `body_` is that reader's `body_`; (2) a Body is constructed
exactly when `bodies_` has no entry for the key, and none is constructed
exactly when the entry refers to a live Body; (3) the new reader's queue pair
is a new object, it is appended to `new_queue_pairs_` of the reader's Body,
where it then occurs exactly once, it is in no other Body's queue, and the
Body is the one of the reader's key. -/
theorem registry_dedup (ops : List Op) (w : World) (h : World.empty.run ops = some w)
    (param : LayerParameter) :
    (∀ r ∈ w.readers, w.key_of r = some (source_key param) →
        (w.construct param).heap.length = w.heap.length
        ∧ (w.construct param).readers
            = w.readers ++ [{ queue_pair_ := w.queue_pairs.length, body_ := r.body_ }])
    ∧ ((w.construct param).heap.length = w.heap.length + 1
        ↔ w.bodies_ (source_key param) = none)
    ∧ ((w.construct param).heap.length = w.heap.length
        ↔ ∃ a, w.bodies_ (source_key param) = some (some a) ∧ w.live a)
    ∧ (∃ r cell, (w.construct param).readers = w.readers ++ [r]
        ∧ r.queue_pair_ = w.queue_pairs.length
        ∧ (w.construct param).queue_pairs = w.queue_pairs ++ [QueuePair.new (queue_size param)]
        ∧ (w.construct param).heap[r.body_]? = some cell
        ∧ cell.body.new_queue_pairs_.queue_
            = (match w.heap[r.body_]? with
                | some c => c.body.new_queue_pairs_.queue_
                | none => []) ++ [r.queue_pair_]
        ∧ cell.body.new_queue_pairs_.queue_.count r.queue_pair_ = 1
        ∧ (∀ (a : Nat) (c : BodyCell), a ≠ r.body_ → (w.construct param).heap[a]? = some c →
            r.queue_pair_ ∉ c.body.new_queue_pairs_.queue_)
        ∧ (w.construct param).key_of r = some (source_key param)) := by
  have hw := World.run_invReg h
  cases hl : lock w.heap (w.bodies_.weak (source_key param)) with
  | some p =>
    obtain ⟨a, cell⟩ := p
    obtain ⟨hweak, hcell, hpos⟩ := lock_some hl
    have hkey := BodyMap.weak_some hweak
    have ha : a < w.heap.length := (List.getElem?_eq_some.mp hcell).1
    have hskey : source_key cell.body.param_ = source_key param := by
      obtain ⟨b, c, hb, hc, -, hs⟩ := hw.entry _ _ hkey
      simp only [Option.some.injEq] at hb
      subst hb
      rw [hcell] at hc
      simp only [Option.some.injEq] at hc
      subst hc
      exact hs
    rw [World.construct_adopt hl]
    have hnot : ∀ q ∈ cell.body.new_queue_pairs_.queue_, q ≠ w.queue_pairs.length := by
      intro q hq
      have := hw.fresh a cell hcell q hq
      omega
    refine ⟨?_, ?_, ?_, ?_⟩
    · intro r hr hk
      obtain ⟨c, -, -, -, hb⟩ := hw.of_reader hr hk
      rw [hkey] at hb
      simp only [Option.some.injEq] at hb
      subst hb
      exact ⟨by simp, rfl⟩
    · simp [hkey]
    · simp only [List.length_set, true_iff]
      exact ⟨a, hkey, cell, hcell, hpos⟩
    · refine ⟨{ queue_pair_ := w.queue_pairs.length, body_ := a },
        { use_count := cell.use_count + 1
          body := { cell.body with
            new_queue_pairs_ := cell.body.new_queue_pairs_.push w.queue_pairs.length } },
        rfl, rfl, rfl, by simp [List.getElem?_set, ha], by simp [hcell, BlockingQueue.push],
        ?_, ?_, ?_⟩
      · simp only [BlockingQueue.push, List.count_append, List.count_singleton_self]
        rw [List.count_eq_zero.mpr]
        intro hmem
        exact hnot _ hmem rfl
      · intro b c hb hc hmem
        simp only [List.getElem?_set, Ne.symm hb, if_false] at hc
        have := hw.fresh b c hc _ hmem
        simp at this
      · simp [World.key_of, List.getElem?_set, ha, hskey]
  | none =>
    have hnone : w.bodies_ (source_key param) = none := by
      cases hb : w.bodies_ (source_key param) with
      | none => rfl
      | some weak =>
        obtain ⟨a, c, ha, hc, hp, -⟩ := hw.entry _ _ hb
        subst ha
        have hwk : w.bodies_.weak (source_key param) = some a := by
          simp [BodyMap.weak, hb]
        rw [hwk, lock_of_live hc hp] at hl
        simp at hl
    rw [World.construct_fresh hl]
    refine ⟨?_, ?_, ?_, ?_⟩
    · intro r hr hk
      obtain ⟨c, -, -, -, hb⟩ := hw.of_reader hr hk
      rw [hnone] at hb
      simp at hb
    · simp [hnone]
    · simp [hnone]
    · refine ⟨{ queue_pair_ := w.queue_pairs.length, body_ := w.heap.length },
        { use_count := 1
          body := { param_ := param
                    new_queue_pairs_ := (BlockingQueue.mk []).push w.queue_pairs.length } },
        rfl, rfl, rfl, by simp, by simp [BlockingQueue.push], by simp [BlockingQueue.push],
        ?_, by simp [World.key_of]⟩
      intro b c hb hc hmem
      have hblt : b < w.heap.length := by
        by_contra hge
        rw [List.getElem?_append_right (by omega)] at hc
        have hb0 : b - w.heap.length ≠ 0 := by
          simp only [ne_eq] at hb
          omega
        rw [List.getElem?_eq_none (by simp; omega)] at hc
        simp at hc
      rw [List.getElem?_append_left hblt] at hc
      have := hw.fresh b c hc _ hmem
      simp at this


/-- C5, witness: a second reader of layer "data" adopts the Body of the
first. -/
theorem registry_dedup_witness :
    World.empty.run [Op.construct param_data] = some (World.empty.construct param_data)
    ∧ ((World.empty.construct param_data).construct param_data).heap.length = 1
    ∧ ((World.empty.construct param_data).construct param_data).readers
        = [{ queue_pair_ := 0, body_ := 0 }, { queue_pair_ := 1, body_ := 0 }] := by
  obtain ⟨h1, -, -, -⟩ :=
    registry_dedup [Op.construct param_data] (World.empty.construct param_data) rfl param_data
  have hmem : ({ queue_pair_ := 0, body_ := 0 } : DataReader)
      ∈ (World.empty.construct param_data).readers := by
    show _ ∈ [({ queue_pair_ := 0, body_ := 0 } : DataReader)]
    simp
  obtain ⟨h2, h3⟩ := h1 { queue_pair_ := 0, body_ := 0 } hmem rfl
  exact ⟨rfl, h2, h3⟩

theorem String.append_right_cancel {a b x : String} (h : a ++ x = b ++ x) : a = b := by
  have hd := congrArg String.data h
  simp only [String.data_append] at hd
  exact String.ext (List.append_cancel_right hd)

/-- C9, the source key is not injective in the pair (layer name, source
path): layer "data:C" reading "/db" and layer "data" reading "C:/db" have
different names and different paths and the same key "data:C:/db", so the
second reader adopts the Body of the first instead of getting its own.
What does hold: parameters with the same name and the same path have the same
key, and parameters with the same path and the same key have the same name. -/
theorem source_key_collision :
    param_colon_name.name ≠ param_colon_path.name
    ∧ param_colon_name.data_param.source ≠ param_colon_path.data_param.source
    ∧ source_key param_colon_name = "data:C:/db"
    ∧ source_key param_colon_path = "data:C:/db"
    ∧ ((World.empty.construct param_colon_name).construct param_colon_path).heap.length = 1
    ∧ ((World.empty.construct param_colon_name).construct param_colon_path).readers
        = [{ queue_pair_ := 0, body_ := 0 }, { queue_pair_ := 1, body_ := 0 }]
    ∧ (∀ p q : LayerParameter, p.name = q.name → p.data_param.source = q.data_param.source →
        source_key p = source_key q)
    ∧ (∀ p q : LayerParameter, p.data_param.source = q.data_param.source →
        source_key p = source_key q → p.name = q.name) := by
  refine ⟨by decide, by decide, by decide, by decide, rfl, rfl, ?_, ?_⟩
  · intro p q h1 h2
    simp only [source_key, h1, h2]
  · intro p q h1 h2
    simp only [source_key, h1] at h2
    exact String.append_right_cancel (String.append_right_cancel h2)

/-! ## The prefetch pool -/

/-- After construction and `LayerSetUp` the slots 0, 1, 2 are in the free
queue, in order, and `prefetch_` has 3 slots. -/
theorem Layer.slots_init (top : List Blob) :
    (Layer.new.LayerSetUp top).slots = [0, 1, 2]
      ∧ (Layer.new.LayerSetUp top).prefetch_.length = 3 := by
  constructor <;> rfl

theorem Layer.loader_pop_some {l l1 : Layer} (h : l.loader_pop = some l1) :
    ∃ batch rest, l.loader = none ∧ l.prefetch_free_.queue_ = batch :: rest
      ∧ l1 = { l with prefetch_free_ := { queue_ := rest }, loader := some batch } := by
  unfold Layer.loader_pop at h
  split at h
  · simp at h
  · rename_i hl
    unfold BlockingQueue.pop at h
    cases hq : l.prefetch_free_.queue_ with
    | nil => simp [hq] at h
    | cons batch rest =>
      simp only [hq, Option.some.injEq] at h
      exact ⟨batch, rest, hl, rfl, h.symm⟩

theorem Layer.loader_push_some {l l1 : Layer} {loaded : Batch}
    (h : l.loader_push loaded = some l1) :
    ∃ batch, l.loader = some batch
      ∧ l1 = { l with
          prefetch_ := l.prefetch_.set batch loaded
          prefetch_full_ := l.prefetch_full_.push batch
          loader := none } := by
  unfold Layer.loader_push at h
  split at h
  · simp at h
  · rename_i batch hl
    simp only [Option.some.injEq] at h
    exact ⟨batch, hl, h.symm⟩

theorem Layer.Forward_cpu_pop_some {l l1 : Layer} (h : l.Forward_cpu_pop = some l1) :
    ∃ batch rest, l.forward = none ∧ l.prefetch_full_.queue_ = batch :: rest
      ∧ l1 = { l with prefetch_full_ := { queue_ := rest }, forward := some batch } := by
  unfold Layer.Forward_cpu_pop at h
  split at h
  · simp at h
  · rename_i hl
    unfold BlockingQueue.pop at h
    cases hq : l.prefetch_full_.queue_ with
    | nil => simp [hq] at h
    | cons batch rest =>
      simp only [hq, Option.some.injEq] at h
      exact ⟨batch, rest, hl, rfl, h.symm⟩

theorem Layer.Forward_cpu_push_some {l l1 : Layer} (h : l.Forward_cpu_push = some l1) :
    ∃ batch b, l.forward = some batch ∧ l.prefetch_[batch]? = some b
      ∧ l.tops_used ≤ l.top.length
      ∧ l1 = { l with
          top := l.Forward_cpu_copy b
          prefetch_free_ := l.prefetch_free_.push batch
          forward := none } := by
  unfold Layer.Forward_cpu_push at h
  split at h
  · simp at h
  · rename_i batch hl
    split at h
    · simp at h
    · rename_i b hb
      split at h
      · simp at h
      · rename_i hlt
        simp only [Option.some.injEq] at h
        exact ⟨batch, b, hl, hb, Nat.le_of_not_lt hlt, h.symm⟩

theorem Layer.step_slots {l l1 : Layer} {a : LayerAction} (h : l.step a = some l1) :
    l1.slots.Perm l.slots ∧ l1.prefetch_.length = l.prefetch_.length := by
  cases a with
  | loaderPop =>
    obtain ⟨batch, rest, hl, hq, rfl⟩ := Layer.loader_pop_some h
    refine ⟨?_, rfl⟩
    rw [List.perm_iff_count]
    intro x
    simp only [Layer.slots, hl, hq, Option.toList, List.count_append, List.count_cons,
      List.count_nil]
    omega
  | loaderPush loaded =>
    obtain ⟨batch, hl, rfl⟩ := Layer.loader_push_some h
    refine ⟨?_, by simp⟩
    rw [List.perm_iff_count]
    intro x
    simp only [Layer.slots, hl, BlockingQueue.push, Option.toList, List.count_append,
      List.count_cons, List.count_nil]
    omega
  | forwardPop =>
    obtain ⟨batch, rest, hl, hq, rfl⟩ := Layer.Forward_cpu_pop_some h
    refine ⟨?_, rfl⟩
    rw [List.perm_iff_count]
    intro x
    simp only [Layer.slots, hl, hq, Option.toList, List.count_append, List.count_cons,
      List.count_nil]
    omega
  | forwardPush =>
    obtain ⟨batch, b, hl, -, -, rfl⟩ := Layer.Forward_cpu_push_some h
    refine ⟨?_, rfl⟩
    rw [List.perm_iff_count]
    intro x
    simp only [Layer.slots, hl, BlockingQueue.push, Option.toList, List.count_append,
      List.count_cons, List.count_nil]
    omega

theorem Layer.run_slots (acts : List LayerAction) :
    ∀ {l l1 : Layer}, l.run acts = some l1 →
      l1.slots.Perm l.slots ∧ l1.prefetch_.length = l.prefetch_.length := by
  induction acts with
  | nil =>
    intro l l1 h
    simp only [Layer.run, Option.some.injEq] at h
    subst h
    exact ⟨List.Perm.refl _, rfl⟩
  | cons a rest ih =>
    intro l l1 h
    simp only [Layer.run] at h
    cases ha : l.step a with
    | none => simp [ha] at h
    | some l2 =>
      simp only [ha] at h
      obtain ⟨h1, h2⟩ := ih h
      obtain ⟨h3, h4⟩ := Layer.step_slots ha
      exact ⟨h1.trans h3, h2.trans h4⟩

/-- The steps leave `output_labels_` and the number of top blobs as they
are. -/
theorem Layer.step_tops {l l1 : Layer} {a : LayerAction} (h : l.step a = some l1) :
    l1.output_labels_ = l.output_labels_ ∧ l1.top.length = l.top.length := by
  cases a with
  | loaderPop =>
    obtain ⟨batch, rest, -, -, rfl⟩ := Layer.loader_pop_some h
    exact ⟨rfl, rfl⟩
  | loaderPush loaded =>
    obtain ⟨batch, -, rfl⟩ := Layer.loader_push_some h
    exact ⟨rfl, rfl⟩
  | forwardPop =>
    obtain ⟨batch, rest, -, -, rfl⟩ := Layer.Forward_cpu_pop_some h
    exact ⟨rfl, rfl⟩
  | forwardPush =>
    obtain ⟨batch, b, -, -, -, rfl⟩ := Layer.Forward_cpu_push_some h
    refine ⟨rfl, ?_⟩
    show (l.Forward_cpu_copy b).length = l.top.length
    unfold Layer.Forward_cpu_copy
    split <;> simp [List.length_modify]

theorem Layer.run_tops (acts : List LayerAction) :
    ∀ {l l1 : Layer}, l.run acts = some l1 →
      l1.output_labels_ = l.output_labels_ ∧ l1.top.length = l.top.length := by
  induction acts with
  | nil =>
    intro l l1 h
    simp only [Layer.run, Option.some.injEq] at h
    subst h
    exact ⟨rfl, rfl⟩
  | cons a rest ih =>
    intro l l1 h
    simp only [Layer.run] at h
    cases ha : l.step a with
    | none => simp [ha] at h
    | some l2 =>
      simp only [ha] at h
      obtain ⟨h1, h2⟩ := ih h
      obtain ⟨h3, h4⟩ := Layer.step_tops ha
      exact ⟨h1.trans h3, h2.trans h4⟩

/-- After `LayerSetUp` with at least one top blob, `top` holds every blob that
`Forward_cpu` dereferences; with no top blob it does not hold `top[0]`. -/
theorem Layer.tops_used_setUp (top : List Blob) :
    ((Layer.new.LayerSetUp top).tops_used ≤ (Layer.new.LayerSetUp top).top.length ↔ top ≠ []) := by
  cases top with
  | nil => simp [Layer.tops_used, Layer.LayerSetUp]
  | cons t rest =>
    cases rest with
    | nil => simp [Layer.tops_used, Layer.LayerSetUp]
    | cons t1 rest1 => simp [Layer.tops_used, Layer.LayerSetUp]

/-- C10, prefetch pool recycling.  The layer is constructed with the
`PREFETCH_COUNT = 3` slots in `prefetch_free_`, in order, and an empty
`prefetch_full_`.  In every state reached by an interleaving of loader steps
(pop free; load and push full) and `Forward_cpu` steps (pop full; copy out
and push free): (1) the slots found in the free queue, the full queue, the
loader's hand and the consumer's hand are the slots 0, 1, 2, each exactly
once, and `prefetch_` still has 3 slots; (2) a whole call of `Forward_cpu`
pops the front slot of `prefetch_full_` and pushes that very slot to the back
of `prefetch_free_`; (3) between the two halves of `Forward_cpu`, the slot in
hand is the one popped and the loader's steps leave it in hand; (4) when the
layer was set up with at least one top blob the second half is enabled and
pushes that slot to `prefetch_free_`, so a call that finds a batch in
`prefetch_full_` returns; (5) when it was set up with no top blob the access
to `top[0]` is out of bounds: neither the second half nor a whole call of
`Forward_cpu` goes through, and the slot popped is not pushed back. -/
theorem prefetch_pool (top : List Blob) (acts : List LayerAction) (l : Layer)
    (h : (Layer.new.LayerSetUp top).run acts = some l) :
    (PREFETCH_COUNT = 3 ∧ (Layer.new.LayerSetUp top).prefetch_free_.queue_ = [0, 1, 2]
      ∧ (Layer.new.LayerSetUp top).prefetch_full_.queue_ = []
      ∧ (Layer.new.LayerSetUp top).loader = none ∧ (Layer.new.LayerSetUp top).forward = none)
    ∧ (l.slots.Perm [0, 1, 2] ∧ l.slots.Nodup ∧ (∀ b, b < 3 → l.slots.count b = 1)
      ∧ l.slots.length = 3 ∧ l.prefetch_.length = 3)
    ∧ (∀ l1, l.Forward_cpu = some l1 →
        ∃ batch rest, l.prefetch_full_.queue_ = batch :: rest
          ∧ l1.prefetch_full_.queue_ = rest
          ∧ l1.prefetch_free_.queue_ = l.prefetch_free_.queue_ ++ [batch]
          ∧ l1.loader = l.loader ∧ l1.forward = none ∧ l1.prefetch_ = l.prefetch_)
    ∧ (∀ l1, l.Forward_cpu_pop = some l1 →
        ∃ batch rest, l.prefetch_full_.queue_ = batch :: rest ∧ l1.forward = some batch
          ∧ l1.prefetch_full_.queue_ = rest)
    ∧ (∀ batch, l.forward = some batch →
        (∀ l1, l.loader_pop = some l1 → l1.forward = some batch)
        ∧ (∀ loaded l1, l.loader_push loaded = some l1 → l1.forward = some batch))
    ∧ (top ≠ [] →
        (∀ batch, l.forward = some batch →
          ∃ l1, l.Forward_cpu_push = some l1
            ∧ l1.prefetch_free_.queue_ = l.prefetch_free_.queue_ ++ [batch]
            ∧ l1.forward = none)
        ∧ (∀ batch rest, l.forward = none → l.prefetch_full_.queue_ = batch :: rest →
          ∃ l1, l.Forward_cpu = some l1
            ∧ l1.prefetch_free_.queue_ = l.prefetch_free_.queue_ ++ [batch]))
    ∧ (top = [] → l.Forward_cpu_push = none ∧ l.Forward_cpu = none) := by
  obtain ⟨hperm, hlen⟩ := Layer.run_slots acts h
  obtain ⟨hlab, htoplen⟩ := Layer.run_tops acts h
  obtain ⟨hinit, hinitlen⟩ := Layer.slots_init top
  rw [hinit] at hperm
  rw [hinitlen] at hlen
  have hused : l.tops_used ≤ l.top.length ↔ top ≠ [] := by
    have e : l.tops_used = (Layer.new.LayerSetUp top).tops_used := by
      simp only [Layer.tops_used, hlab]
    rw [e, htoplen]
    exact Layer.tops_used_setUp top
  have hslot : ∀ l2 : Layer, l2.slots.Perm [0, 1, 2] → l2.prefetch_.length = 3 →
      ∀ batch, l2.forward = some batch → batch < l2.prefetch_.length := by
    intro l2 hp hl batch hfw
    have hmem : batch ∈ l2.slots := by
      simp [Layer.slots, hfw]
    rw [hl]
    have := hp.mem_iff.mp hmem
    simp only [List.mem_cons, List.mem_singleton, List.not_mem_nil, or_false] at this
    omega
  have hpush : top ≠ [] → ∀ l2 : Layer, l2.slots.Perm [0, 1, 2] → l2.prefetch_.length = 3 →
      l2.tops_used = l.tops_used → l2.top.length = l.top.length →
      ∀ batch, l2.forward = some batch →
        ∃ l1, l2.Forward_cpu_push = some l1
          ∧ l1.prefetch_free_.queue_ = l2.prefetch_free_.queue_ ++ [batch]
          ∧ l1.forward = none := by
    intro hne l2 hp hl hu ht batch hfw
    have hlt := hslot l2 hp hl batch hfw
    have hok : ¬ l2.top.length < l2.tops_used := by
      rw [hu, ht]
      exact Nat.not_lt.mpr (hused.mpr hne)
    refine ⟨{ l2 with
        top := l2.Forward_cpu_copy (l2.prefetch_[batch])
        prefetch_free_ := l2.prefetch_free_.push batch
        forward := none }, ?_, rfl, rfl⟩
    simp [Layer.Forward_cpu_push, hfw, List.getElem?_eq_getElem hlt, hok]
  refine ⟨⟨rfl, rfl, rfl, rfl, rfl⟩, ⟨hperm, ?_, ?_, ?_, hlen⟩, ?_, ?_, ?_, ?_, ?_⟩
  · exact hperm.nodup_iff.mpr (by decide)
  · intro b hb
    rw [hperm.count_eq]
    interval_cases b <;> decide
  · rw [hperm.length_eq]; rfl
  · intro l1 hf
    unfold Layer.Forward_cpu at hf
    split at hf
    · simp at hf
    · rename_i l2 hpop
      obtain ⟨batch, rest, -, hq, rfl⟩ := Layer.Forward_cpu_pop_some hpop
      obtain ⟨batch1, b, hb1, -, -, rfl⟩ := Layer.Forward_cpu_push_some hf
      simp only [Option.some.injEq] at hb1
      subst hb1
      exact ⟨batch, rest, hq, rfl, rfl, rfl, rfl, rfl⟩
  · intro l1 hpop
    obtain ⟨batch, rest, -, hq, rfl⟩ := Layer.Forward_cpu_pop_some hpop
    exact ⟨batch, rest, hq, rfl, rfl⟩
  · intro batch hfw
    refine ⟨?_, ?_⟩
    · intro l1 h1
      obtain ⟨b, rest, -, -, rfl⟩ := Layer.loader_pop_some h1
      exact hfw
    · intro loaded l1 h1
      obtain ⟨b, -, rfl⟩ := Layer.loader_push_some h1
      exact hfw
  · intro hne
    refine ⟨hpush hne l hperm hlen rfl rfl, ?_⟩
    intro batch rest hnone hq
    have hpop : l.Forward_cpu_pop
        = some { l with prefetch_full_ := { queue_ := rest }, forward := some batch } := by
      simp [Layer.Forward_cpu_pop, hnone, BlockingQueue.pop, hq]
    have hstep : l.step LayerAction.forwardPop
        = some { l with prefetch_full_ := { queue_ := rest }, forward := some batch } := hpop
    obtain ⟨hp2, hl2⟩ := Layer.step_slots hstep
    obtain ⟨l1, h1, h2, -⟩ := hpush hne _ (hp2.trans hperm) (hl2.trans hlen) rfl rfl batch rfl
    exact ⟨l1, by simp only [Layer.Forward_cpu, hpop]; exact h1, h2⟩
  · intro hnil
    have hnot : l.top.length < l.tops_used := by
      have := hused.not.mpr (by simpa using hnil)
      omega
    have hp : ∀ l2 : Layer, l2.tops_used = l.tops_used → l2.top.length = l.top.length →
        l2.Forward_cpu_push = none := by
      intro l2 hu ht
      unfold Layer.Forward_cpu_push
      split
      · rfl
      · split
        · rfl
        · rw [hu, ht, if_pos hnot]
    refine ⟨hp l rfl rfl, ?_⟩
    unfold Layer.Forward_cpu
    split
    · rfl
    · rename_i l2 hpop
      obtain ⟨batch, rest, -, -, rfl⟩ := Layer.Forward_cpu_pop_some hpop
      exact hp _ rfl rfl

/-- One top blob, empty before the first call. -/
theorem scenario_layer_run :
    ((Layer.new.LayerSetUp [{ shape := [], data := [] }]).run scenario_layer).map
        (fun l => (l.prefetch_free_.queue_, l.prefetch_full_.queue_, l.loader, l.forward, l.top))
      = some ([2, 0], [], some 1, none, [{ shape := [1], data := [7] }]) := by
  decide

/-- C10, witness: the layer is set up with one top blob; after
`scenario_layer` slot 2 and the recycled slot 0 are free, the loader holds
slot 1, the top blob holds the data of the batch copied out, and the three
slots are all there. -/
theorem prefetch_pool_witness :
    ∃ l, (Layer.new.LayerSetUp [{ shape := [], data := [] }]).run scenario_layer = some l
      ∧ l.prefetch_free_.queue_ = [2, 0] ∧ l.loader = some 1
      ∧ l.top = [{ shape := [1], data := [7] }]
      ∧ l.slots.Perm [0, 1, 2] := by
  have hsome : ((Layer.new.LayerSetUp [{ shape := [], data := [] }]).run scenario_layer).isSome
      = true := by decide
  obtain ⟨l, hl⟩ := Option.isSome_iff_exists.mp hsome
  have hrun := scenario_layer_run
  rw [hl] at hrun
  simp only [Option.map_some', Option.some.injEq, Prod.mk.injEq] at hrun
  obtain ⟨-, ⟨hperm, -⟩, -⟩ := prefetch_pool [{ shape := [], data := [] }] scenario_layer l hl
  exact ⟨l, hl, hrun.1, hrun.2.2.1, hrun.2.2.2.2, hperm⟩

/-! ## Progress of the body -/

theorem map_size_set {l : List Channel} {i : Nat} {ch ch1 : Channel}
    (h : l[i]? = some ch) (hs : ch1.size = ch.size) :
    (l.set i ch1).map Channel.size = l.map Channel.size := by
  apply List.ext_getElem?
  intro j
  simp only [List.getElem?_map, List.getElem?_set]
  by_cases hij : i = j
  · subst hij
    have hlt : i < l.length := (List.getElem?_eq_some.mp h).1
    simp [hlt, h, hs]
  · simp [hij]

/-- A step other than a stop request leaves `stop` alone; a step other than a
registration leaves the depths of the queue pairs alone. -/
theorem Sys.step_frame {s t : Sys} {a : Action} (h : s.step a = some t) :
    (a ≠ Action.requestStop → t.stop = s.stop)
    ∧ ((∀ size, a ≠ Action.register size) →
        t.chans.map Channel.size = s.chans.map Channel.size) := by
  cases a with
  | register size =>
    simp only [Sys.step, Option.some.injEq] at h
    subst h
    exact ⟨fun _ => rfl, fun hne => absurd rfl (hne size)⟩
  | requestStop =>
    simp only [Sys.step, Option.some.injEq] at h
    subst h
    exact ⟨fun hne => absurd rfl hne, fun _ => rfl⟩
  | consumerPop c =>
    obtain ⟨ch, d, rest, hch, -, rfl⟩ := Sys.consumer_pop_some h
    exact ⟨fun _ => rfl, fun _ => map_size_set hch rfl⟩
  | consumerPush c k =>
    obtain ⟨ch, d, hch, -, rfl⟩ := Sys.consumer_push_some h
    exact ⟨fun _ => rfl, fun _ => map_size_set hch rfl⟩
  | body =>
    refine ⟨fun _ => ?_, fun _ => ?_⟩ <;>
    · simp only [Sys.step] at h
      unfold Sys.body at h
      split at h
      · split at h
        · split at h
          · rw [(Sys.blocked_some h).2]
          · simp only [Option.some.injEq] at h
            subst h; rfl
        · simp only [Option.some.injEq] at h
          subst h; rfl
      · obtain ⟨ch, hch, ⟨hst, h⟩ | ⟨d, rest, -, h⟩⟩ := Sys.read_pop_some h
        · subst h; rfl
        · subst h
          first | rfl | exact map_size_set hch rfl
      · split at h
        · simp at h
        · rename_i u hu
          obtain ⟨ch, hch, rfl⟩ := Sys.read_push_some hu
          simp only [Option.some.injEq] at h
          subst h
          first | rfl | exact map_size_set hch rfl
      · split at h <;>
          (simp only [Option.some.injEq] at h; subst h; rfl)
      · split at h
        · split at h
          · simp at h
          · obtain ⟨ch, hch, ⟨hst, h⟩ | ⟨d, rest, -, h⟩⟩ := Sys.read_pop_some h
            · subst h; rfl
            · subst h
              first | rfl | exact map_size_set hch rfl
        · simp only [Option.some.injEq] at h
          subst h; rfl
      · split at h
        · simp at h
        · obtain ⟨ch, hch, rfl⟩ := Sys.read_push_some h
          first | rfl | exact map_size_set hch rfl
      · split at h <;>
          (simp only [Option.some.injEq] at h; subst h; rfl)
      · simp at h
      · simp at h

theorem Good.good_step {N : Nat} {s t : Sys} {a : Action} (hg : Good N s)
    (h : s.step a = some t) (hstop : a ≠ Action.requestStop)
    (hreg : ∀ size, a ≠ Action.register size) : Good N t := by
  obtain ⟨h1, h2⟩ := Sys.step_frame h
  refine ⟨hg.rr.rr_step h, hg.cons.cons_step h, ?_⟩
  obtain ⟨hs1, hs2, hs3⟩ := hg.served
  have hmap := h2 hreg
  have hlen : t.chans.length = s.chans.length := by
    have := congrArg List.length hmap
    simpa using this
  exact ⟨by rw [h1 hstop]; exact hs1, by rw [hlen]; exact hs2, by rw [hmap]; exact hs3⟩

theorem Good.good_register {N : Nat} {s : Sys} (hg : Good N s) (hlt : s.chans.length < N) :
    Good N (s.register 1) := by
  have hstep : s.step (Action.register 1) = some (s.register 1) := rfl
  refine ⟨hg.rr.rr_step hstep, hg.cons.cons_step hstep, ?_⟩
  obtain ⟨hs1, hs2, hs3⟩ := hg.served
  refine ⟨hs1, ?_, ?_⟩
  · simp only [Sys.register, List.length_append, List.length_singleton]
    omega
  · intro x hx
    simp only [Sys.register, List.map_append, List.map_cons, List.map_nil, List.mem_append,
      List.mem_singleton] at hx
    rcases hx with hx | rfl
    · exact hs3 x hx
    · exact le_refl _

theorem Sys.Progress.of_step {N : Nat} {s u : Sys} {a : Action} (h : s.step a = some u)
    (hlog : u.log = s.log) (hp : u.Progress N) : s.Progress N := by
  obtain ⟨acts, t, hrun, hlen, hserved⟩ := hp
  exact ⟨a :: acts, t, by simp only [Sys.run, h]; exact hrun, by rw [hlen, hlog], hserved⟩

theorem Sys.Progress.now {N : Nat} {s u : Sys} {a : Action} (h : s.step a = some u)
    (hlog : u.log.length = s.log.length + 1) (hserved : u.Served N) : s.Progress N :=
  ⟨[a], u, by simp only [Sys.run, h], hlog, hserved⟩

theorem Good.chan_of_in_flight {N : Nat} {s : Sys} (hg : Good N s) {c : Nat}
    (h : s.in_flight c = 1) : ∃ ch, s.chans[c]? = some ch := by
  have hlt : c < s.chans.length := by
    by_contra hge
    have := hg.cons.2 c (by omega)
    omega
  exact ⟨s.chans[c], List.getElem?_eq_getElem hlt⟩

/-- With a Datum in hand the body's next step is the push. -/
theorem Good.progress_fill {N : Nat} {s : Sys} (hg : Good N s)
    (hpc : (∃ i qp d, s.pc = Pc.startFill i qp d) ∨ (∃ r i d, s.pc = Pc.mainFill r i d)) :
    s.Progress N := by
  rcases hpc with ⟨i, qp, d, hpc⟩ | ⟨r, i, d, hpc⟩
  · obtain ⟨ch, hch⟩ := hg.chan_of_in_flight (c := qp) (by simp [Sys.in_flight, hpc])
    have hstep : s.step Action.body = some
        { s with
          cursor := (read_one_push s.cursor ch.qp d).1
          chans := s.chans.set qp { ch with qp := (read_one_push s.cursor ch.qp d).2 }
          pc := Pc.startPop (i + 1)
          log := s.log ++ [{ round := 0, chan := qp,
                             record := s.cursor.value }]
          qps := s.qps ++ [qp] } := by
      simp only [Sys.step, Sys.body, hpc, Sys.read_push, hch]
    exact Sys.Progress.now hstep (by simp) (hg.good_step hstep (by simp) (by simp)).served
  · have hp := hg.rr.pc
    simp only [PcInv, hpc] at hp
    have hi : i < s.qps.length := by omega
    have hq : s.qps[i]? = some s.qps[i] := List.getElem?_eq_getElem hi
    obtain ⟨ch, hch⟩ := hg.chan_of_in_flight (c := s.qps[i])
      (by simp [Sys.in_flight, hpc, hq])
    have hstep : s.step Action.body = some
        { s with
          cursor := (read_one_push s.cursor ch.qp d).1
          chans := s.chans.set s.qps[i] { ch with qp := (read_one_push s.cursor ch.qp d).2 }
          pc := Pc.mainRead r (i + 1)
          log := s.log ++ [{ round := r, chan := s.qps[i],
                             record := s.cursor.value }] } := by
      simp only [Sys.step, Sys.body, hpc, hq, Sys.read_push, hch]
    exact Sys.Progress.now hstep (by simp) (hg.good_step hstep (by simp) (by simp)).served

theorem Sys.consumer_push_enabled {s : Sys} {c : Nat} {ch : Channel} {d : Datum}
    {rest : List Datum} (hch : s.chans[c]? = some ch) (hheld : ch.held = d :: rest) :
    ∃ t ch1, s.step (Action.consumerPush c 0) = some t ∧ t.pc = s.pc ∧ t.log = s.log
      ∧ t.qps = s.qps ∧ t.chans[c]? = some ch1
      ∧ ch1.qp.free_.queue_ = ch.qp.free_.queue_ ++ [d] := by
  have hlt : c < s.chans.length := (List.getElem?_eq_some.mp hch).1
  have hsome : (s.step (Action.consumerPush c 0)).isSome = true := by
    simp [Sys.step, Sys.consumer_push, hch, hheld]
  obtain ⟨t, ht⟩ := Option.isSome_iff_exists.mp hsome
  obtain ⟨ch0, d0, hch0, hk, hteq⟩ := Sys.consumer_push_some ht
  rw [hch] at hch0
  simp only [Option.some.injEq] at hch0
  subst hch0
  rw [hheld] at hk
  simp only [List.getElem?_cons_zero, Option.some.injEq] at hk
  subst hk
  subst hteq
  refine ⟨_, { ch with qp := { ch.qp with free_ := ch.qp.free_.push d },
                       held := ch.held.eraseIdx 0 }, ht, rfl, rfl, rfl, ?_, rfl⟩
  simp [List.getElem?_set, hlt]

theorem Sys.consumer_pop_enabled {s : Sys} {c : Nat} {ch : Channel} {d : Datum}
    {rest : List Datum} (hch : s.chans[c]? = some ch) (hfull : ch.qp.full_.queue_ = d :: rest) :
    ∃ t ch1, s.step (Action.consumerPop c) = some t ∧ t.pc = s.pc ∧ t.log = s.log
      ∧ t.qps = s.qps ∧ t.chans[c]? = some ch1 ∧ ch1.held = ch.held ++ [d] := by
  have hlt : c < s.chans.length := (List.getElem?_eq_some.mp hch).1
  have hsome : (s.step (Action.consumerPop c)).isSome = true := by
    simp [Sys.step, Sys.consumer_pop, hch, BlockingQueue.pop, hfull]
  obtain ⟨t, ht⟩ := Option.isSome_iff_exists.mp hsome
  obtain ⟨ch0, d0, rest0, hch0, hq, hteq⟩ := Sys.consumer_pop_some ht
  rw [hch] at hch0
  simp only [Option.some.injEq] at hch0
  subst hch0
  rw [hfull] at hq
  simp only [List.cons.injEq] at hq
  obtain ⟨rfl, rfl⟩ := hq
  subst hteq
  refine ⟨_, { ch with qp := { ch.qp with full_ := { queue_ := rest } },
                       held := ch.held ++ [d] }, ht, rfl, rfl, rfl, ?_, rfl⟩
  simp [List.getElem?_set, hlt]

theorem Sys.run_append (acts1 acts2 : List Action) :
    ∀ {s u : Sys}, s.run acts1 = some u → s.run (acts1 ++ acts2) = u.run acts2 := by
  induction acts1 with
  | nil =>
    intro s u h
    simp only [Sys.run, Option.some.injEq] at h
    subst h
    rfl
  | cons a rest ih =>
    intro s u h
    simp only [Sys.run, List.cons_append] at h ⊢
    cases ha : s.step a with
    | none => simp [ha] at h
    | some v =>
      simp only [ha] at h ⊢
      exact ih h

theorem Sys.Progress.of_run {N : Nat} {s u : Sys} {acts : List Action}
    (h : s.run acts = some u) (hlog : u.log = s.log) (hp : u.Progress N) : s.Progress N := by
  obtain ⟨acts1, t, hrun, hlen, hserved⟩ := hp
  exact ⟨acts ++ acts1, t, by rw [Sys.run_append acts acts1 h]; exact hrun, by rw [hlen, hlog],
    hserved⟩

/-- The consumer of a channel can always make a Datum free for the body: it
returns one it holds, or pops one from `full_` and returns it. -/
theorem Good.refill {N : Nat} {s : Sys} (hg : Good N s) {c : Nat} {ch : Channel}
    (hfl : s.in_flight c = 0) (hch : s.chans[c]? = some ch) :
    ∃ acts u ch1, s.run acts = some u ∧ Good N u ∧ u.pc = s.pc ∧ u.log = s.log
      ∧ u.qps = s.qps ∧ u.chans[c]? = some ch1 ∧ ch1.qp.free_.queue_ ≠ [] := by
  have hcons := hg.cons.1 c ch hch
  have hsize : 1 ≤ ch.size :=
    hg.served.2.2 ch.size (List.mem_map.mpr ⟨ch, List.getElem?_mem hch, rfl⟩)
  simp only [Conserved, hfl, BlockingQueue.size] at hcons
  by_cases hfree : ch.qp.free_.queue_ = []
  · cases hheld : ch.held with
    | cons d rest =>
      obtain ⟨t, ch1, hstep, h1, h2, h3, h4, h5⟩ := Sys.consumer_push_enabled hch hheld
      exact ⟨[Action.consumerPush c 0], t, ch1, by simp only [Sys.run, hstep],
        hg.good_step hstep (by simp) (by simp), h1, h2, h3, h4, by rw [h5]; simp⟩
    | nil =>
      cases hfull : ch.qp.full_.queue_ with
      | nil =>
        rw [hfree, hheld, hfull] at hcons
        simp only [List.length_nil] at hcons
        omega
      | cons d rest =>
        obtain ⟨t, ch1, hstep, h1, h2, h3, h4, h5⟩ := Sys.consumer_pop_enabled hch hfull
        have hg1 := hg.good_step hstep (by simp) (by simp)
        rw [hheld, List.nil_append] at h5
        obtain ⟨t2, ch2, hstep2, k1, k2, k3, k4, k5⟩ := Sys.consumer_push_enabled h4 h5
        exact ⟨[Action.consumerPop c, Action.consumerPush c 0], t2, ch2,
          by simp only [Sys.run, hstep, hstep2],
          hg1.good_step hstep2 (by simp) (by simp), k1.trans h1, k2.trans h2, k3.trans h3, k4,
          by rw [k5]; simp⟩
  · exact ⟨[], s, ch, rfl, hg, rfl, rfl, rfl, hch, hfree⟩

/-- At the pop of a `read_one` the body gets its Datum, after the consumer's
help when `free_` is empty. -/
theorem Good.progress_read {N : Nat} {s : Sys} (hg : Good N s)
    (hpc : (∃ i qp, s.pc = Pc.startRead i qp) ∨ (∃ r i, s.pc = Pc.mainRead r i ∧ i < N)) :
    s.Progress N := by
  rcases hpc with ⟨i, qp, hpc⟩ | ⟨r, i, hpc, hi⟩
  · have hpend := hg.rr.pending (by rw [hpc]; simp)
    have hreg := hg.rr.reg (by rw [hpc]; simp)
    simp only [Sys.hand, hpc] at hpend hreg
    obtain ⟨hqp, -⟩ := range_split_head hreg
    have hlt : qp < s.chans.length := by
      simp only [List.length_singleton] at hpend
      omega
    obtain ⟨acts, u, ch1, hrun, hgu, hupc, hulog, -, huch, hufree⟩ :=
      hg.refill (c := qp) (by simp [Sys.in_flight, hpc]) (List.getElem?_eq_getElem hlt)
    refine Sys.Progress.of_run hrun hulog ?_
    rw [hpc] at hupc
    cases hq : ch1.qp.free_.queue_ with
    | nil => exact absurd hq hufree
    | cons d rest =>
      have hstep : u.step Action.body = some
          { u with
            chans := u.chans.set qp { ch1 with qp := { ch1.qp with free_ := { queue_ := rest } } }
            pc := Pc.startFill i qp d } := by
        simp only [Sys.step, Sys.body, hupc, Sys.read_pop, huch, read_one_pop, BlockingQueue.pop,
          hq]
      refine Sys.Progress.of_step hstep rfl ?_
      exact (hgu.good_step hstep (by simp) (by simp)).progress_fill (Or.inl ⟨i, qp, d, rfl⟩)
  · have hp := hg.rr.pc
    simp only [PcInv, hpc] at hp
    have hpend := hg.rr.pending (by rw [hpc]; simp)
    simp only [Sys.hand, hpc, List.length_nil] at hpend
    have hiq : i < s.qps.length := by omega
    have hq : s.qps[i]? = some s.qps[i] := List.getElem?_eq_getElem hiq
    have hlt : s.qps[i] < s.chans.length := by
      have := range_getElem?_of_eq hg.rr.taken hq
      omega
    obtain ⟨acts, u, ch1, hrun, hgu, hupc, hulog, huqps, huch, hufree⟩ :=
      hg.refill (c := s.qps[i]) (by simp [Sys.in_flight, hpc]) (List.getElem?_eq_getElem hlt)
    refine Sys.Progress.of_run hrun hulog ?_
    rw [hpc] at hupc
    have huq : u.qps[i]? = some s.qps[i] := by rw [huqps]; exact hq
    have hcount : i < u.solver_count := by rw [hgu.rr.count]; exact hi
    cases hfq : ch1.qp.free_.queue_ with
    | nil => exact absurd hfq hufree
    | cons d rest =>
      have hstep : u.step Action.body = some
          { u with
            chans := u.chans.set s.qps[i]
              { ch1 with qp := { ch1.qp with free_ := { queue_ := rest } } }
            pc := Pc.mainFill r i d } := by
        simp only [Sys.step, Sys.body, hupc, hcount, if_true, huq, Sys.read_pop, huch,
          read_one_pop, BlockingQueue.pop, hfq]
      refine Sys.Progress.of_step hstep rfl ?_
      exact (hgu.good_step hstep (by simp) (by simp)).progress_fill (Or.inr ⟨r, i, d, rfl⟩)

theorem Good.progress_loopHead {N : Nat} {s : Sys} (hg : Good N s) (hN : 1 ≤ N) {r : Nat}
    (hpc : s.pc = Pc.loopHead r) : s.Progress N := by
  have hstop := hg.served.1
  have hstep : s.step Action.body = some { s with pc := Pc.mainRead r 0 } := by
    simp [Sys.step, Sys.body, hpc, hstop]
  refine Sys.Progress.of_step hstep rfl ?_
  exact (hg.good_step hstep (by simp) (by simp)).progress_read (Or.inr ⟨r, 0, rfl, by omega⟩)

theorem Good.progress_check {N : Nat} {s : Sys} (hg : Good N s) (hN : 1 ≤ N) {r : Nat}
    (hpc : s.pc = Pc.check r) : s.Progress N := by
  have hp := hg.rr.pc
  simp only [PcInv, hpc] at hp
  have hpend := hg.rr.pending (by rw [hpc]; simp)
  simp only [Sys.hand, hpc, List.length_nil] at hpend
  have hle := hg.served.2.1
  have hz : s.new_queue_pairs_.size = 0 := by omega
  have hstep : s.step Action.body = some { s with pc := Pc.loopHead (r + 1) } := by
    simp [Sys.step, Sys.body, hpc, hz]
  refine Sys.Progress.of_step hstep rfl ?_
  exact (hg.good_step hstep (by simp) (by simp)).progress_loopHead hN rfl

theorem Good.progress_startPop {N : Nat} {s : Sys} (hg : Good N s) {i qp : Nat}
    {rest : List Nat} (hpc : s.pc = Pc.startPop i) (hi : i < N)
    (hq : s.new_queue_pairs_.queue_ = qp :: rest) : s.Progress N := by
  have hcount : i < s.solver_count := by rw [hg.rr.count]; exact hi
  have hstep : s.step Action.body
      = some { s with new_queue_pairs_ := { queue_ := rest }, pc := Pc.startRead i qp } := by
    simp [Sys.step, Sys.body, hpc, hcount, BlockingQueue.pop, hq]
  refine Sys.Progress.of_step hstep rfl ?_
  exact (hg.good_step hstep (by simp) (by simp)).progress_read (Or.inl ⟨i, qp, rfl⟩)

/-- Progress: as long as no stop is requested, no more than `N` readers
register and every queue pair has a Datum, the registration of the missing
readers, the consumers' returns and the body's own steps lead to the next
delivery. -/
theorem Good.progress {N : Nat} {s : Sys} (hg : Good N s) (hN : 1 ≤ N) : s.Progress N := by
  have hp := hg.rr.pc
  cases hpc : s.pc with
  | startPop i =>
    simp only [PcInv, hpc] at hp
    by_cases hi : i < N
    · have hpend := hg.rr.pending (by rw [hpc]; simp)
      simp only [Sys.hand, hpc, List.length_nil] at hpend
      cases hq : s.new_queue_pairs_.queue_ with
      | cons qp rest => exact hg.progress_startPop hpc hi hq
      | nil =>
        have hlen : s.chans.length < N := by
          simp only [BlockingQueue.size, hq, List.length_nil] at hpend
          omega
        have hstep : s.step (Action.register 1) = some (s.register 1) := rfl
        refine Sys.Progress.of_step hstep rfl ?_
        have hq1 : (s.register 1).new_queue_pairs_.queue_ = s.chans.length :: [] := by
          simp [Sys.register, BlockingQueue.push, hq]
        exact (hg.good_register hlen).progress_startPop hpc hi hq1
    · have hcount : ¬ i < s.solver_count := by rw [hg.rr.count]; exact hi
      have hstep : s.step Action.body = some { s with pc := Pc.loopHead 1 } := by
        simp [Sys.step, Sys.body, hpc, hcount]
      refine Sys.Progress.of_step hstep rfl ?_
      exact (hg.good_step hstep (by simp) (by simp)).progress_loopHead hN rfl
  | startRead i qp => exact hg.progress_read (Or.inl ⟨i, qp, hpc⟩)
  | startFill i qp d => exact hg.progress_fill (Or.inl ⟨i, qp, d, hpc⟩)
  | loopHead r => exact hg.progress_loopHead hN hpc
  | mainRead r i =>
    by_cases hi : i < N
    · exact hg.progress_read (Or.inr ⟨r, i, hpc, hi⟩)
    · have hcount : ¬ i < s.solver_count := by rw [hg.rr.count]; exact hi
      have hstep : s.step Action.body = some { s with pc := Pc.check r } := by
        simp [Sys.step, Sys.body, hpc, hcount]
      refine Sys.Progress.of_step hstep rfl ?_
      exact (hg.good_step hstep (by simp) (by simp)).progress_check hN rfl
  | mainFill r i d => exact hg.progress_fill (Or.inr ⟨r, i, d, hpc⟩)
  | check r => exact hg.progress_check hN hpc
  | aborted =>
    exfalso
    simp only [PcInv, hpc] at hp
    have hpend := hg.rr.pending (by rw [hpc]; simp)
    simp only [Sys.hand, hpc, List.length_nil] at hpend
    have hle := hg.served.2.1
    have hz : s.new_queue_pairs_.queue_.length = 0 := by
      simp only [BlockingQueue.size] at hpend
      omega
    exact hp.2 (List.length_eq_zero.mp hz)
  | stopped =>
    exfalso
    simp only [PcInv, hpc] at hp
    have := hg.served.1
    rw [hp.1] at this
    simp at this

/-- Every number of deliveries is reached by some run from the initial
state. -/
theorem Sys.reach_deliveries (N : Nat) (db : List String) (hN : 1 ≤ N) (n : Nat) :
    ∃ acts t, (Sys.init (N : Int) db).run acts = some t ∧ t.log.length = n ∧ t.Served N := by
  induction n with
  | zero =>
    refine ⟨[], Sys.init (N : Int) db, rfl, rfl, rfl, ?_, ?_⟩
    · simp [Sys.init]
    · intro x hx
      simp [Sys.init] at hx
  | succ n ih =>
    obtain ⟨acts, t, hrun, hlen, hserved⟩ := ih
    have hg : Good N t :=
      ⟨InvRR.rr_run acts (InvRR.rr_init N db) hrun,
        InvCons.cons_run acts (InvCons.cons_init _ db) hrun, hserved⟩
    obtain ⟨acts1, u, hrun1, hlen1, hserved1⟩ := hg.progress hN
    exact ⟨acts ++ acts1, u, by rw [Sys.run_append acts acts1 hrun]; exact hrun1,
      by rw [hlen1, hlen], hserved1⟩

/-! ## The startup barrier -/

/-! ## The round-robin partition -/

/-- The push of a `read_one` on channel `qp`: the Datum in hand goes to the
back of the channel's `full_` with the cursor's value parsed into it, the
other `full_` queues are left alone. -/
theorem Sys.read_push_full {s u : Sys} {r qp : Nat} {datum : Datum} {pc : Pc}
    (hu : s.read_push r qp datum pc = some u) :
    u.full qp = s.full qp ++ [datum.ParseFromString s.cursor.value]
      ∧ (∀ c, c ≠ qp → u.full c = s.full c) := by
  obtain ⟨ch, hch, hu⟩ := Sys.read_push_some hu
  subst hu
  obtain ⟨h1, h2, h3⟩ := Sys.full_set (t := { s with
    cursor := s.cursor.advance
    chans := s.chans.set qp
      { ch with qp := { ch.qp with full_ := ch.qp.full_.push (datum.ParseFromString s.cursor.value) } }
    pc := pc
    log := s.log ++ [{ round := r, chan := qp, record := s.cursor.value }] }) hch rfl
  refine ⟨?_, h3⟩
  rw [h1, h2]
  rfl

/-- The push of pass `r` to channel `i`: with the Datum popped from the
`free_` queue of channel `i` in hand, in pass `r`, the body's next step is
enabled and pushes that Datum, carrying the record at cursor position
`(r * N + i) mod K`, to the back of the `full_` queue of channel `i`. -/
theorem Sys.fill_step {N : Nat} {db : List String} {s : Sys} (hdb : InvDb db s)
    (hrr : InvRR N s) (hcons : InvCons s) {r i : Nat} {datum : Datum}
    (hpc : s.pc = Pc.mainFill r i datum ∨ (r = 0 ∧ ∃ qp, s.pc = Pc.startFill i qp datum)) :
    i < N ∧ ∃ ch t, s.chans[i]? = some ch ∧ s.step Action.body = some t
      ∧ t.full i = ch.qp.full_.queue_
          ++ [datum.ParseFromString (db.getD ((r * N + i) % db.length) "")]
      ∧ (∀ c, c ≠ i → t.full c = s.full c) := by
  have hval : ∀ n, s.log.length = n → s.cursor.value = db.getD (n % db.length) "" := by
    intro n hn
    simp only [Cursor.value, hdb.recs, hdb.pos, hn]
  have hchan : ∀ c, s.in_flight c = 1 → ∃ ch, s.chans[c]? = some ch := by
    intro c hc
    have hlt : c < s.chans.length := by
      by_contra hge
      have := hcons.2 c (by omega)
      omega
    exact ⟨s.chans[c], List.getElem?_eq_getElem hlt⟩
  have hp := hrr.pc
  rcases hpc with hpc | ⟨rfl, qp, hpc⟩
  · simp only [PcInv, hpc] at hp
    obtain ⟨hlen, -, hi, hlog⟩ := hp
    have hilt : i < s.qps.length := by omega
    have hq : s.qps[i]? = some i := by
      rw [hrr.taken, List.getElem?_range hilt]
    obtain ⟨ch, hch⟩ := hchan i (by simp [Sys.in_flight, hpc, hq])
    have hsome : (s.read_push r i datum (Pc.mainRead r (i + 1))).isSome = true := by
      simp [Sys.read_push, hch]
    obtain ⟨u, hu⟩ := Option.isSome_iff_exists.mp hsome
    have hstep : s.step Action.body = some u := by
      simp only [Sys.step, Sys.body, hpc, hq]
      exact hu
    obtain ⟨g1, g2⟩ := Sys.read_push_full hu
    refine ⟨hi, ch, u, hch, hstep, ?_, g2⟩
    rw [g1, hval _ hlog]
    simp [Sys.full, hch]
  · simp only [PcInv, hpc] at hp
    obtain ⟨hlen, hi, hlog⟩ := hp
    have hr1 := hrr.reg (by rw [hpc]; simp)
    simp only [Sys.hand, hpc] at hr1
    obtain ⟨hqp, -⟩ := range_split_head hr1
    rw [hlen] at hqp
    subst hqp
    obtain ⟨ch, hch⟩ := hchan qp (by simp [Sys.in_flight, hpc])
    have hsome : (s.read_push 0 qp datum (Pc.startPop (qp + 1))).isSome = true := by
      simp [Sys.read_push, hch]
    obtain ⟨u, hu⟩ := Option.isSome_iff_exists.mp hsome
    have hstep : s.step Action.body = some { u with qps := u.qps ++ [qp] } := by
      simp only [Sys.step, Sys.body, hpc, hu]
    obtain ⟨g1, g2⟩ := Sys.read_push_full hu
    have hsame : ∀ c, ({ u with qps := u.qps ++ [qp] } : Sys).full c = u.full c :=
      fun c => Sys.full_congr rfl c
    refine ⟨hi, ch, _, hch, hstep, ?_, ?_⟩
    · rw [hsame, g1, hval _ hlog]
      simp [Sys.full, hch]
    · intro c hc
      rw [hsame]
      exact g2 c hc

theorem Sys.history_append (acts1 acts2 : List Action) :
    ∀ {s t : Sys}, s.run acts1 = some t →
      s.history (acts1 ++ acts2) = s.history acts1 ++ t.history acts2 := by
  induction acts1 with
  | nil =>
    intro s t h
    simp only [Sys.run, Option.some.injEq] at h
    subst h
    simp [Sys.history]
  | cons a rest ih =>
    intro s t h
    simp only [Sys.run] at h
    cases ha : s.step a with
    | none => simp [ha] at h
    | some u =>
      simp only [ha] at h
      rw [List.cons_append]
      simp only [Sys.history, ha]
      rw [ih h, List.append_assoc]

/-- C1, round-robin partition.  For a database `db` of `K ≥ 1` records and a
body expecting `N ≥ 1` consumers, along every interleaving `acts` of
registrations, body steps, stop requests and consumer steps, with the pushes
to the `full_` queues read off the queues themselves: (1) the `j`-th push is
made in round `j / N` to the `full_` queue of the channel registered
`j % N`-th and the Datum pushed carries the record at cursor position
`j % K`; (2) every push of round `r` to channel `i` has `i < N` and carries
the record at position `(r * N + i) % K`; (3) the pushes of a round are, in
order and without duplicate, a prefix of the pushes of positions `r * N` to
`(r + 1) * N - 1` to channels `0` to `N - 1`; (4) once `(r + 1) * N` pushes
are made, round `r` is exactly that list; (5) step by step: when the body, in
round `r` and at channel `i` of its loop, has popped a Datum from `free_`, its
next step is enabled and puts that Datum, carrying the record at position
`(r * N + i) % K`, at the back of the `full_` queue of channel `i`, and
touches no other `full_` queue; (6) the pushes do happen: while no stop is
requested, no more than `N` readers register and every queue pair has a Datum,
some continuation of the interleaving (missing readers register, consumers
return Datums, the body steps) makes the next push, which is the one of
position `j`; (7) so every number of pushes is reached by some run. -/
theorem round_robin_partition (N : Nat) (db : List String) (hN : 1 ≤ N) (hK : 1 ≤ db.length)
    (acts : List Action) (s : Sys) (h : (Sys.init (N : Int) db).run acts = some s) :
    (Sys.init (N : Int) db).history acts
        = deliveries N db ((Sys.init (N : Int) db).history acts).length
    ∧ (∀ d ∈ (Sys.init (N : Int) db).history acts, d.chan < N
        ∧ d.record = db.getD ((d.round * N + d.chan) % db.length) "")
    ∧ (∀ r, (Sys.init (N : Int) db).pushes_of_round acts r <+: (List.range N).map
        (fun i => { round := r, chan := i, record := db.getD ((r * N + i) % db.length) "" }))
    ∧ (∀ r, (r + 1) * N ≤ ((Sys.init (N : Int) db).history acts).length →
        (Sys.init (N : Int) db).pushes_of_round acts r = (List.range N).map
          (fun i => { round := r, chan := i, record := db.getD ((r * N + i) % db.length) "" }))
    ∧ (∀ r i datum,
        (s.pc = Pc.mainFill r i datum ∨ (r = 0 ∧ ∃ qp, s.pc = Pc.startFill i qp datum)) →
        i < N ∧ ∃ ch t, s.chans[i]? = some ch ∧ s.step Action.body = some t
          ∧ t.full i = ch.qp.full_.queue_
              ++ [datum.ParseFromString (db.getD ((r * N + i) % db.length) "")]
          ∧ (∀ c, c ≠ i → t.full c = s.full c))
    ∧ (s.Served N → ∃ acts1 t, s.run acts1 = some t ∧ t.Served N
        ∧ (Sys.init (N : Int) db).history (acts ++ acts1)
            = (Sys.init (N : Int) db).history acts
              ++ [delivery N db ((Sys.init (N : Int) db).history acts).length])
    ∧ (∀ n, ∃ acts1 t, (Sys.init (N : Int) db).run acts1 = some t
        ∧ ((Sys.init (N : Int) db).history acts1).length = n) := by
  obtain ⟨h1, h2⟩ := Sys.run_inv hK h
  have h3 := InvCons.cons_run acts (InvCons.cons_init _ db) h
  have hH := Sys.history_init h
  have hlog := log_eq_deliveries h1 h2
  rw [hH]
  refine ⟨hlog, ?_, ?_, ?_, ?_, ?_, ?_⟩
  · intro d hd
    rw [hlog] at hd
    simp only [deliveries, List.mem_map, List.mem_range] at hd
    obtain ⟨j, -, rfl⟩ := hd
    simp only [delivery]
    refine ⟨Nat.mod_lt _ hN, ?_⟩
    rw [Nat.mul_comm, Nat.div_add_mod]
  · intro r
    obtain ⟨m, hm, hle, -⟩ := deliveries_round N db hN r s.log.length
    rw [Sys.pushes_of_round, hH, hlog, hm]
    exact (range_pre hle).map _
  · intro r hfull
    obtain ⟨m, hm, -, hmN⟩ := deliveries_round N db hN r s.log.length
    rw [Sys.pushes_of_round, hH, hlog, hm, hmN hfull]
  · intro r i datum hpc
    exact Sys.fill_step h1 h2 h3 hpc
  · intro hserved
    obtain ⟨acts1, t, hrun, hlen, hserved1⟩ := Good.progress ⟨h2, h3, hserved⟩ hN
    have hrun2 : (Sys.init (N : Int) db).run (acts ++ acts1) = some t := by
      rw [Sys.run_append acts acts1 h]; exact hrun
    obtain ⟨g1, g2⟩ := Sys.run_inv hK hrun2
    refine ⟨acts1, t, hrun, hserved1, ?_⟩
    rw [Sys.history_init hrun2, log_eq_deliveries g1 g2, hlen, deliveries_succ, ← hlog]
  · intro n
    obtain ⟨acts1, t, hrun, hlen, -⟩ := Sys.reach_deliveries N db hN n
    exact ⟨acts1, t, hrun, by rw [Sys.history_init hrun]; exact hlen⟩

theorem scenario_history :
    (Sys.init 2 ["A", "B", "C", "D"]).history scenario
      = [⟨0, 0, "A"⟩, ⟨0, 1, "B"⟩, ⟨1, 0, "C"⟩, ⟨1, 1, "D"⟩, ⟨2, 0, "A"⟩, ⟨2, 1, "B"⟩] := by
  decide

theorem scenario_full :
    ((Sys.init 2 ["A", "B", "C", "D"]).run scenario).map (fun s => (s.full 0, s.full 1))
      = some ([⟨0, "A"⟩, ⟨1, "C"⟩, ⟨2, "A"⟩], [⟨0, "B"⟩, ⟨1, "D"⟩, ⟨2, "B"⟩]) := by
  decide

/-- C1, witness: the scenario of the spec.  With `N = 2` and the records
A, B, C, D the rounds are A, B then C, D then A, B to consumers 0, 1; at the
end the `full_` queue of channel 0 holds A, C, A and that of channel 1 holds
B, D, B. -/
theorem round_robin_partition_witness :
    ∃ s, (Sys.init 2 ["A", "B", "C", "D"]).run scenario = some s
      ∧ (Sys.init 2 ["A", "B", "C", "D"]).pushes_of_round scenario 0 = [⟨0, 0, "A"⟩, ⟨0, 1, "B"⟩]
      ∧ (Sys.init 2 ["A", "B", "C", "D"]).pushes_of_round scenario 1 = [⟨1, 0, "C"⟩, ⟨1, 1, "D"⟩]
      ∧ (Sys.init 2 ["A", "B", "C", "D"]).pushes_of_round scenario 2 = [⟨2, 0, "A"⟩, ⟨2, 1, "B"⟩]
      ∧ s.full 0 = [⟨0, "A"⟩, ⟨1, "C"⟩, ⟨2, "A"⟩]
      ∧ s.full 1 = [⟨0, "B"⟩, ⟨1, "D"⟩, ⟨2, "B"⟩] := by
  have hsome : ((Sys.init 2 ["A", "B", "C", "D"]).run scenario).isSome = true := by decide
  obtain ⟨s, hs⟩ := Option.isSome_iff_exists.mp hsome
  have hfull := scenario_full
  rw [hs] at hfull
  simp only [Option.map_some', Option.some.injEq, Prod.mk.injEq] at hfull
  have hlen : ((Sys.init ((2 : Nat) : Int) ["A", "B", "C", "D"]).history scenario).length = 6 := by
    have e := congrArg List.length scenario_history
    exact e
  obtain ⟨-, -, -, h4, -, -, -⟩ :=
    round_robin_partition 2 ["A", "B", "C", "D"] (by decide) (by decide) scenario s hs
  refine ⟨s, hs, ?_, ?_, ?_, hfull.1, hfull.2⟩
  · exact (h4 0 (by rw [hlen]; decide)).trans (by decide)
  · exact (h4 1 (by rw [hlen]; decide)).trans (by decide)
  · exact (h4 2 (by rw [hlen])).trans (by decide)

/-! ## Determinism under scheduling: what the consumers see -/

/-- One step keeps the `full_` queue of a channel in line with the log: the
queue holds, in order, the records logged for the channel and not popped
yet. -/
theorem Sys.step_full_delivered {s t : Sys} {a : Action} (h : s.step a = some t) (c p : Nat)
    (hp : p ≤ (s.delivered c).length)
    (hf : (s.full c).map Datum.data = (s.delivered c).drop p) :
    p + pops c [a] ≤ (t.delivered c).length
      ∧ (t.full c).map Datum.data = (t.delivered c).drop (p + pops c [a]) := by
  rcases Sys.step_full h with ⟨hfull, hlog, hnp⟩ | ⟨c0, d, rest, rfl, h1, h2, h3, hlog⟩
    | ⟨c0, d, rfl, -, h2, h3, hlog⟩
  · have hd : t.delivered c = s.delivered c := by simp only [Sys.delivered, hlog]
    have h0 : pops c [a] = 0 := by simp [pops, hnp c]
    rw [h0, hd, hfull c]
    exact ⟨hp, hf⟩
  · have hd : t.delivered c = s.delivered c := by simp only [Sys.delivered, hlog]
    rw [hd]
    by_cases hc : c = c0
    · subst hc
      have h1p : pops c [Action.consumerPop c] = 1 := by simp [pops]
      rw [h1p, h2]
      rw [h1] at hf
      have hlen := congrArg List.length hf
      simp only [List.map_cons, List.length_cons, List.length_map, List.length_drop] at hlen
      refine ⟨by omega, ?_⟩
      have htail := congrArg List.tail hf
      simpa [List.tail_drop] using htail
    · have h0 : pops c [Action.consumerPop c0] = 0 := by
        have hne : ¬ (c0 = c) := fun e => hc e.symm
        simp [pops, hne]
      rw [h0, h3 c hc]
      exact ⟨hp, hf⟩
  · have h0 : pops c [Action.body] = 0 := by simp [pops]
    rw [h0]
    by_cases hc : c = c0
    · subst hc
      have hd : t.delivered c = s.delivered c ++ [d.data] := by
        simp [Sys.delivered, hlog, List.filter_append]
      rw [hd, h2]
      refine ⟨by simp; omega, ?_⟩
      rw [List.map_append, hf, Nat.add_zero, List.drop_append_of_le_length hp]
      rfl
    · have hd : t.delivered c = s.delivered c := by
        have hne : ¬ (c0 = c) := fun e => hc e.symm
        simp [Sys.delivered, hlog, List.filter_append, hne]
      rw [hd, h3 c hc]
      exact ⟨hp, hf⟩

theorem Sys.run_full_delivered (acts : List Action) :
    ∀ {s t : Sys} (c p : Nat), s.run acts = some t → p ≤ (s.delivered c).length →
      (s.full c).map Datum.data = (s.delivered c).drop p →
      p + pops c acts ≤ (t.delivered c).length
        ∧ (t.full c).map Datum.data = (t.delivered c).drop (p + pops c acts) := by
  induction acts with
  | nil =>
    intro s t c p h hp hf
    simp only [Sys.run, Option.some.injEq] at h
    subst h
    exact ⟨by simpa [pops] using hp, by simpa [pops] using hf⟩
  | cons a rest ih =>
    intro s t c p h hp hf
    simp only [Sys.run] at h
    cases ha : s.step a with
    | none => simp [ha] at h
    | some u =>
      simp only [ha] at h
      obtain ⟨g1, g2⟩ := Sys.step_full_delivered ha c p hp hf
      obtain ⟨k1, k2⟩ := ih c (p + pops c [a]) h g1 g2
      have e : p + pops c (a :: rest) = p + pops c [a] + pops c rest := by
        simp only [pops]
        omega
      rw [e]
      exact ⟨k1, k2⟩

/-- C2, determinism under scheduling.  Two runs of the same body (same
database, same consumer count `N`), under any two interleavings `acts1`,
`acts2` of body steps with registrations, stop requests and consumer steps,
with the pushes to the `full_` queues read off the queues themselves: (1) the
sequences of pushes of the two runs are equal up to the length of the shorter
one; (2) so are, for each channel, the sequences of records pushed to its
`full_` queue; (3) the `k`-th record pushed to the `full_` queue of channel
`c` is the cursor's value at position `k * N + c` of its cyclic sequence,
whatever the schedule; (4) the `full_` queue of a channel holds, in order, the
records pushed to it but for those its consumer has popped; (5) so the `k`-th
pop of the consumer of channel `c`, whenever it is made, takes from `full_` a
Datum that carries the record at position `k * N + c`; (6) the pushes do
happen: every number of pushes is reached by some run. -/
theorem delivery_deterministic (N : Nat) (db : List String) (hK : 1 ≤ db.length)
    (acts1 acts2 : List Action) (s1 s2 : Sys)
    (h1 : (Sys.init (N : Int) db).run acts1 = some s1)
    (h2 : (Sys.init (N : Int) db).run acts2 = some s2) :
    ((Sys.init (N : Int) db).history acts1 <+: (Sys.init (N : Int) db).history acts2
      ∨ (Sys.init (N : Int) db).history acts2 <+: (Sys.init (N : Int) db).history acts1)
    ∧ (∀ c, (Sys.init (N : Int) db).received acts1 c <+: (Sys.init (N : Int) db).received acts2 c
        ∨ (Sys.init (N : Int) db).received acts2 c <+: (Sys.init (N : Int) db).received acts1 c)
    ∧ (∀ c, c < N → (Sys.init (N : Int) db).received acts1 c
        = (List.range ((Sys.init (N : Int) db).received acts1 c).length).map
            (fun k => db.getD ((k * N + c) % db.length) ""))
    ∧ (∀ c, pops c acts1 ≤ ((Sys.init (N : Int) db).received acts1 c).length
        ∧ (s1.full c).map Datum.data
            = ((Sys.init (N : Int) db).received acts1 c).drop (pops c acts1))
    ∧ (∀ c t, s1.step (Action.consumerPop c) = some t →
        ∃ ch ch1 d rest, s1.chans[c]? = some ch ∧ ch.qp.full_.queue_ = d :: rest
          ∧ t.chans[c]? = some ch1 ∧ ch1.qp.full_.queue_ = rest ∧ ch1.held = ch.held ++ [d]
          ∧ (c < N → d.data = db.getD ((pops c acts1 * N + c) % db.length) ""))
    ∧ (1 ≤ N → ∀ n, ∃ acts t, (Sys.init (N : Int) db).run acts = some t
        ∧ ((Sys.init (N : Int) db).history acts).length = n) := by
  obtain ⟨a1, b1⟩ := Sys.run_inv hK h1
  obtain ⟨a2, b2⟩ := Sys.run_inv hK h2
  have e1 := log_eq_deliveries a1 b1
  have e2 := log_eq_deliveries a2 b2
  have hH1 := Sys.history_init h1
  have hH2 := Sys.history_init h2
  have hR1 : ∀ c, (Sys.init (N : Int) db).received acts1 c = s1.delivered c := by
    intro c; simp only [Sys.received, Sys.delivered, hH1]
  have hR2 : ∀ c, (Sys.init (N : Int) db).received acts2 c = s2.delivered c := by
    intro c; simp only [Sys.received, Sys.delivered, hH2]
  have hpre : s1.log <+: s2.log ∨ s2.log <+: s1.log := by
    rcases Nat.le_total s1.log.length s2.log.length with hle | hle
    · left; rw [e1, e2]; exact deliveries_pre N db hle
    · right; rw [e1, e2]; exact deliveries_pre N db hle
  have hchan : ∀ c, c < N → s1.delivered c
      = (List.range (s1.delivered c).length).map
          (fun k => db.getD ((k * N + c) % db.length) "") := by
    intro c hc
    obtain ⟨m, hm⟩ := deliveries_chan N db c hc s1.log.length
    have hd : s1.delivered c = (List.range m).map
        (fun k => db.getD ((k * N + c) % db.length) "") := by
      rw [Sys.delivered, e1]; exact hm
    have hlen : (s1.delivered c).length = m := by rw [hd]; simp
    rw [hlen]; exact hd
  have hfull : ∀ c, pops c acts1 ≤ (s1.delivered c).length
      ∧ (s1.full c).map Datum.data = (s1.delivered c).drop (pops c acts1) := by
    intro c
    have := Sys.run_full_delivered acts1 c 0 h1 (Nat.zero_le _)
      (by simp [Sys.full, Sys.delivered, Sys.init])
    simpa using this
  refine ⟨?_, ?_, ?_, ?_, ?_, ?_⟩
  · rw [hH1, hH2]; exact hpre
  · intro c
    rw [hR1, hR2]
    rcases hpre with hp | hp
    · exact Or.inl ((hp.filter _).map _)
    · exact Or.inr ((hp.filter _).map _)
  · intro c hc
    rw [hR1]; exact hchan c hc
  · intro c
    rw [hR1]; exact hfull c
  · intro c t ht
    obtain ⟨ch, d, rest, hch, hq, rfl⟩ := Sys.consumer_pop_some ht
    have hlt : c < s1.chans.length := (List.getElem?_eq_some.mp hch).1
    refine ⟨ch, { ch with qp := { ch.qp with full_ := { queue_ := rest } }, held := ch.held ++ [d] },
      d, rest, hch, hq, ?_, rfl, rfl, ?_⟩
    · simp [List.getElem?_set, hlt]
    · intro hc
      obtain ⟨-, hf⟩ := hfull c
      have hs : s1.full c = d :: rest := by simp [Sys.full, hch, hq]
      rw [hs, hchan c hc] at hf
      have h0 := congrArg (fun l => l[0]?) hf
      simp only [List.map_cons, List.getElem?_cons_zero, List.getElem?_drop, Nat.add_zero,
        List.getElem?_map] at h0
      cases hr : (List.range (s1.delivered c).length)[pops c acts1]? with
      | none => rw [hr] at h0; simp at h0
      | some k =>
        rw [hr] at h0
        have hk : k = pops c acts1 := by
          have hlt2 : pops c acts1 < (List.range (s1.delivered c).length).length :=
            (List.getElem?_eq_some.mp hr).1
          rw [List.getElem?_range (by simpa using hlt2)] at hr
          exact (Option.some.inj hr).symm
        simp only [Option.map_some', Option.some.injEq] at h0
        rw [h0, hk]
  · intro hN n
    obtain ⟨acts, t, hrun, hlen, -⟩ := Sys.reach_deliveries N db hN n
    exact ⟨acts, t, hrun, by rw [Sys.history_init hrun]; exact hlen⟩

theorem scenario_depth1_run :
    ((Sys.init 2 ["A", "B", "C", "D"]).run scenario_depth1).map
        (fun s => (s.pc, s.full 0, s.full 1))
      = some (Pc.stopped, [⟨0, "C"⟩], [⟨0, "D"⟩]) := by
  decide

theorem scenario_depth1_history :
    ((Sys.init 2 ["A", "B", "C", "D"]).history scenario_depth1,
      pops 0 scenario_depth1, pops 1 scenario_depth1)
      = ([⟨0, 0, "A"⟩, ⟨0, 1, "B"⟩, ⟨1, 0, "C"⟩, ⟨1, 1, "D"⟩], 1, 1) := by
  decide

/-- C2, witness: the scenario run by the body alone on channels of depth 6,
and run on channels of depth 1 with a late registration, consumer steps in
between and a stop request: the `full_` queue of channel 0 is pushed A, C, A
in the first and A, C in the second, where the consumer has popped the A and
the queue holds the C. -/
theorem delivery_deterministic_witness :
    ∃ s1 s2, (Sys.init 2 ["A", "B", "C", "D"]).run scenario = some s1
      ∧ (Sys.init 2 ["A", "B", "C", "D"]).run scenario_depth1 = some s2
      ∧ (Sys.init 2 ["A", "B", "C", "D"]).received scenario 0 = ["A", "C", "A"]
      ∧ (Sys.init 2 ["A", "B", "C", "D"]).received scenario_depth1 0 = ["A", "C"]
      ∧ ((Sys.init 2 ["A", "B", "C", "D"]).received scenario_depth1 0
          <+: (Sys.init 2 ["A", "B", "C", "D"]).received scenario 0
        ∨ (Sys.init 2 ["A", "B", "C", "D"]).received scenario 0
          <+: (Sys.init 2 ["A", "B", "C", "D"]).received scenario_depth1 0)
      ∧ s2.full 0 = [⟨0, "C"⟩] ∧ pops 0 scenario_depth1 = 1 := by
  have hsome1 : ((Sys.init 2 ["A", "B", "C", "D"]).run scenario).isSome = true := by decide
  have hsome2 : ((Sys.init 2 ["A", "B", "C", "D"]).run scenario_depth1).isSome = true := by
    decide
  obtain ⟨s1, hs1⟩ := Option.isSome_iff_exists.mp hsome1
  obtain ⟨s2, hs2⟩ := Option.isSome_iff_exists.mp hsome2
  have hrun2 := scenario_depth1_run
  rw [hs2] at hrun2
  simp only [Option.map_some', Option.some.injEq, Prod.mk.injEq] at hrun2
  have hhist := scenario_depth1_history
  simp only [Prod.mk.injEq] at hhist
  obtain ⟨-, hdet, -⟩ :=
    delivery_deterministic 2 ["A", "B", "C", "D"] (by decide) scenario_depth1 scenario s2 s1
      hs2 hs1
  refine ⟨s1, s2, hs1, hs2, ?_, ?_, hdet 0, hrun2.2.1, hhist.2.1⟩
  · rw [Sys.received, scenario_history]; decide
  · rw [Sys.received, hhist.1]; decide

/-! ## The startup barrier, on the queues -/

/-- C7, startup join barrier.  With `N ≥ 1` expected consumers, `N` being
`Caffe::solver_count()` in phase TRAIN and 1 otherwise, along every
interleaving `acts` of registrations, body steps, stop requests and consumer
steps, with the pushes to the `full_` queues read off the queues themselves:
(1) the `j`-th push, for `j < N`, goes to the `full_` queue of the channel
registered `j`-th, belongs to the startup pass and carries the record at
cursor position `j mod K`, so each of the first `N` registered channels gets
its first record, in registration order, before any second record; (2) if the `full_` queue of some channel has been pushed two or
more records, the body has taken `N` channels from `new_queue_pairs_`;
(3) the records pushed to the `full_` queue of a channel are those it holds
and those its consumer has popped; (4) when the main loop is first entered,
`N` records have been pushed, one to each of the channels `0` to `N - 1`,
whose `full_` queue holds it unless its consumer has popped it; (5) some run
makes these `N` pushes. -/
theorem startup_barrier (phase : Phase) (caffe_solver_count : Int) (db : List String) (N : Nat)
    (hN : (solver_count phase caffe_solver_count).toNat = N) (hpos : 1 ≤ N)
    (acts : List Action) (s : Sys)
    (h : (Sys.init (solver_count phase caffe_solver_count) db).run acts = some s) :
    N = (if phase = Phase.TRAIN then caffe_solver_count.toNat else 1)
    ∧ (∀ j d, j < N →
        ((Sys.init (solver_count phase caffe_solver_count) db).history acts)[j]? = some d →
        d.chan = j ∧ d.round = 0
          ∧ (1 ≤ db.length → d.record = db.getD (j % db.length) ""))
    ∧ (∀ c, 2 ≤ ((Sys.init (solver_count phase caffe_solver_count) db).received acts c).length →
        s.taken = N)
    ∧ (∀ c, (s.full c).length + pops c acts
        = ((Sys.init (solver_count phase caffe_solver_count) db).received acts c).length)
    ∧ (s.pc = Pc.loopHead 1 →
        ((Sys.init (solver_count phase caffe_solver_count) db).history acts).length = N
        ∧ s.taken = N
        ∧ ∀ c, c < N →
          ((Sys.init (solver_count phase caffe_solver_count) db).received acts c).length = 1
          ∧ (s.full c).length + pops c acts = 1)
    ∧ (∃ acts1 t, (Sys.init (solver_count phase caffe_solver_count) db).run acts1 = some t
        ∧ ((Sys.init (solver_count phase caffe_solver_count) db).history acts1).length = N) := by
  have hs : InvRR N s := hN ▸ Sys.run_invRR h
  have hH := Sys.history_init h
  have hR : ∀ c, (Sys.init (solver_count phase caffe_solver_count) db).received acts c
      = s.delivered c := by
    intro c; simp only [Sys.received, Sys.delivered, hH]
  have hfull : ∀ c, (s.full c).length + pops c acts = (s.delivered c).length := by
    intro c
    obtain ⟨g1, g2⟩ := Sys.run_full_delivered acts c 0 h (Nat.zero_le _)
      (by simp [Sys.full, Sys.delivered, Sys.init])
    have hlen := congrArg List.length g2
    simp only [List.length_map, List.length_drop, Nat.zero_add] at hlen g1
    omega
  refine ⟨?_, ?_, ?_, ?_, ?_, ?_⟩
  · rw [← hN, solver_count]
    split <;> simp
  · intro j d hj hd
    rw [hH] at hd
    obtain ⟨h1, h2⟩ := hs.log_getElem? hd
    rw [h1, h2, Nat.div_eq_of_lt hj, Nat.mod_eq_of_lt hj]
    refine ⟨rfl, rfl, fun hK => ?_⟩
    have hdb : InvDb db s := InvDb.db_run hK acts (InvDb.db_init _ db) h
    have hlog := log_eq_deliveries hdb hs
    rw [hlog] at hd
    have hjlt : j < s.log.length := by
      by_contra hge
      rw [List.getElem?_eq_none (by simp [deliveries]; omega)] at hd
      exact absurd hd (by simp)
    simp only [deliveries, List.getElem?_map, List.getElem?_range hjlt, Option.map_some',
      Option.some.injEq] at hd
    rw [← hd]
    rfl
  · intro c hc
    rw [hR] at hc
    have hlen := hs.delivered_ge_two hpos c hc
    have hp := hs.pc
    unfold PcInv at hp
    unfold Sys.taken
    split at hp <;> simp_all <;> omega
  · intro c
    rw [hR]; exact hfull c
  · intro hpc
    have hp := hs.pc
    simp only [PcInv, hpc] at hp
    have hlen : s.log.length = N := by rw [hp.2.2]; omega
    refine ⟨by rw [hH]; exact hlen, ?_, fun c hc => ?_⟩
    · simp only [Sys.taken, hpc]
      exact hp.1
    · have h1 := hs.delivered_one hlen c hc
      exact ⟨by rw [hR]; exact h1, by rw [hfull c]; exact h1⟩
  · obtain ⟨acts1, t, hrun, hlen, -⟩ := Sys.reach_deliveries N db hpos N
    rw [Sys.init_toNat, hN]
    exact ⟨acts1, t, hrun, by rw [Sys.history_init hrun]; exact hlen⟩

theorem scenario_startup_run :
    ((Sys.init (solver_count Phase.TRAIN 2) ["A", "B", "C", "D"]).run scenario_startup).map
        (fun s => (s.pc, s.full 0, s.full 1))
      = some (Pc.loopHead 1, [⟨0, "A"⟩], [⟨0, "B"⟩]) := by
  decide

/-- C7, witness: phase TRAIN with `Caffe::solver_count() = 2`; when the body
first reaches the head of the main loop the `full_` queue of channel 0 holds
the record A and that of channel 1 the record B, one each. -/
theorem startup_barrier_witness :
    ∃ s, (Sys.init (solver_count Phase.TRAIN 2) ["A", "B", "C", "D"]).run scenario_startup = some s
      ∧ s.pc = Pc.loopHead 1
      ∧ ((Sys.init (solver_count Phase.TRAIN 2) ["A", "B", "C", "D"]).history
          scenario_startup).length = 2
      ∧ s.full 0 = [⟨0, "A"⟩] ∧ s.full 1 = [⟨0, "B"⟩]
      ∧ ((Sys.init (solver_count Phase.TRAIN 2) ["A", "B", "C", "D"]).received
          scenario_startup 0).length = 1
      ∧ ((Sys.init (solver_count Phase.TRAIN 2) ["A", "B", "C", "D"]).received
          scenario_startup 1).length = 1 := by
  have hsome : ((Sys.init (solver_count Phase.TRAIN 2) ["A", "B", "C", "D"]).run
      scenario_startup).isSome = true := by decide
  obtain ⟨s, hs⟩ := Option.isSome_iff_exists.mp hsome
  have hrun := scenario_startup_run
  rw [hs] at hrun
  simp only [Option.map_some', Option.some.injEq, Prod.mk.injEq] at hrun
  obtain ⟨hpc, hf0, hf1⟩ := hrun
  obtain ⟨-, -, -, -, h4, -⟩ :=
    startup_barrier Phase.TRAIN 2 ["A", "B", "C", "D"] 2 (by decide) (by decide)
      scenario_startup s hs
  obtain ⟨hlen, -, hone⟩ := h4 hpc
  exact ⟨s, hs, hpc, hlen, hf0, hf1, (hone 0 (by decide)).1, (hone 1 (by decide)).1⟩

/-! ## The dual-buffer synchronization law -/

theorem SyncedMemory.to_cpu_wf (alloc : Nat → List Nat) {m : SyncedMemory} (h : m.WF = true) :
    (m.to_cpu alloc).WF = true
      ∧ ((m.to_cpu alloc).head_ = SyncedHead.HEAD_AT_CPU ∨ (m.to_cpu alloc).head_ = SyncedHead.SYNCED)
      ∧ (m.to_cpu alloc).cpu_ptr_.isSome = true := by
  unfold SyncedMemory.to_cpu
  cases hh : m.head_ <;> simp_all [SyncedMemory.WF]

theorem SyncedMemory.to_gpu_wf (alloc : Nat → List Nat) {m : SyncedMemory} (h : m.WF = true) :
    (m.to_gpu alloc).WF = true
      ∧ ((m.to_gpu alloc).head_ = SyncedHead.HEAD_AT_GPU ∨ (m.to_gpu alloc).head_ = SyncedHead.SYNCED)
      ∧ (m.to_gpu alloc).gpu_ptr_.isSome = true := by
  unfold SyncedMemory.to_gpu
  cases hh : m.head_ <;> simp_all [SyncedMemory.WF]

/-- A host-authoritative buffer with the host bytes `host`: `gpu_data()`
copies them to the device and the state becomes SYNCED. -/
theorem SyncedMemory.gpu_data_of_cpu (alloc : Nat → List Nat) {m : SyncedMemory}
    {host : List Nat} (hh : m.head_ = SyncedHead.HEAD_AT_CPU) (hc : m.cpu_ptr_ = some host) :
    (m.gpu_data alloc).head_ = SyncedHead.SYNCED
      ∧ (m.gpu_data alloc).gpu_ptr_ = some host
      ∧ (m.gpu_data alloc).cpu_ptr_ = some host
      ∧ (m.gpu_data alloc).copies = m.copies + 1
      ∧ (m.gpu_data alloc).WF = true := by
  simp [SyncedMemory.gpu_data, SyncedMemory.to_gpu, hh, hc, SyncedMemory.WF]

theorem SyncedMemory.mutable_cpu_data_spec (alloc : Nat → List Nat) {m : SyncedMemory}
    (h : m.WF = true) :
    (m.mutable_cpu_data alloc).head_ = SyncedHead.HEAD_AT_CPU
      ∧ (m.mutable_cpu_data alloc).cpu_ptr_ = (m.to_cpu alloc).cpu_ptr_
      ∧ ∃ host, (m.mutable_cpu_data alloc).cpu_ptr_ = some host := by
  obtain ⟨-, -, h3⟩ := SyncedMemory.to_cpu_wf alloc h
  refine ⟨rfl, rfl, ?_⟩
  exact Option.isSome_iff_exists.mp h3

/-- C11, dual-buffer synchronization law (the accessors are modelled from the
spec).  A new `SyncedMemory` is in state UNINITIALIZED with both pointers
null.  From the new buffer, and from any coherent state `m`,
`mutable_cpu_data()` followed by `gpu_data()` leaves the state SYNCED with the
device bytes equal to the host bytes, after exactly one synchronization copy;
the same holds when the caller writes `bytes` through the mutable pointer in
between, the device then holding `bytes`.  `gpu_data()` in state SYNCED
returns the buffer as it is: no copy, same state, same two copies.  The four
accessors keep the state coherent. -/
theorem synced_memory_law (alloc : Nat → List Nat) (size : Nat) (m : SyncedMemory)
    (hwf : m.WF = true) (bytes : List Nat) :
    ((SyncedMemory.new size).head_ = SyncedHead.UNINITIALIZED
      ∧ (SyncedMemory.new size).cpu_ptr_ = none ∧ (SyncedMemory.new size).gpu_ptr_ = none
      ∧ (SyncedMemory.new size).WF = true)
    ∧ ((((SyncedMemory.new size).mutable_cpu_data alloc).gpu_data alloc).head_
          = SyncedHead.SYNCED
      ∧ (((SyncedMemory.new size).mutable_cpu_data alloc).gpu_data alloc).gpu_ptr_
          = some (alloc size)
      ∧ (((SyncedMemory.new size).mutable_cpu_data alloc).gpu_data alloc).cpu_ptr_
          = some (alloc size)
      ∧ (((SyncedMemory.new size).mutable_cpu_data alloc).gpu_data alloc).copies = 1)
    ∧ (∃ host, (m.mutable_cpu_data alloc).cpu_ptr_ = some host
      ∧ (m.mutable_cpu_data alloc).head_ = SyncedHead.HEAD_AT_CPU
      ∧ ((m.mutable_cpu_data alloc).gpu_data alloc).head_ = SyncedHead.SYNCED
      ∧ ((m.mutable_cpu_data alloc).gpu_data alloc).gpu_ptr_ = some host
      ∧ ((m.mutable_cpu_data alloc).gpu_data alloc).cpu_ptr_ = some host
      ∧ ((m.mutable_cpu_data alloc).gpu_data alloc).copies
          = (m.mutable_cpu_data alloc).copies + 1)
    ∧ ((((m.mutable_cpu_data alloc).write_cpu bytes).gpu_data alloc).head_ = SyncedHead.SYNCED
      ∧ (((m.mutable_cpu_data alloc).write_cpu bytes).gpu_data alloc).gpu_ptr_ = some bytes
      ∧ (((m.mutable_cpu_data alloc).write_cpu bytes).gpu_data alloc).cpu_ptr_ = some bytes
      ∧ (((m.mutable_cpu_data alloc).write_cpu bytes).gpu_data alloc).copies
          = (m.mutable_cpu_data alloc).copies + 1)
    ∧ (m.head_ = SyncedHead.SYNCED →
        m.gpu_data alloc = m ∧ ∃ host, m.cpu_ptr_ = some host ∧ m.gpu_ptr_ = some host)
    ∧ ((m.cpu_data alloc).WF = true ∧ (m.gpu_data alloc).WF = true
      ∧ (m.mutable_cpu_data alloc).WF = true ∧ (m.mutable_gpu_data alloc).WF = true) := by
  refine ⟨⟨rfl, rfl, rfl, rfl⟩, ⟨rfl, rfl, rfl, rfl⟩, ?_, ?_, ?_, ?_⟩
  · obtain ⟨hh, -, host, hc⟩ := SyncedMemory.mutable_cpu_data_spec alloc hwf
    obtain ⟨g1, g2, g3, g4, -⟩ := SyncedMemory.gpu_data_of_cpu alloc hh hc
    exact ⟨host, hc, hh, g1, g2, g3, g4⟩
  · have hh : ((m.mutable_cpu_data alloc).write_cpu bytes).head_ = SyncedHead.HEAD_AT_CPU := rfl
    have hc : ((m.mutable_cpu_data alloc).write_cpu bytes).cpu_ptr_ = some bytes := rfl
    obtain ⟨g1, g2, g3, g4, -⟩ := SyncedMemory.gpu_data_of_cpu alloc hh hc
    exact ⟨g1, g2, g3, g4⟩
  · intro hs
    refine ⟨by simp [SyncedMemory.gpu_data, SyncedMemory.to_gpu, hs], ?_⟩
    simp only [SyncedMemory.WF, hs, Bool.and_eq_true, decide_eq_true_eq] at hwf
    obtain ⟨host, hc⟩ := Option.isSome_iff_exists.mp hwf.1
    exact ⟨host, hc, by rw [hwf.2, hc]⟩
  · obtain ⟨c1, c2, c3⟩ := SyncedMemory.to_cpu_wf alloc hwf
    obtain ⟨d1, d2, d3⟩ := SyncedMemory.to_gpu_wf alloc hwf
    refine ⟨c1, d1, ?_, ?_⟩
    · simpa [SyncedMemory.mutable_cpu_data, SyncedMemory.WF] using c3
    · simpa [SyncedMemory.mutable_gpu_data, SyncedMemory.WF] using d3

/-- C11, witness: a buffer that was written on the device side (state
HEAD_AT_GPU); the host then takes the mutable view, writes 5, 6, and the
device view is read: SYNCED, the device holds 5, 6, two copies were made in
all. -/
theorem synced_memory_law_witness :
    ((SyncedMemory.new 2).mutable_gpu_data zeros).WF = true
    ∧ (((((SyncedMemory.new 2).mutable_gpu_data zeros).mutable_cpu_data zeros).write_cpu
        [5, 6]).gpu_data zeros).head_ = SyncedHead.SYNCED
    ∧ (((((SyncedMemory.new 2).mutable_gpu_data zeros).mutable_cpu_data zeros).write_cpu
        [5, 6]).gpu_data zeros).gpu_ptr_ = some [5, 6]
    ∧ (((((SyncedMemory.new 2).mutable_gpu_data zeros).mutable_cpu_data zeros).write_cpu
        [5, 6]).gpu_data zeros).copies = 2 := by
  have hw : ((SyncedMemory.new 2).mutable_gpu_data zeros).WF = true := by decide
  obtain ⟨-, -, -, ⟨h1, h2, -, h4⟩, -, -⟩ :=
    synced_memory_law zeros 2 ((SyncedMemory.new 2).mutable_gpu_data zeros) hw [5, 6]
  exact ⟨hw, h1, h2, h4⟩

/-! ## `Forward_cpu` delivers the batches first-in first-out -/

/-- What a recorded step does to the layer and to the history. -/
theorem LayerHistory.step_some {h h1 : LayerHistory} {a : LayerAction}
    (hs : h.step a = some h1) :
    h.layer.step a = some h1.layer
      ∧ ((∃ loaded slot b, a = LayerAction.loaderPush loaded ∧ h.layer.loader = some slot
            ∧ h1.layer.prefetch_[slot]? = some b ∧ h1.pushed = h.pushed ++ [b]
            ∧ h1.calls = h.calls)
        ∨ (∃ slot b, a = LayerAction.forwardPush ∧ h.layer.forward = some slot
            ∧ h.layer.prefetch_[slot]? = some b ∧ h1.pushed = h.pushed
            ∧ h1.calls = h.calls ++
                [{ batch := b, top_before := h.layer.top, top_after := h1.layer.top }])
        ∨ ((a = LayerAction.loaderPop ∨ a = LayerAction.forwardPop)
            ∧ h1.pushed = h.pushed ∧ h1.calls = h.calls)) := by
  unfold LayerHistory.step at hs
  cases hl : h.layer.step a with
  | none => simp [hl] at hs
  | some l1 =>
    simp only [hl] at hs
    cases a with
    | loaderPop =>
      simp only [Option.some.injEq] at hs
      subst hs
      exact ⟨rfl, Or.inr (Or.inr ⟨Or.inl rfl, rfl, rfl⟩)⟩
    | forwardPop =>
      simp only [Option.some.injEq] at hs
      subst hs
      exact ⟨rfl, Or.inr (Or.inr ⟨Or.inr rfl, rfl, rfl⟩)⟩
    | loaderPush loaded =>
      simp only at hs
      cases hslot : h.layer.loader with
      | none => simp [hslot] at hs
      | some slot =>
        simp only [hslot, Option.some_bind] at hs
        cases hb : l1.prefetch_[slot]? with
        | none => simp [hb] at hs
        | some b =>
          simp only [hb, Option.some.injEq] at hs
          subst hs
          exact ⟨rfl, Or.inl ⟨loaded, slot, b, rfl, rfl, hb, rfl, rfl⟩⟩
    | forwardPush =>
      simp only at hs
      cases hslot : h.layer.forward with
      | none => simp [hslot] at hs
      | some slot =>
        simp only [hslot, Option.some_bind] at hs
        cases hb : h.layer.prefetch_[slot]? with
        | none => simp [hb] at hs
        | some b =>
          simp only [hb, Option.some.injEq] at hs
          subst hs
          exact ⟨rfl, Or.inr (Or.inl ⟨slot, b, rfl, rfl, hb, rfl, rfl⟩)⟩

theorem InvFifo.fifo_init (top : List Blob) : InvFifo top (LayerHistory.init top) := by
  refine ⟨?_, rfl, rfl, rfl, rfl, ?_⟩
  · exact List.Perm.refl _
  · intro c hc
    simp [LayerHistory.init] at hc

theorem Layer.Forward_cpu_copy_congr {l l1 : Layer} (h1 : l1.output_labels_ = l.output_labels_)
    (h2 : l1.top = l.top) (b : Batch) : l1.Forward_cpu_copy b = l.Forward_cpu_copy b := by
  simp only [Layer.Forward_cpu_copy, h1, h2]

theorem Layer.Forward_cpu_copy_length (l : Layer) (b : Batch) :
    (l.Forward_cpu_copy b).length = l.top.length := by
  unfold Layer.Forward_cpu_copy
  split <;> simp [List.length_modify]

theorem InvFifo.fifo_step {top : List Blob} {h h1 : LayerHistory} {a : LayerAction}
    (hi : InvFifo top h) (hs : h.step a = some h1) : InvFifo top h1 := by
  obtain ⟨hperm, hlen, hfifo, hlab, htop, hcalls⟩ := hi
  obtain ⟨hl, hcase⟩ := LayerHistory.step_some hs
  obtain ⟨hp1, hlen1⟩ := Layer.step_slots hl
  have hperm1 : h1.layer.slots.Perm [0, 1, 2] := hp1.trans hperm
  have hlen1' : h1.layer.prefetch_.length = 3 := hlen1.trans hlen
  rcases hcase with ⟨loaded, slot, b, rfl, hslot, hb, hpushed, hc⟩
    | ⟨slot, b, rfl, hslot, hb, hpushed, hc⟩ | ⟨ha, hpushed, hc⟩
  · -- the loader's push
    obtain ⟨slot1, hslot1, hl1⟩ := Layer.loader_push_some hl
    rw [hslot] at hslot1
    simp only [Option.some.injEq] at hslot1
    subst hslot1
    have hnd : h.layer.slots.Nodup := hperm.nodup_iff.mpr (by decide)
    have hcount := List.nodup_iff_count_le_one.mp hnd slot
    have hsome : (some slot).toList = [slot] := rfl
    simp only [Layer.slots, hslot, hsome, List.count_append,
      List.count_singleton_self] at hcount
    have hnot : ∀ x ∈ h.layer.forward.toList ++ h.layer.prefetch_full_.queue_, slot ≠ x := by
      intro x hx hxs
      subst hxs
      have hpos : 0 < (h.layer.forward.toList ++ h.layer.prefetch_full_.queue_).count slot :=
        List.count_pos_iff.mpr hx
      rw [List.count_append] at hpos
      omega
    have hpend : h1.layer.pending = h.layer.pending ++ [some b] := by
      rw [hl1] at hb ⊢
      simp only [Layer.pending, BlockingQueue.push]
      rw [← List.append_assoc, List.map_append]
      congr 1
      · apply List.map_congr_left
        intro x hx
        exact List.getElem?_set_ne (hnot x hx)
      · simpa using hb
    refine ⟨hperm1, hlen1', ?_, ?_, ?_, ?_⟩
    · rw [hpushed, hc, List.map_append, hfifo, hpend, List.append_assoc]
      rfl
    · rw [hl1]; exact hlab
    · rw [hl1]; exact htop
    · rw [hc]; exact hcalls
  · -- the second half of `Forward_cpu`
    obtain ⟨slot1, b1, hslot1, hb1, -, hl1⟩ := Layer.Forward_cpu_push_some hl
    rw [hslot] at hslot1
    simp only [Option.some.injEq] at hslot1
    subst hslot1
    rw [hb] at hb1
    simp only [Option.some.injEq] at hb1
    subst hb1
    refine ⟨hperm1, hlen1', ?_, ?_, ?_, ?_⟩
    · rw [hpushed, hc, hfifo, hl1]
      simp [Layer.pending, hslot, hb]
    · rw [hl1]; exact hlab
    · rw [hl1]
      simp only [Layer.Forward_cpu_copy_length]
      exact htop
    · intro c hmem
      rw [hc, List.mem_append, List.mem_singleton] at hmem
      rcases hmem with hmem | rfl
      · exact hcalls c hmem
      · refine ⟨htop, ?_⟩
        rw [hl1]
        show h.layer.Forward_cpu_copy b
          = ({ Layer.new.LayerSetUp top with top := h.layer.top }).Forward_cpu_copy b
        exact @Layer.Forward_cpu_copy_congr
          ({ Layer.new.LayerSetUp top with top := h.layer.top }) h.layer
          (by rw [hlab]; rfl) rfl b
  · rcases ha with rfl | rfl
    · obtain ⟨slot, rest, hnone, hq, hl1⟩ := Layer.loader_pop_some hl
      refine ⟨hperm1, hlen1', ?_, ?_, ?_, ?_⟩
      · rw [hpushed, hc, hfifo, hl1]; rfl
      · rw [hl1]; exact hlab
      · rw [hl1]; exact htop
      · rw [hc]; exact hcalls
    · obtain ⟨slot, rest, hnone, hq, hl1⟩ := Layer.Forward_cpu_pop_some hl
      refine ⟨hperm1, hlen1', ?_, ?_, ?_, ?_⟩
      · rw [hpushed, hc, hfifo, hl1]
        simp [Layer.pending, hnone, hq]
      · rw [hl1]; exact hlab
      · rw [hl1]; exact htop
      · rw [hc]; exact hcalls

theorem InvFifo.fifo_run {top : List Blob} (acts : List LayerAction) :
    ∀ {h h1 : LayerHistory}, InvFifo top h → h.run acts = some h1 → InvFifo top h1 := by
  induction acts with
  | nil =>
    intro h h1 hi hr
    simp only [LayerHistory.run, Option.some.injEq] at hr
    exact hr ▸ hi
  | cons a rest ih =>
    intro h h1 hi hr
    simp only [LayerHistory.run] at hr
    cases ha : h.step a with
    | none => simp [ha] at hr
    | some h2 =>
      simp only [ha] at hr
      exact ih (hi.fifo_step ha) hr

theorem LayerHistory.run_invFifo {top : List Blob} {acts : List LayerAction} {h : LayerHistory}
    (hrun : (LayerHistory.init top).run acts = some h) : InvFifo top h :=
  InvFifo.fifo_run acts (InvFifo.fifo_init top) hrun

/-- The batch that the `k`-th call copied is the `k`-th batch pushed. -/
theorem InvFifo.call_batch {top : List Blob} {h : LayerHistory} (hi : InvFifo top h) {k : Nat}
    {c : ForwardCall} (hc : h.calls[k]? = some c) : h.pushed[k]? = some c.batch := by
  have hk : k < h.calls.length := (List.getElem?_eq_some.mp hc).1
  have e := congrArg (fun l => l[k]?) hi.fifo
  simp only [List.getElem?_map] at e
  rw [List.getElem?_append_left (by simpa using hk), List.getElem?_map, hc] at e
  cases hp : h.pushed[k]? with
  | none => rw [hp] at e; simp at e
  | some b =>
    rw [hp] at e
    simpa using e

/-- C12, `Forward_cpu` delivers the batches first-in first-out.  In every
state reached by an interleaving of loader steps and `Forward_cpu` steps
after `LayerSetUp` with the top blobs `top`, for the `k`-th completed call `c`
of `Forward_cpu`: (1) the batch it copied from is the `k`-th batch the loader
pushed to `prefetch_full_`; (2) `top[0]` is reshaped like that batch's data
and the first `count` elements of the data are copied into it; (3) the layer
outputs labels exactly when `LayerSetUp` saw a number of top blobs other than
1; (4) in that case `top[1]` gets the batch's label in the same way and the
other top blobs are left as they were; (5) otherwise only `top[0]` is
touched.  (6) A whole call of `Forward_cpu` in the state reached copies from
the batch pushed at position `calls.length`, the next in order. -/
theorem forward_fifo (top : List Blob) (acts : List LayerAction) (h : LayerHistory)
    (hrun : (LayerHistory.init top).run acts = some h) (k : Nat) (c : ForwardCall)
    (hc : h.calls[k]? = some c) :
    h.pushed[k]? = some c.batch
    ∧ (c.top_before.length = top.length ∧ c.top_after.length = top.length
      ∧ c.top_after[0]? = c.top_before[0]?.map
          (fun t => caffe_copy c.batch.data_.count c.batch.data_ (t.ReshapeLike c.batch.data_))
      ∧ ∀ t, c.top_before[0]? = some t → ∃ t1, c.top_after[0]? = some t1
          ∧ t1.shape = c.batch.data_.shape
          ∧ t1.data = c.batch.data_.data.take c.batch.data_.count
              ++ t.data.drop c.batch.data_.count)
    ∧ (h.layer.output_labels_ = true ↔ top.length ≠ 1)
    ∧ (top.length ≠ 1 →
        c.top_after[1]? = c.top_before[1]?.map
          (fun t => caffe_copy c.batch.label_.count c.batch.label_
            (t.ReshapeLike c.batch.label_))
        ∧ ∀ j, 2 ≤ j → c.top_after[j]? = c.top_before[j]?)
    ∧ (top.length = 1 →
        c.top_after = c.top_before.modify
          (fun t => caffe_copy c.batch.data_.count c.batch.data_ (t.ReshapeLike c.batch.data_)) 0
        ∧ ∀ j, 1 ≤ j → c.top_after[j]? = c.top_before[j]?)
    ∧ (∀ l1, h.layer.Forward_cpu = some l1 →
        ∃ b, h.pushed[h.calls.length]? = some b ∧ l1.top = h.layer.Forward_cpu_copy b) := by
  have hi := LayerHistory.run_invFifo hrun
  obtain ⟨hblen, hafter⟩ := hi.calls c (List.getElem?_mem hc)
  have hlab : h.layer.output_labels_ = true ↔ top.length ≠ 1 := by
    rw [hi.labels]
    by_cases h1 : top.length = 1 <;> simp [h1]
  refine ⟨hi.call_batch hc, ⟨hblen, ?_, ?_, ?_⟩, hlab, ?_, ?_, ?_⟩
  · rw [hafter, Layer.Forward_cpu_copy_length]
    exact hblen
  · rw [hafter]
    simp only [Layer.Forward_cpu_copy]
    split <;> simp [List.getElem?_modify]
  · intro t ht
    refine ⟨caffe_copy c.batch.data_.count c.batch.data_ (t.ReshapeLike c.batch.data_), ?_,
      rfl, rfl⟩
    rw [hafter]
    simp only [Layer.Forward_cpu_copy]
    split <;> simp [List.getElem?_modify, ht]
  · intro hne
    have hl : (Layer.new.LayerSetUp top).output_labels_ = true := by
      simp [Layer.LayerSetUp, hne]
    rw [hafter]
    simp only [Layer.Forward_cpu_copy, hl, if_true]
    refine ⟨by simp [List.getElem?_modify], ?_⟩
    intro j hj
    have h0 : ¬ (0 = j) := by omega
    have h1 : ¬ (1 = j) := by omega
    simp [List.getElem?_modify, h0, h1]
  · intro heq
    have hl : (Layer.new.LayerSetUp top).output_labels_ = false := by
      simp [Layer.LayerSetUp, heq]
    rw [hafter]
    simp only [Layer.Forward_cpu_copy, hl, Bool.false_eq_true, if_false]
    refine ⟨trivial, ?_⟩
    intro j hj
    have h0 : ¬ (0 = j) := by omega
    simp [List.getElem?_modify, h0]
  · intro l1 hf
    unfold Layer.Forward_cpu at hf
    split at hf
    · simp at hf
    · rename_i l2 hpop
      obtain ⟨slot, rest, hnone, hq, rfl⟩ := Layer.Forward_cpu_pop_some hpop
      obtain ⟨slot1, b, hs1, hb, -, rfl⟩ := Layer.Forward_cpu_push_some hf
      simp only [Option.some.injEq] at hs1
      subst hs1
      refine ⟨b, ?_, rfl⟩
      have e := congrArg (fun l => l[h.calls.length]?) hi.fifo
      simp only [List.getElem?_map] at e
      rw [List.getElem?_append_right (by simp)] at e
      simp only [List.length_map, Nat.sub_self, Layer.pending, hnone, hq, Option.toList,
        List.nil_append, List.map_cons, List.getElem?_cons_zero] at e
      have hb' : h.layer.prefetch_[slot]? = some b := hb
      rw [hb'] at e
      cases hp : h.pushed[h.calls.length]? with
      | none => rw [hp] at e; simp at e
      | some b0 =>
        rw [hp] at e
        simp only [Option.map_some', Option.some.injEq] at e
        rw [e]

theorem scenario_forward_run :
    ((LayerHistory.init two_tops).run scenario_forward).map (fun h => h.calls[1]?)
      = some (some
          { batch := batch8
            top_before := [{ shape := [1], data := [7] }, { shape := [1], data := [1] }]
            top_after := [{ shape := [2], data := [8, 9] }, { shape := [1], data := [0] }] }) := by
  decide

/-- C12, witness: the loader pushes `batch7` then `batch8`, the layer was set
up with two top blobs; the second call of `Forward_cpu` copies from the second
batch pushed, its data to `top[0]` and its label to `top[1]`. -/
theorem forward_fifo_witness :
    ∃ h c, (LayerHistory.init two_tops).run scenario_forward = some h
      ∧ h.calls[1]? = some c ∧ c.batch = batch8 ∧ h.pushed[1]? = some batch8
      ∧ c.top_after[0]? = some { shape := [2], data := [8, 9] }
      ∧ c.top_after[1]? = some { shape := [1], data := [0] } := by
  have hsome : ((LayerHistory.init two_tops).run scenario_forward).isSome = true := by decide
  obtain ⟨h, hh⟩ := Option.isSome_iff_exists.mp hsome
  have hrun := scenario_forward_run
  rw [hh] at hrun
  simp only [Option.map_some', Option.some.injEq] at hrun
  obtain ⟨h1, -, -, -, -, -⟩ := forward_fifo two_tops scenario_forward h hh 1 _ hrun
  exact ⟨h, _, hh, hrun, rfl, h1, rfl, rfl⟩

end caffe
